import Mathlib

/-!
Verification of the ddb storage engine against its specification.

Bytes are modelled as `Fin 256`, Go byte slices as `Option (List Byte)`
(`none` is Go's nil slice, `some l` a non-nil slice), 32/64-bit machine
integers as `Nat`/`Int` with explicit `% 2 ^ 32` (resp. range side
conditions) at the points where Go converts or could overflow.

The definitions below are shallow embeddings of the Go sources of the
repository (`server/database.go`, `server/server.go`, the descriptor code,
`wal/scanner.go`, the wal file-listing and GC code, `sst/sstwriter.go`,
`sst/datablock.go`, the prefix-coded index block, the sst reader,
the block cache `sst/cache.go`, and the memtable).  The `orderedcode`
codec is not part of the repository sources (only its test vectors are),
so it is modelled from the specification, as marked on its definitions.
-/

namespace DDB

abbrev Byte := Fin 256

abbrev ByteStr := List Byte

/-- Go byte slice: `none` models a nil slice, `some l` a non-nil slice. -/
abbrev GoBytes := Option ByteStr

/-- Length of a Go byte slice (`len(nil) = 0`). -/
def goLen : GoBytes → Nat
  | none => 0
  | some l => l.length

/-- Go byte-wise string comparison `<` (lexicographic on bytes). -/
def strLt : ByteStr → ByteStr → Bool
  | [], [] => false
  | [], _ :: _ => true
  | _ :: _, [] => false
  | a :: as, b :: bs => if a < b then true else if b < a then false else strLt as bs

/-- Go byte-wise string comparison `<=`. -/
def strLe (a b : ByteStr) : Bool := !(strLt b a)

/-- Error values observed by the embedded code.  Distinct constructors model
the distinct Go error values the claims talk about. -/
inductive GoErr where
  | eof            -- io.EOF
  | unexpectedEOF  -- io.ErrUnexpectedEOF
  | checksumMismatch
  | corrupt        -- sst.ErrCorruption
  | notFound       -- sst.ErrNotFound
  | notExist       -- os.ErrNotExist
  | fatalErr       -- glog.Fatalf: process termination
  | varintOverflow -- binary.ReadUvarint overflow
  deriving DecidableEq, Repr

/-- Model of an `os.File` opened for reading (`bytes.Reader` shares it):
the contents plus a read position. -/
structure FileR where
  data : ByteStr
  pos : Nat
  deriving DecidableEq, Repr

/-- Remaining unread bytes, as Go's `bytes.Reader.Len` (0 when past the end). -/
def FileR.len (f : FileR) : Nat := f.data.length - f.pos

/-- Model of `io.ReadFull(f, buf)` for a buffer of length `n`: full read on
enough data; `io.EOF` when no byte is available; `io.ErrUnexpectedEOF` on a
partial read. -/
def readFull (f : FileR) (n : Nat) : Except GoErr (ByteStr × FileR) :=
  if n ≤ f.len then .ok ((f.data.drop f.pos).take n, { f with pos := f.pos + n })
  else if f.len = 0 then .error .eof
  else .error .unexpectedEOF

/-- Model of reading one byte (`io.ByteReader.ReadByte`). -/
def readByte (f : FileR) : Except GoErr (Byte × FileR) :=
  match f.data.drop f.pos with
  | [] => .error .eof
  | b :: _ => .ok (b, { f with pos := f.pos + 1 })

/-- Seek relative to the start (`io.SeekStart`). -/
def seekStart (f : FileR) (o : Nat) : FileR := { f with pos := o }

/-- Seek forward from the current position (`io.SeekCurrent`). -/
def seekCur (f : FileR) (o : Nat) : FileR := { f with pos := f.pos + o }

/-- CRC-32C (Castagnoli) bit step, reflected polynomial 0x82F63B78. -/
def crc32cStep (c : Nat) : Nat :=
  if c % 2 = 1 then (c / 2) ^^^ 0x82F63B78 else c / 2

/-- CRC-32C update for one byte. -/
def crc32cByte (c : Nat) (b : Byte) : Nat := crc32cStep^[8] (c ^^^ b.val)

/-- CRC-32C of a byte string (`crc32.Checksum` with the Castagnoli table). -/
def crc32c (d : ByteStr) : Nat := (d.foldl crc32cByte 0xFFFFFFFF) ^^^ 0xFFFFFFFF

/-- Little-endian value of a (4-byte) byte string (`binary.LittleEndian.Uint32`). -/
def leVal : ByteStr → Nat
  | [] => 0
  | b :: bs => b.val + 256 * leVal bs

/-- Little-endian encoding of `x % 2^32` into 4 bytes (`binary.LittleEndian.PutUint32`). -/
def putUint32LE (x : Nat) : ByteStr :=
  [⟨x % 256, Nat.mod_lt _ (by norm_num)⟩,
   ⟨x / 256 % 256, Nat.mod_lt _ (by norm_num)⟩,
   ⟨x / 256 ^ 2 % 256, Nat.mod_lt _ (by norm_num)⟩,
   ⟨x / 256 ^ 3 % 256, Nat.mod_lt _ (by norm_num)⟩]

/-- Little-endian encoding of `x % 2^64` into 8 bytes (`binary.LittleEndian.PutUint64`). -/
def putUint64LE (x : Nat) : ByteStr :=
  putUint32LE (x % 2 ^ 32) ++ putUint32LE (x / 2 ^ 32)

/-! ### Engine validation and the Set path (server/database.go, server/server.go) — claim C8 -/

def MaxKeySize : Nat := 4 * 1024

def MaxValueSize : Nat := 512 * 1024

/-- gRPC status codes appearing in the embedded code. -/
inductive GrpcCode where
  | invalidArgument
  | notFound
  | internalErr
  deriving DecidableEq, Repr

/-- Embedding of `validateKey` (server/database.go): empty keys are rejected,
then the length is converted to `uint32` (hence taken modulo `2^32`) and
compared against `MaxKeySize`. -/
def validateKey (k : ByteStr) : Option GrpcCode :=
  if k = [] then some .invalidArgument
  else if k.length % 2 ^ 32 > MaxKeySize then some .invalidArgument
  else none

/-- Embedding of `validateValue` (server/database.go): the length is converted
to `uint32` (modulo `2^32`) and compared against `MaxValueSize`. -/
def validateValue (v : GoBytes) : Option GrpcCode :=
  if goLen v % 2 ^ 32 > MaxValueSize then some .invalidArgument
  else none

inductive MutationType where
  | put
  | delete
  deriving DecidableEq, Repr

structure Mutation where
  key : ByteStr
  timestamp : Int
  value : GoBytes
  mtype : MutationType
  deriving DecidableEq, Repr

structure LogRecord where
  sequence : Int
  mutation : Option Mutation
  deriving DecidableEq, Repr

/-- One row of the memtable as inserted by the apply path. -/
structure MemRow where
  seq : Int
  key : ByteStr
  ts : Int
  value : GoBytes
  deriving DecidableEq, Repr

/-- Engine state touched by `database.Set`: the WAL contents and the live
memtable rows (in insertion order). -/
structure DbState where
  wal : List LogRecord
  mem : List MemRow
  nextSeq : Int
  deriving DecidableEq, Repr

/-- Embedding of `database.apply`: a PUT inserts the value, a DELETE inserts
a nil value (tombstone). -/
def dbApply (st : DbState) (l : LogRecord) : DbState :=
  match l.mutation with
  | none => st
  | some m =>
    match m.mtype with
    | .put => { st with mem := st.mem ++ [⟨l.sequence, m.key, m.timestamp, m.value⟩] }
    | .delete => { st with mem := st.mem ++ [⟨l.sequence, m.key, m.timestamp, none⟩] }

/-- Embedding of `database.Set` (server/database.go, lines 158-201): validate
the key, validate the value, build a PUT log record, append it to the WAL
(which stamps the next sequence number), and in the completion callback apply
the record to the memtable.  The caller-supplied timestamp stands for
`time.Now().UnixNano() / 1000`.  The memtable-flush trigger mutates no state
observed by this claim and is omitted. -/
def dbSet (st : DbState) (key : ByteStr) (value : GoBytes) (ts : Int) :
    Except GrpcCode (DbState × Int) :=
  match validateKey key with
  | some e => .error e
  | none =>
    match validateValue value with
    | some e => .error e
    | none =>
      let l : LogRecord := ⟨st.nextSeq, some ⟨key, ts, value, .put⟩⟩
      let st1 : DbState := { st with wal := st.wal ++ [l], nextSeq := st.nextSeq + 1 }
      .ok (dbApply st1 l, ts)

/-! ### The read path `database.Find` (server/database.go, lines 222-270) — claim C1 -/

/-- Result of one `sst.Reader.Find` call as observed by `database.Find`. -/
inductive SstRes where
  | notFound
  | fail (e : GoErr)
  | hit (v : GoBytes) (ts : Int)
  deriving DecidableEq, Repr

/-- Value of `math.MinInt64`. -/
def int64Min : Int := -(2 ^ 63)

/-- Embedding of the SST loop inside `database.Find`: skip `ErrNotFound`,
propagate other errors, and keep the hit with the greatest timestamp
(`ts > valueTs`), starting from `value = nil, valueTs = math.MinInt64`. -/
def findSstLoop : List (ByteStr → SstRes) → ByteStr → GoBytes → Int → Except GoErr GoBytes
  | [], _, value, _ => .ok value
  | s :: rest, key, value, valueTs =>
    match s key with
    | .notFound => findSstLoop rest key value valueTs
    | .fail e => .error e
    | .hit v ts =>
      if valueTs < ts then findSstLoop rest key v ts
      else findSstLoop rest key value valueTs

/-- Embedding of `database.Find`: consult the live memtable, then the frozen
memtable if one exists, and only on a miss in both run the SST loop.
Memtables are abstracted by their `Find` functions returning Go's
`(value, found)` pair; SSTs by their `Find` results per key. -/
def dbFind (memF : ByteStr → GoBytes × Bool) (imem : Option (ByteStr → GoBytes × Bool))
    (ssts : List (ByteStr → SstRes)) (key : ByteStr) : Except GoErr GoBytes :=
  let p := memF key
  if p.2 then .ok p.1
  else
    let ihit : Option GoBytes :=
      match imem with
      | some imemF =>
        let q := imemF key
        if q.2 then some q.1 else none
      | none => none
    match ihit with
    | some v2 => .ok v2
    | none => findSstLoop ssts key none int64Min

/-- Hits of the SST list on a key, in SST order (value, timestamp). -/
def sstHits (ssts : List (ByteStr → SstRes)) (key : ByteStr) : List (GoBytes × Int) :=
  ssts.filterMap fun s =>
    match s key with
    | .hit v ts => some (v, ts)
    | _ => none

/-- Whether some SST returns a non-NotFound error for the key. -/
def sstHasFail (ssts : List (ByteStr → SstRes)) (key : ByteStr) : Bool :=
  ssts.any fun s =>
    match s key with
    | .fail _ => true
    | _ => false

/-! ### WAL segment scanner (wal/scanner.go, fileScanner.Scan) — claim C5 -/

/-- Result of one `fileScanner.Scan` call: whether a record was produced, the
advanced file state, the scanner error (`nil` modelled as `none`), and the
raw payload of the record read (the `proto.Unmarshal` step is treated as the
identity on the payload; its success or failure is irrelevant to this claim). -/
structure ScanRes where
  hasNext : Bool
  file : FileR
  err : Option GoErr
  payload : Option ByteStr
  deriving DecidableEq, Repr

/-- Embedding of `fileScanner.Scan` (wal/scanner.go, lines 137-172): read the
8-byte frame header with `io.ReadFull` (clearing only `io.EOF`), read the
payload, verify CRC-32C, and expose the record. -/
def fsScan (f : FileR) : ScanRes :=
  match readFull f 8 with
  | .error e =>
    if e = .eof then ⟨false, f, none, none⟩
    else ⟨false, f, some e, none⟩
  | .ok (scratch, f1) =>
    let dataLen := leVal (scratch.take 4)
    let crc := leVal (scratch.drop 4)
    match readFull f1 dataLen with
    | .error e => ⟨false, f1, some e, none⟩
    | .ok (data, f2) =>
      let c := crc32c data
      if c ≠ crc then ⟨false, f2, some .checksumMismatch, none⟩
      else ⟨true, f2, none, some data⟩

/-! ### WAL segment GC (wal CleanUnusedFiles and listLogFiles) — claim C6 -/

/-- Insert into an ascending list (helper for the sort in `listLogFiles`). -/
def insSorted (x : Int) : List Int → List Int
  | [] => [x]
  | y :: ys => if x < y then x :: y :: ys else y :: insSorted x ys

/-- Embedding of `listLogFiles`: the WAL directory is modelled by the list of
segment starting sequence numbers (parsed from the `wal-<seq>.log` names);
the listing is sorted ascending by sequence number. -/
def listLogFiles (dir : List Int) : List Int :=
  dir.foldl (fun acc x => insSorted x acc) []

/-- Loop body of `CleanUnusedFiles`: walking the sorted listing, a segment is
deleted when the *next* segment's starting sequence number is `<`
`appliedUntil` (the `i > 0` guard means the deletion always targets the
previous element). Returns the deleted segments. -/
def cleanLoop (appliedUntil : Int) : Option Int → List Int → List Int
  | _, [] => []
  | prev, pn :: rest =>
    match prev with
    | some pv =>
      if pn < appliedUntil then pv :: cleanLoop appliedUntil (some pn) rest
      else cleanLoop appliedUntil (some pn) rest
    | none => cleanLoop appliedUntil (some pn) rest

/-- Embedding of `wal.CleanUnusedFiles`: list + sort the segments, then delete
every segment whose successor's starting sequence number is `<` appliedUntil. -/
def cleanUnusedFiles (dir : List Int) (appliedUntil : Int) : List Int :=
  cleanLoop appliedUntil none (listLogFiles dir)

/-! ### Descriptor load/save (server descriptor code) — claim C2 -/

/-- Embedding of `findLatestFile`: the descriptor directory is modelled by the
list of versions `N` of the `descriptor.N` files present.  The maximum version
is computed, but the function returns the *named return value* `version`,
which the loop shadows and never assigns — so on success the returned version
is always its zero value `0`, not the maximum.  This mirrors the source
faithfully (`return maxName, version, nil`). -/
def findLatestFile (dir : List Int) : Except GoErr (Int × Int) :=
  let maxVersion := dir.foldl (fun mv v => if v > mv then v else mv) (-1)
  if maxVersion = -1 then .error .notExist
  else .ok (maxVersion, 0)

/-- Embedding of `LoadDescriptor`'s version bookkeeping: the resulting
`Descriptor.version` is the version returned by `findLatestFile` plus one.
The returned pair is (version field of the loaded descriptor, version of the
file actually read). -/
def loadDescriptor (dir : List Int) : Except GoErr (Int × Int) :=
  match findLatestFile dir with
  | .error e => .error e
  | .ok (name, version) => .ok (version + 1, name)

/-- Create a file (Go's `os.Create` truncates, so the set of present files
gains the name if absent). -/
def fsCreate (files : List Int) (v : Int) : List Int :=
  if v ∈ files then files else files ++ [v]

/-- Remove a file name from the directory. -/
def fsRemove (files : List Int) (v : Int) : List Int := files.erase v

/-- Embedding of `Descriptor.Save`'s file bookkeeping: remember
`curFn = descriptor.<version>`, increment the version, write
`descriptor.<version+1>`, then best-effort delete `curFn`.  Returns the new
directory contents, the new `Descriptor.version`, and the version of the file
written. -/
def descSave (files : List Int) (version : Int) : List Int × Int × Int :=
  let curFn := version
  let v1 := version + 1
  let nextFn := v1
  (fsRemove (fsCreate files nextFn) curFn, v1, nextFn)

/-- Fold step of the SST loop of `database.Find`: keep the incumbent unless the
new hit has a strictly greater timestamp. -/
def hitStep (p q : GoBytes × Int) : GoBytes × Int :=
  if p.2 < q.2 then q else p

/-- The first hit whose timestamp is greatest (none for an empty list). -/
def firstMaxHit (hs : List (GoBytes × Int)) : Option (GoBytes × Int) :=
  hs.find? fun p => hs.all fun q => q.2 ≤ p.2


/-! ### Block cache (sst/cache.go) — claim C7 -/

/-- Value stored in a cache list element (`cacheEntry`). -/
structure CacheEntry where
  key : ByteStr
  data : ByteStr
  old : Bool
  deriving DecidableEq, Repr

/-- Model of `sst.Cache`.  Go `container/list` elements are modelled by
numeric identities: `store` maps an element id to the `cacheEntry` it carries
(set when the element is created and never mutated afterwards — Go code reads
`e.Value` into a *copy*), `young`/`old` hold the element ids of the two lists
front-first, and `entries` is the key → element map.  Sizes are `int64`. -/
structure Cache where
  entries : List (ByteStr × Nat)
  store : List (Nat × CacheEntry)
  young : List Nat
  old : List Nat
  youngSize : Int
  oldSize : Int
  targetYoungSize : Int
  targetOldSize : Int
  nextElem : Nat
  deriving DecidableEq, Repr

/-- Lookup in the key → element map. -/
def assocFind (m : List (ByteStr × Nat)) (k : ByteStr) : Option Nat :=
  match m.find? (fun p => p.1 = k) with
  | some p => some p.2
  | none => none

/-- Delete a key from the key → element map (`delete(c.entries, key)`). -/
def assocErase (m : List (ByteStr × Nat)) (k : ByteStr) : List (ByteStr × Nat) :=
  m.filter (fun p => ¬ (p.1 = k))

/-- Value carried by a list element (`e.Value`); an id that was never
allocated yields a dummy entry, which reachable states never exhibit. -/
def storeGet (st : List (Nat × CacheEntry)) (eid : Nat) : CacheEntry :=
  match st.find? (fun p => p.1 = eid) with
  | some p => p.2
  | none => ⟨[], [], false⟩

/-- Go's `list.Remove(e)`: the element is unlinked only when it currently
belongs to this list (`e.list == l`); the returned value is `e.Value` either
way. -/
def listRemove (l : List Nat) (eid : Nat) : List Nat :=
  if eid ∈ l then l.erase eid else l

/-- Go's `list.MoveToFront(e)`: only acts when the element belongs to the
list. -/
def moveToFront (l : List Nat) (eid : Nat) : List Nat :=
  if eid ∈ l then eid :: l.erase eid else l

/-- Embedding of `NewCache`: young target is a fifth of the capacity, old the
rest; non-positive targets are fatal (`none`). -/
def newCache (targetSize : Int) : Option Cache :=
  let targetYoungSize := targetSize / 5
  let targetOldSize := targetSize - targetYoungSize
  if targetYoungSize ≤ 0 ∨ targetOldSize ≤ 0 then none
  else some ⟨[], [], [], [], 0, 0, targetYoungSize, targetOldSize, 0⟩

/-- One iteration of the first eviction loop: while `oldSize > targetOldSize`,
unlink the back of `old` and push its value onto the front of `young` (as a
fresh element).  The fuel bounds the iterations by the length of `old`; Go
would nil-panic if `old` ran empty while `oldSize > targetOldSize`, which the
size accounting prevents. -/
def evictOldLoop : Nat → Cache → Cache
  | 0, c => c
  | fuel + 1, c =>
    if c.oldSize > c.targetOldSize then
      match c.old.getLast? with
      | none => c
      | some eid =>
        let ce := storeGet c.store eid
        let s := (ce.data.length : Int)
        evictOldLoop fuel
          { c with
            old := listRemove c.old eid,
            young := c.nextElem :: c.young,
            store := c.store ++ [(c.nextElem, ce)],
            nextElem := c.nextElem + 1,
            oldSize := c.oldSize - s,
            youngSize := c.youngSize + s }
    else c

/-- One iteration of the second eviction loop: while
`youngSize > targetYoungSize`, unlink the back of `young`, drop its key from
the map, and discount its size. -/
def evictYoungLoop : Nat → Cache → Cache
  | 0, c => c
  | fuel + 1, c =>
    if c.youngSize > c.targetYoungSize then
      match c.young.getLast? with
      | none => c
      | some eid =>
        let ce := storeGet c.store eid
        evictYoungLoop fuel
          { c with
            young := listRemove c.young eid,
            entries := assocErase c.entries ce.key,
            youngSize := c.youngSize - (ce.data.length : Int) }
    else c

/-- Embedding of `Cache.runEviction`. -/
def runEviction (c : Cache) : Cache :=
  let c1 := evictOldLoop c.old.length c
  evictYoungLoop c1.young.length c1

/-- Embedding of `Cache.Get`: on a miss return nil; on a hit read `e.Value`
into the local copy `ce`.  If the copy is marked old, move the element to the
front of `old`; otherwise the code sets `old` on the *copy* (which mutates no
state), pushes `c.young.Remove(e)` — i.e. the stored value, still with
`old = false` — onto the front of `old` as a fresh element without updating
`c.entries`, migrates the size accounting, and runs eviction. -/
def cacheGet (c : Cache) (key : ByteStr) : Option ByteStr × Cache :=
  match assocFind c.entries key with
  | none => (none, c)
  | some eid =>
    let ce := storeGet c.store eid
    if ce.old then
      (some ce.data, { c with old := moveToFront c.old eid })
    else
      let s := (ce.data.length : Int)
      let c1 :=
        { c with
          young := listRemove c.young eid,
          old := c.nextElem :: c.old,
          store := c.store ++ [(c.nextElem, ce)],
          nextElem := c.nextElem + 1,
          oldSize := c.oldSize + s,
          youngSize := c.youngSize - s }
      (some ce.data, runEviction c1)

/-- Embedding of `Cache.Insert`: duplicates are dropped; otherwise a fresh
element carrying `{key, data, old: false}` is pushed onto young's front and
eviction runs. -/
def cacheInsert (c : Cache) (key : ByteStr) (data : ByteStr) : Cache :=
  match assocFind c.entries key with
  | some _ => c
  | none =>
    let c1 :=
      { c with
        entries := c.entries ++ [(key, c.nextElem)],
        store := c.store ++ [(c.nextElem, ⟨key, data, false⟩)],
        young := c.nextElem :: c.young,
        nextElem := c.nextElem + 1,
        youngSize := c.youngSize + (data.length : Int) }
    runEviction c1


/-! ### Memtable skiplist (memtable package) — claim C9 -/

/-- Skiplist ordering on (key, timestamp): keys ascending, timestamps
descending, exactly the advance condition of `findGreaterOrEqual`
(`next.key < key || (next.key == key && next.timestamp > ts)`). -/
def skipBefore (ak : ByteStr) (ats : Int) (bk : ByteStr) (bts : Int) : Bool :=
  strLt ak bk || (ak = bk && decide (bts < ats))

/-- One skiplist node: its key, timestamp, value and top level (0-based; the
node is linked into chains `0..level`; `pickLevel` yields a value in
`[0, 15]`). -/
structure SkipNode where
  key : ByteStr
  ts : Int
  value : GoBytes
  level : Nat
  deriving DecidableEq, Repr

/-- Skiplist order between nodes. -/
def nodeBefore (a b : SkipNode) : Prop := skipBefore a.key a.ts b.key b.ts = true

/-- Advance condition of the level walk for a search target `(key, ts)`. -/
def skipCond (key : ByteStr) (ts : Int) (n : SkipNode) : Bool :=
  skipBefore n.key n.ts key ts

/-- Model of `Memtable`: the level-0 chain of nodes in linked order (higher
chains are the sub-chains of nodes with `level ≥ l`, which is exactly how
`Insert` links a node at levels `0..level` at one ordered position), plus the
size accounting.  A walk position is represented by the list of nodes after
it. -/
structure Memtable where
  rows : List SkipNode
  size : Int
  deriving DecidableEq, Repr

/-- Walk at level `cl` starting from the position before `s`: advance through
nodes visible at this level (`level ≥ cl`) while the advance condition holds;
nodes below the level are invisible.  Returns `some` of the new suffix if the
position moved, `none` otherwise. -/
def advMoved (key : ByteStr) (ts : Int) (cl : Nat) : List SkipNode → Option (List SkipNode)
  | [] => none
  | n :: rest =>
    if cl ≤ n.level then
      if skipCond key ts n then some ((advMoved key ts cl rest).getD rest)
      else none
    else advMoved key ts cl rest

/-- Suffix of nodes after the final position of the level-`cl` walk. -/
def advanceLevel (key : ByteStr) (ts : Int) (cl : Nat) (s : List SkipNode) : List SkipNode :=
  (advMoved key ts cl s).getD s

/-- Embedding of the level descent of `findGreaterOrEqual`: walk level `cl`,
then continue from the stopping position one level down, ending with the
level-0 walk. -/
def descend (key : ByteStr) (ts : Int) : Nat → List SkipNode → List SkipNode
  | 0, s => advanceLevel key ts 0 s
  | cl + 1, s => descend key ts cl (advanceLevel key ts (cl + 1) s)

def maxLevel : Nat := 16

/-- Embedding of `findGreaterOrEqual(key, timestamp, ...)`: descend from level
`maxLevel - 1`; the returned node is the head of the final level-0 suffix. -/
def findGE (rows : List SkipNode) (key : ByteStr) (ts : Int) : List SkipNode :=
  descend key ts (maxLevel - 1) rows

def int64Max : Int := 2 ^ 63 - 1

/-- Embedding of `Memtable.Find`: fatal on the empty key; otherwise search for
`(key, math.MaxInt64)` and return the node's value when its key matches
(`nil` otherwise).  A fatal `glog.Fatal` is modelled as `.error .fatalErr`. -/
def mtFind (m : Memtable) (key : ByteStr) : Except GoErr GoBytes :=
  if key = [] then .error .fatalErr
  else
    match (findGE m.rows key int64Max).head? with
    | some n => if n.key = key then .ok n.value else .ok none
    | none => .ok none

/-- Embedding of `Memtable.Insert`: fatal on the empty key; fatal when the
node found by `findGreaterOrEqual` carries exactly `(key, timestamp)`
(duplicate); otherwise a node of the oracle-chosen `level` is linked at the
found position (in this representation: inserted into the level-0 chain
there) and the size accounting grows by
`len(key) + len(value) + 8 + 8*(level+1)`. -/
def mtInsert (m : Memtable) (key : ByteStr) (ts : Int) (value : GoBytes) (level : Nat) :
    Except GoErr Memtable :=
  if key = [] then .error .fatalErr
  else
    let suffix := findGE m.rows key ts
    let dup :=
      match suffix.head? with
      | some n => n.ts = ts && n.key = key
      | none => false
    if dup then .error .fatalErr
    else
      .ok ⟨m.rows.take (m.rows.length - suffix.length) ++ ⟨key, ts, value, level⟩ :: suffix,
        m.size + ((key.length : Int) + (goLen value : Int) + 8 + 8 * ((level : Int) + 1))⟩

/-! ### Varints (Go encoding/binary) and the OrderedCode codec -/

/-- Byte from a natural number, reduced modulo 256 (Go's `byte(x)`). -/
def byteOf (x : Nat) : Byte := ⟨x % 256, Nat.mod_lt x (by norm_num)⟩

/-- Unsigned varint encoder (`binary.PutUvarint`): little-endian 7-bit groups
with a continuation bit.  The fuel of 10 covers every `uint64`
(`binary.MaxVarintLen64`). -/
def putUvarintAux : Nat → Nat → ByteStr
  | 0, _ => []
  | fuel + 1, x =>
    if x < 128 then [byteOf x]
    else byteOf (x % 128 + 128) :: putUvarintAux fuel (x / 128)

def putUvarint (x : Nat) : ByteStr := putUvarintAux 10 x

/-- Unsigned varint reader (`binary.ReadUvarint`): at most 10 groups, with
the overflow checks of the Go source (`i == 9 && b > 1` and running out of
groups) and `io.EOF` after the first byte turning into
`io.ErrUnexpectedEOF`.  `i` is the 0-based group index; `fuel + i = 10`. -/
def readUvarintLoop : Nat → Nat → FileR → Nat → Nat → Except GoErr (Nat × FileR)
  | 0, _, _, _, _ => .error .varintOverflow
  | fuel + 1, i, f, x, s =>
    match readByte f with
    | .error e => .error (if 0 < i ∧ e = .eof then .unexpectedEOF else e)
    | .ok (b, f1) =>
      if b.val < 128 then
        if i = 9 ∧ b.val > 1 then .error .varintOverflow
        else .ok ((x + b.val * 2 ^ s) % 2 ^ 64, f1)
      else readUvarintLoop fuel (i + 1) f1 ((x + (b.val % 128) * 2 ^ s) % 2 ^ 64) (s + 7)

def readUvarint (f : FileR) : Except GoErr (Nat × FileR) := readUvarintLoop 10 0 f 0 0

/-- Modelled from the spec: OrderedCode string escaping — `0x00 → 0x00 0xFF`
and `0xFF → 0xFF 0x00` (the implementation of the orderedcode package is not
part of the repository sources; only its test vectors are). -/
def ocEscape : ByteStr → ByteStr
  | [] => []
  | b :: rest =>
    if b.val = 0 then b :: byteOf 255 :: ocEscape rest
    else if b.val = 255 then b :: byteOf 0 :: ocEscape rest
    else b :: ocEscape rest

/-- Modelled from the spec: OrderedCode string item — escaped bytes followed
by the terminator `0x00 0x01`. -/
def ocEncStr (s : ByteStr) : ByteStr := ocEscape s ++ [byteOf 0, byteOf 1]

/-- Modelled from the spec: OrderedCode string parser — consume until the
unescaped `0x00 0x01` terminator, undoing the two escapes; anything else is
`Corrupt`.  Returns the decoded string and the remaining bytes. -/
def ocParseStr : ByteStr → Except GoErr (ByteStr × ByteStr)
  | [] => .error .corrupt
  | [_] => .error .corrupt
  | b :: c :: rest =>
    if b.val = 0 then
      if c.val = 1 then .ok ([], rest)
      else if c.val = 255 then
        match ocParseStr rest with
        | .ok (s, r) => .ok (b :: s, r)
        | .error e => .error e
      else .error .corrupt
    else if b.val = 255 then
      if c.val = 0 then
        match ocParseStr rest with
        | .ok (s, r) => .ok (b :: s, r)
        | .error e => .error e
      else .error .corrupt
    else
      match ocParseStr (c :: rest) with
      | .ok (s, r) => .ok (b :: s, r)
      | .error e => .error e

/-- Big-endian bytes of a `k`-byte unsigned integer. -/
def beBytes : Nat → Nat → ByteStr
  | 0, _ => []
  | k + 1, e => byteOf (e / 2 ^ (8 * k)) :: beBytes k (e % 2 ^ (8 * k))

/-- Unsigned value of a big-endian byte string. -/
def beVal : ByteStr → Nat
  | [] => 0
  | b :: rest => b.val * 2 ^ (8 * rest.length) + beVal rest

/-- Modelled from the spec: byte length of the OrderedCode int64 encoding of
a non-negative value — the smallest `k ≥ 1` with `x < 2^(7k-1)`. -/
def i64Len (x : Nat) : Nat :=
  if x < 2 ^ 6 then 1
  else if x < 2 ^ 13 then 2
  else if x < 2 ^ 20 then 3
  else if x < 2 ^ 27 then 4
  else if x < 2 ^ 34 then 5
  else if x < 2 ^ 41 then 6
  else if x < 2 ^ 48 then 7
  else if x < 2 ^ 55 then 8
  else if x < 2 ^ 62 then 9
  else 10

/-- Modelled from the spec: the prefix bits of a `k`-byte non-negative int64
encoding — `k` ones and a zero above a `7k-1`-bit payload, so the encoded
`k`-byte big-endian value is `i64Prefix k + x`. -/
def i64Prefix (k : Nat) : Nat := (2 ^ (k + 1) - 2) * 2 ^ (7 * k - 1)

/-- Modelled from the spec: OrderedCode encoding of a non-negative int64. -/
def encInt64Nonneg (x : Nat) : ByteStr :=
  beBytes (i64Len x) (i64Prefix (i64Len x) + x)

/-- Bitwise complement of a byte. -/
def bnot (b : Byte) : Byte := ⟨255 - b.val, by omega⟩

/-- Modelled from the spec: OrderedCode encoding of an int64 — non-negative
values as above; a negative `x` is the byte-wise complement of the encoding
of `-x-1` (its bitwise NOT), which makes negatives sort below positives. -/
def encInt64 (x : Int) : ByteStr :=
  if 0 ≤ x then encInt64Nonneg x.toNat
  else (encInt64Nonneg (-(x + 1)).toNat).map bnot

/-- Modelled from the spec: the `Decr` wrapper complements every byte of the
wrapped item's encoding. -/
def encInt64Decr (x : Int) : ByteStr := (encInt64 x).map bnot

/-- Number of leading one bits of a byte. -/
def leadOnes8 (b : Byte) : Nat :=
  if b.val < 128 then 0
  else if b.val < 192 then 1
  else if b.val < 224 then 2
  else if b.val < 240 then 3
  else if b.val < 248 then 4
  else if b.val < 252 then 5
  else if b.val < 254 then 6
  else if b.val < 255 then 7
  else 8

/-- Modelled from the spec: length of a non-negative int64 encoding, read
from the leading one bits (spilling into the second byte when the first is
0xFF; at most 10 bytes for an int64). -/
def decInt64Len (s : ByteStr) : Except GoErr Nat :=
  match s with
  | [] => .error .corrupt
  | b :: rest =>
    if b.val = 255 then
      match rest with
      | [] => .error .corrupt
      | c :: _ =>
        let m := leadOnes8 c
        if 2 < m then .error .corrupt else .ok (8 + m)
    else
      let k := leadOnes8 b
      if k = 0 then .error .corrupt else .ok k

/-- Modelled from the spec: decode a non-negative int64 from the front of
`s`; returns the value and the number of bytes consumed. -/
def decInt64Nonneg (s : ByteStr) : Except GoErr (Nat × Nat) := do
  let k ← decInt64Len s
  if s.length < k then .error .corrupt
  else
    let e := beVal (s.take k)
    if e < i64Prefix k then .error .corrupt
    else .ok (e - i64Prefix k, k)

/-- Modelled from the spec: decode an int64 from the front of `s` (a first
byte below 0x80 marks a negative value, decoded from the complemented
bytes). -/
def parseInt64 (s : ByteStr) : Except GoErr (Int × Nat) :=
  match s with
  | [] => .error .corrupt
  | b :: _ =>
    if b.val < 128 then
      match decInt64Nonneg (s.map bnot) with
      | .ok (v, k) => .ok (-((v : Int) + 1), k)
      | .error e => .error e
    else
      match decInt64Nonneg s with
      | .ok (v, k) => .ok ((v : Int), k)
      | .error e => .error e

/-- Modelled from the spec: parse a `Decr`-wrapped int64 (complement, then
decode). -/
def parseInt64Decr (s : ByteStr) : Except GoErr (Int × Nat) := parseInt64 (s.map bnot)

/-- The encoded key stored in SST blocks:
`orderedcode.Append(nil, key, orderedcode.Decr(timestamp))`. -/
def encodeEKey (key : ByteStr) (ts : Int) : ByteStr := ocEncStr key ++ encInt64Decr ts

/-- Embedding of `parseEKey` (sst/datablock.go): parse the string item and
the `Decr` int64 item; the Go code ignores any remainder. -/
def parseEKey (e : ByteStr) : Except GoErr (ByteStr × Int) := do
  let (k, rest) ← ocParseStr e
  let (ts, _) ← parseInt64Decr rest
  .ok (k, ts)

/-! ### Prefix-compressed blocks, SST writer and reader (sst package) — claims C3, C4, C10 -/

def blockSize : Nat := 16 * 1024

def maxVarintLen64 : Nat := 10

def footerSize : Nat := maxVarintLen64 + 4 + 8

def sstMagic : Nat := 0xe489f8a9d479536b

def typeNilByte : Byte := byteOf 1

def typeBytesByte : Byte := byteOf 2

/-- Length of the longest common prefix of two byte strings (the `shared`
loop of `prefixEncoder.EncodeInto`). -/
def commonPrefixLen : ByteStr → ByteStr → Nat
  | a :: as, b :: bs => if a = b then 1 + commonPrefixLen as bs else 0
  | _, _ => 0

/-- State of `prefixEncoder` (restart interval 16 in both block builders). -/
structure PrefixEnc where
  restartInterval : Int
  restarts : List Nat
  lastKey : ByteStr
  count : Int
  deriving DecidableEq, Repr

def newPrefixEnc : PrefixEnc := ⟨16, [0], [], 0⟩

/-- Embedding of `prefixEncoder.EncodeInto`: within a restart interval the
key is emitted as `(shared, nonShared, suffix)` against the previous key; at
a restart the interval counter resets, the offset is recorded (as `uint32`)
and the whole key is emitted (`shared` stays 0).  Returns the extended
buffer and the updated encoder. -/
def PrefixEnc.encodeInto (e : PrefixEnc) (w : ByteStr) (k : ByteStr) (offset : Nat) :
    ByteStr × PrefixEnc :=
  if e.count < e.restartInterval then
    let shared := commonPrefixLen e.lastKey k
    (w ++ putUvarint shared ++ putUvarint (k.length - shared) ++ k.drop shared,
     { e with lastKey := k, count := e.count + 1 })
  else
    (w ++ putUvarint 0 ++ putUvarint k.length ++ k,
     { e with lastKey := k, count := 1, restarts := e.restarts ++ [offset % 2 ^ 32] })

/-- Embedding of `prefixEncoder.WriteRestarts`: each restart offset as a
little-endian `uint32`, then the restart count. -/
def PrefixEnc.writeRestarts (e : PrefixEnc) (w : ByteStr) : ByteStr :=
  w ++ (e.restarts.map putUint32LE).flatten ++ putUint32LE e.restarts.length

/-- Embedding of `prefixEncoder.Reset`. -/
def PrefixEnc.reset (e : PrefixEnc) : PrefixEnc :=
  { e with restarts := e.restarts.take 1, lastKey := [], count := 0 }

/-- Embedding of `prefixDecodeFrom`: two uvarints, the corruption check
`shared > len(lastKey)`, then the non-shared bytes.  The returned reader is
the post-read state; on an error the reader is left at the failing read (a
short `ReadFull` consumes the rest of the buffer). -/
def prefixDecodeFrom (r : FileR) (lastKey : Option ByteStr) :
    (Except GoErr ByteStr) × FileR :=
  match readUvarint r with
  | .error e => (.error e, r)
  | .ok (shared, r1) =>
    match readUvarint r1 with
    | .error e => (.error e, r1)
    | .ok (nonShared, r2) =>
      let lk := lastKey.getD []
      if lk.length < shared then (.error .corrupt, r2)
      else
        match readFull r2 nonShared with
        | .error _ =>
          (.error .unexpectedEOF, { r2 with pos := r2.data.length })
        | .ok (chunk, r3) => (.ok (lk.take shared ++ chunk), r3)

structure BlockHandle where
  offset : Nat
  size : Nat
  deriving DecidableEq, Repr

/-- Embedding of `blockHandle.EncodeTo`: two uvarints. -/
def BlockHandle.encodeTo (h : BlockHandle) : ByteStr :=
  putUvarint h.offset ++ putUvarint h.size

/-- Embedding of `newBlockHandle`: two uvarints read from the reader. -/
def newBlockHandle (r : FileR) : Except GoErr (BlockHandle × FileR) := do
  let (o, r1) ← readUvarint r
  let (sz, r2) ← readUvarint r1
  .ok (⟨o, sz⟩, r2)

/-- State of `dataBlockBuilder`. -/
structure DataBlockB where
  buf : ByteStr
  enc : PrefixEnc
  deriving DecidableEq, Repr

def newDataBlockB : DataBlockB := ⟨[], newPrefixEnc⟩

/-- Embedding of `dataBlockBuilder.Append`: the orderedcode-encoded
`(key, Decr ts)` goes through the prefix encoder at the current buffer
offset (as `uint32`), then `varuint(len(value)+1)` and the value cell — the
`typeNil` tag alone for a nil value, or the `typeBytes` tag followed by the
payload. -/
def DataBlockB.appendRow (b : DataBlockB) (key : ByteStr) (ts : Int) (value : GoBytes) :
    DataBlockB :=
  let tmpKey := encodeEKey key ts
  let p := b.enc.encodeInto b.buf tmpKey (b.buf.length % 2 ^ 32)
  let buf2 := p.1 ++ putUvarint (goLen value + 1)
  match value with
  | none => ⟨buf2 ++ [typeNilByte], p.2⟩
  | some v => ⟨buf2 ++ typeBytesByte :: v, p.2⟩

/-- Embedding of `dataBlockBuilder.EstimatedSizeBytes`. -/
def DataBlockB.estimatedSize (b : DataBlockB) : Int :=
  (b.buf.length : Int) + (b.enc.restarts.length : Int) * 4 + 4

/-- Embedding of `dataBlockBuilder.Finish`: append the restart array. -/
def DataBlockB.finish (b : DataBlockB) : ByteStr := b.enc.writeRestarts b.buf

/-- Embedding of `dataBlockBuilder.Reset`. -/
def DataBlockB.reset (b : DataBlockB) : DataBlockB := ⟨[], b.enc.reset⟩

/-- State of the index block builder (the prefix-compressed version whose
`Finish` signature matches `sstwriter.go`). -/
structure IndexBlockB where
  buf : ByteStr
  enc : PrefixEnc
  deriving DecidableEq, Repr

def newIndexBlockB : IndexBlockB := ⟨[], newPrefixEnc⟩

/-- Embedding of `indexBlockBuilder.Append`: the raw key through the prefix
encoder, then the length of the encoded block handle and the handle bytes. -/
def IndexBlockB.appendEntry (b : IndexBlockB) (key : ByteStr) (bh : BlockHandle) :
    IndexBlockB :=
  let bhBytes := bh.encodeTo
  let p := b.enc.encodeInto b.buf key (b.buf.length % 2 ^ 32)
  ⟨p.1 ++ putUvarint bhBytes.length ++ bhBytes, p.2⟩

/-- Embedding of the index block builder's `Finish`. -/
def IndexBlockB.finish (b : IndexBlockB) : ByteStr := b.enc.writeRestarts b.buf

/-- Parse the restart-offset array at the tail of a block: read `uint32`s
from `restartOffset` while `o < len(d) - 4` (fuel bounds the loop by the
block length). -/
def restartsLoop (d : ByteStr) : Nat → Nat → List Nat
  | 0, _ => []
  | fuel + 1, o =>
    if o < d.length - 4 then leVal ((d.drop o).take 4) :: restartsLoop d fuel (o + 4)
    else []

/-- A parsed block: a reader over the entry area and the restart offsets
(`newDataBlock` and `newIndexBlock` share this shape). -/
structure ParsedBlock where
  r : FileR
  restarts : List Nat
  deriving DecidableEq, Repr

/-- Embedding of `newDataBlock`/`newIndexBlock`: the last 4 bytes hold the
restart count, the `4 * n` bytes before them the restart offsets; the reader
covers the entries before the restart area. -/
def newParsedBlock (d : ByteStr) : ParsedBlock :=
  let nRestarts := leVal (d.drop (d.length - 4))
  let restartOffset := d.length - 4 - 4 * nRestarts
  ⟨⟨d.take restartOffset, 0⟩, restartsLoop d d.length restartOffset⟩

/-- Binary search over the restart points of a data block (`dataBlock.Find`):
narrow `[i, j]` to the last restart whose key is `< key` (or restart 0).
Returns the final `i`.  The fuel bounds the iterations by the number of
restarts. -/
def dbFindBin (pb : ParsedBlock) (key : ByteStr) : Nat → Nat → Nat → Except GoErr Nat
  | 0, i, _ => .ok i
  | fuel + 1, i, j =>
    if i < j then
      let h := (i + j + 1) / 2
      let r1 := seekStart pb.r (pb.restarts.getD h 0)
      match prefixDecodeFrom r1 none with
      | (.error e, _) => .error e
      | (.ok eKey, _) =>
        match parseEKey eKey with
        | .error e => .error e
        | .ok (readKey, _) =>
          if strLt readKey key then dbFindBin pb key fuel h j
          else dbFindBin pb key fuel i (h - 1)
    else .ok i

/-- Linear scan of a data block from a restart position (`dataBlock.Find`):
decode each entry, return the value cell on an exact key match (`typeNil`
tag means a tombstone, otherwise the bytes after the `typeBytes` tag —
a non-nil slice even when empty), `ErrNotFound` once a greater key is seen
or the entries are exhausted.  A value read of length 0 would make
`value[0]` panic in Go; it is modelled as `.corrupt` (writer-produced blocks
always carry the tag byte).  The fuel bounds the loop by the reader size. -/
def dbFindScan (key : ByteStr) : Nat → FileR → Option ByteStr →
    Except GoErr (GoBytes × Int)
  | 0, _, _ => .error .notFound
  | fuel + 1, r, lastKey =>
    if r.len = 0 then .error .notFound
    else
      match prefixDecodeFrom r lastKey with
      | (.error e, _) => .error e
      | (.ok eKey, r1) =>
        match parseEKey eKey with
        | .error e => .error e
        | .ok (readKey, ts) =>
          match readUvarint r1 with
          | .error e => .error e
          | .ok (valueLen, r2) =>
            if readKey = key then
              match readFull r2 valueLen with
              | .error e => .error e
              | .ok (value, _) =>
                match value with
                | [] => .error .corrupt
                | v0 :: vrest =>
                  if v0 = typeNilByte then .ok (none, ts) else .ok (some vrest, ts)
            else if strLt key readKey then .error .notFound
            else dbFindScan key fuel (seekCur r2 valueLen) (some eKey)

/-- Embedding of `dataBlock.Find`. -/
def dataBlockFind (d : ByteStr) (key : ByteStr) : Except GoErr (GoBytes × Int) := do
  let pb := newParsedBlock d
  let i ← dbFindBin pb key pb.restarts.length 0 (pb.restarts.length - 1)
  let r1 := seekStart pb.r (pb.restarts.getD i 0)
  dbFindScan key (r1.data.length + 1) r1 none

/-- Binary search over the restart points of an index block
(`indexBlock.Find` in the prefix-coded index): restart keys are raw key
bytes (no orderedcode parse). -/
def ibFindBin (pb : ParsedBlock) (key : ByteStr) : Nat → Nat → Nat → Except GoErr Nat
  | 0, i, _ => .ok i
  | fuel + 1, i, j =>
    if i < j then
      let h := (i + j + 1) / 2
      let r1 := seekStart pb.r (pb.restarts.getD h 0)
      match prefixDecodeFrom r1 none with
      | (.error e, _) => .error e
      | (.ok eKey, _) =>
        if strLt eKey key then ibFindBin pb key fuel h j
        else ibFindBin pb key fuel i (h - 1)
    else .ok i

/-- Linear scan of an index block from a restart position: decode each
`(key, handleLen, handle)` entry; on the first entry with `key ≤ readKey`
read and return its block handle; `ErrNotFound` when exhausted.  The source
discards the error of `prefixDecodeFrom` here (it only checks the uvarint
read), so a decode failure yields an empty `readKey` and the scan continues
from wherever the reader stopped. -/
def ibFindScan (key : ByteStr) : Nat → FileR → Option ByteStr →
    Except GoErr BlockHandle
  | 0, _, _ => .error .notFound
  | fuel + 1, r, lastKey =>
    if r.len = 0 then .error .notFound
    else
      let p := prefixDecodeFrom r lastKey
      let eKey := match p.1 with
        | .ok k => k
        | .error _ => []
      let r1 := p.2
      match readUvarint r1 with
      | .error e => .error e
      | .ok (valueLen, r2) =>
        if strLe key eKey then
          match newBlockHandle r2 with
          | .error e => .error e
          | .ok (bh, _) => .ok bh
        else ibFindScan key fuel (seekCur r2 valueLen) (some eKey)

/-- Embedding of the prefix-coded `indexBlock.Find`. -/
def indexBlockFind (d : ByteStr) (key : ByteStr) : Except GoErr BlockHandle := do
  let pb := newParsedBlock d
  let i ← ibFindBin pb key pb.restarts.length 0 (pb.restarts.length - 1)
  let r1 := seekStart pb.r (pb.restarts.getD i 0)
  ibFindScan key (r1.data.length + 1) r1 none

/-- State of `sst.Writer`: the bytes written so far (the buffered writer is
flattened into the file), the running block offset, the last appended key,
the two block builders, and whether `f.Sync()` was ever called (the file
operations are Create/Write/Flush/Close only — `Close` never syncs). -/
structure SstWriter where
  file : ByteStr
  offset : Nat
  lastKey : ByteStr
  dataBlockB : DataBlockB
  indexBlockB : IndexBlockB
  synced : Bool
  deriving DecidableEq, Repr

def newSstWriter : SstWriter := ⟨[], 0, [], newDataBlockB, newIndexBlockB, false⟩

/-- Embedding of `Writer.writeChecksummedBlock`: block bytes, then their
CRC-32C; the offset advances by `len(d) + 4`. -/
def writeChecksummedBlock (w : SstWriter) (d : ByteStr) : SstWriter :=
  { w with file := w.file ++ d ++ putUint32LE (crc32c d), offset := w.offset + d.length + 4 }

/-- Embedding of `Writer.flushBlock`: finish the data block, record
`(lastKey, handle)` in the index, write the checksummed block, reset the
data block builder. -/
def flushBlock (w : SstWriter) : SstWriter :=
  let blockData := w.dataBlockB.finish
  let bh : BlockHandle := ⟨w.offset, blockData.length⟩
  let w1 := { w with indexBlockB := w.indexBlockB.appendEntry w.lastKey bh }
  let w2 := writeChecksummedBlock w1 blockData
  { w2 with dataBlockB := w2.dataBlockB.reset }

/-- Embedding of `Writer.Append`: flush first when the data block exceeds
`blockSize`, then record `lastKey` and append the row. -/
def SstWriter.appendRow (w : SstWriter) (key : ByteStr) (ts : Int) (value : GoBytes) :
    SstWriter :=
  let w1 := if w.dataBlockB.estimatedSize > (blockSize : Int) then flushBlock w else w
  { w1 with lastKey := key, dataBlockB := w1.dataBlockB.appendRow key ts value }

/-- Embedding of `Writer.writeIndexBlock`. -/
def writeIndexBlock (w : SstWriter) : BlockHandle × SstWriter :=
  let d := w.indexBlockB.finish
  (⟨w.offset, d.length⟩, writeChecksummedBlock w d)

/-- Embedding of `Writer.writeFooter`: the index handle, zero-padded while
shorter than `MaxVarintLen64`, its CRC-32C, and the magic; a footer of the
wrong length is fatal (`glog.Fatalf`). -/
def writeFooter (w : SstWriter) (ih : BlockHandle) : Except GoErr SstWriter :=
  let fo := ih.encodeTo
  let fo1 := fo ++ List.replicate (maxVarintLen64 - fo.length) (byteOf 0)
  let fo2 := fo1 ++ putUint32LE (crc32c fo1) ++ putUint64LE sstMagic
  if fo2.length ≠ footerSize then .error .fatalErr
  else .ok { w with file := w.file ++ fo2 }

/-- Embedding of `Writer.Close`: flush the (possibly empty) data block,
write the index block, write the footer, flush the buffered writer and close
the file — with no `f.Sync()`.  Returns the final file bytes and the synced
flag. -/
def SstWriter.close (w : SstWriter) : Except GoErr (ByteStr × Bool) :=
  let w1 := flushBlock w
  let p := writeIndexBlock w1
  match writeFooter p.2 p.1 with
  | .error e => .error e
  | .ok w3 => .ok (w3.file, w3.synced)

/-- Build an SST file from a stream of rows (`NewWriter`, `Append` for each
row in order, `Close`). -/
def sstBuild (rows : List (ByteStr × Int × GoBytes)) : Except GoErr (ByteStr × Bool) :=
  (rows.foldl (fun w r => w.appendRow r.1 r.2.1 r.2.2) newSstWriter).close

/-- Embedding of `Reader.readFooter` (the reader matching this writer's
footer layout): seek to the fixed-size footer, check the magic and the
footer CRC, and parse the index block handle. -/
def readFooterR (file : ByteStr) : Except GoErr BlockHandle :=
  if file.length < footerSize then .error .corrupt
  else
    let footer := file.drop (file.length - footerSize)
    if leVal (footer.drop (footerSize - 8)) ≠ sstMagic then .error .corrupt
    else if crc32c (footer.take (footerSize - 12)) ≠
        leVal ((footer.drop (footerSize - 12)).take 4) then .error .corrupt
    else
      match newBlockHandle ⟨footer, 0⟩ with
      | .error e => .error e
      | .ok (bh, _) => .ok bh

/-- Embedding of `Reader.readRawBlock`: read `size + 4` bytes at `offset`
(`ReadAt` fails on a short read) and verify the trailing CRC-32C. -/
def readRawBlock (file : ByteStr) (h : BlockHandle) : Except GoErr ByteStr :=
  if file.length < h.offset + h.size + 4 then .error .unexpectedEOF
  else
    let raw := (file.drop h.offset).take (h.size + 4)
    let bd := raw.take h.size
    if crc32c bd ≠ leVal (raw.drop h.size) then .error .corrupt
    else .ok bd

/-- Embedding of `NewReader` + `Reader.Find`: open the footer, locate the
data block through the index block, and search it. -/
def sstReaderFind (file : ByteStr) (key : ByteStr) : Except GoErr (GoBytes × Int) := do
  let ih ← readFooterR file
  let ibd ← readRawBlock file ih
  let bh ← indexBlockFind ibd key
  let data ← readRawBlock file bh
  dataBlockFind data key

/-- Decidable equality for `Except` results. -/
instance exceptDecEq {ε α : Type} [DecidableEq ε] [DecidableEq α] :
    DecidableEq (Except ε α)
  | .ok a, .ok b =>
    if h : a = b then .isTrue (by rw [h]) else .isFalse (fun hc => h (Except.ok.inj hc))
  | .ok _, .error _ => .isFalse (fun hc => Except.noConfusion hc)
  | .error _, .ok _ => .isFalse (fun hc => Except.noConfusion hc)
  | .error e, .error e2 =>
    if h : e = e2 then .isTrue (by rw [h]) else .isFalse (fun hc => h (Except.error.inj hc))


/-! ### Spec-level layout of prefix-compressed blocks and SST files (claims C3, C10) -/

/-- First row of an append stream whose key matches; rows are `(key, ts, value)`
triples in writer order, so the first match carries the newest timestamp. -/
def firstRow : List (ByteStr × Int × GoBytes) → ByteStr → Option (Int × GoBytes)
  | [], _ => none
  | r :: rest, key => if r.1 = key then some r.2 else firstRow rest key

/-- Writer order of the append stream: keys ascending, timestamps descending
for equal keys (the contract of `sst.Writer.Append`). -/
def rowBefore (a b : ByteStr × Int × GoBytes) : Prop := skipBefore a.1 a.2.1 b.1 b.2.1 = true

/-- Byte form of a restart key segment: `shared = 0`, then the whole key. -/
def segR (k : ByteStr) : ByteStr := putUvarint 0 ++ putUvarint k.length ++ k

/-- Byte form of a prefix-compressed key segment against the previous key. -/
def segN (prev k : ByteStr) : ByteStr :=
  putUvarint (commonPrefixLen prev k) ++ putUvarint (k.length - commonPrefixLen prev k) ++
    k.drop (commonPrefixLen prev k)

/-- Bytes of a run of block entries `(encoded key, value bytes)` starting at
position `j` of a restart interval, with previous key `prev`. -/
def restBytes : ByteStr → Nat → List (ByteStr × ByteStr) → ByteStr
  | _, _, [] => []
  | prev, j, e :: rest =>
    (if j = 0 then segR e.1 else segN prev e.1) ++ e.2 ++ restBytes e.1 ((j + 1) % 16) rest

/-- Restart offsets recorded while a builder encodes a run of entries
(`seeded` suppresses the first restart, whose offset a fresh encoder already
holds). -/
def restRestarts : Bool → ByteStr → Nat → Nat → List (ByteStr × ByteStr) → List Nat
  | _, _, _, _, [] => []
  | seeded, prev, j, off, e :: rest =>
    (if j = 0 ∧ seeded = false then [off] else []) ++
      restRestarts false e.1 ((j + 1) % 16)
        (off + ((if j = 0 then segR e.1 else segN prev e.1) ++ e.2).length) rest

/-- Generic builder step shared by the data and index block builders: the key
goes through the prefix encoder at the current buffer offset, then the value
bytes follow. -/
def bstep (p : ByteStr × PrefixEnc) (e : ByteStr × ByteStr) : ByteStr × PrefixEnc :=
  let q := p.2.encodeInto p.1 e.1 (p.1.length % 2 ^ 32)
  (q.1 ++ e.2, q.2)

/-- Last key of an entry run, `prev` when the run is empty. -/
def lastKeyD (prev : ByteStr) : List (ByteStr × ByteStr) → ByteStr
  | [] => prev
  | e :: rest => lastKeyD e.1 rest

/-- Count field of the prefix encoder at position `j` of a restart interval
(a fresh encoder holds 0, a restart position is reached with 16). -/
def countA (seeded : Bool) (j : Nat) : Int :=
  if seeded then 0 else if j = 0 then 16 else (j : Int)

/-- Count field of the prefix encoder after encoding `es` from position `j`. -/
def countAfter (seeded : Bool) (j : Nat) (es : List (ByteStr × ByteStr)) : Int :=
  if es.isEmpty then countA seeded j else (((j + es.length - 1) % 16 + 1 : Nat) : Int)

/-- Start offsets of the 16-entry restart chunks of an entry run laid out from
byte offset `off`. -/
def chunkOffs : Nat → List (ByteStr × ByteStr) → List Nat
  | _, [] => []
  | off, e :: rest =>
    off :: chunkOffs (off + (restBytes [] 0 ((e :: rest).take 16)).length) ((e :: rest).drop 16)
termination_by o es => es.length
decreasing_by simp [List.length_drop]; omega

/-- Value cell of a data-block row: the tagged length, then the `typeNil` tag
alone or the `typeBytes` tag and the payload. -/
def dataValBytes (v : GoBytes) : ByteStr :=
  putUvarint (goLen v + 1) ++
    (match v with
     | none => [typeNilByte]
     | some p => typeBytesByte :: p)

/-- The `(encoded key, value cell)` entry a data-block row becomes. -/
def dEntry (r : ByteStr × Int × GoBytes) : ByteStr × ByteStr :=
  (encodeEKey r.1 r.2.1, dataValBytes r.2.2)

def dEntries (rs : List (ByteStr × Int × GoBytes)) : List (ByteStr × ByteStr) := rs.map dEntry

/-- Finished bytes of a block whose builder consumed `es` from a clean start:
the entries, the restart array, the restart count. -/
def blockBytes (es : List (ByteStr × ByteStr)) : ByteStr :=
  restBytes [] 0 es ++ ((0 :: restRestarts true [] 0 0 es).map putUint32LE).flatten ++
    putUint32LE (0 :: restRestarts true [] 0 0 es).length

/-- Finished bytes of the data block holding the rows `rs`. -/
def dBlockBytes (rs : List (ByteStr × Int × GoBytes)) : ByteStr := blockBytes (dEntries rs)

/-- Value cell of an index entry: the handle length and the handle. -/
def bhVal (h : BlockHandle) : ByteStr := putUvarint h.encodeTo.length ++ h.encodeTo

/-- Key of the last row of a block (`[]` for an empty block). -/
def lastRowKey : List (ByteStr × Int × GoBytes) → ByteStr
  | [] => []
  | [r] => r.1
  | _ :: rest => lastRowKey rest

/-- Index entries for a run of data blocks laid out from byte offset `off`:
each block contributes its last row's key and its handle (the `+ 4` skips the
per-block checksum). -/
def iEntriesAux (off : Nat) : List (List (ByteStr × Int × GoBytes)) → List (ByteStr × BlockHandle)
  | [] => []
  | B :: rest =>
    (lastRowKey B, ⟨off, (dBlockBytes B).length⟩) ::
      iEntriesAux (off + (dBlockBytes B).length + 4) rest

def iEntries (blocks : List (List (ByteStr × Int × GoBytes))) : List (ByteStr × BlockHandle) :=
  iEntriesAux 0 blocks

/-- Byte form of one index entry: the raw key and the handle cell. -/
def ibEntry (e : ByteStr × BlockHandle) : ByteStr × ByteStr := (e.1, bhVal e.2)

def ibEntries (ies : List (ByteStr × BlockHandle)) : List (ByteStr × ByteStr) :=
  ies.map ibEntry

/-- First index entry whose key is `>=` the search key, as `indexBlock.Find`
selects it. -/
def firstLeH : List (ByteStr × BlockHandle) → ByteStr → Option BlockHandle
  | [], _ => none
  | e :: rest, key => if strLe key e.1 then some e.2 else firstLeH rest key

/-- Checksummed data blocks of an SST file, in layout order. -/
def fileOf (blocks : List (List (ByteStr × Int × GoBytes))) : ByteStr :=
  (blocks.map (fun B => dBlockBytes B ++ putUint32LE (crc32c (dBlockBytes B)))).flatten

/-- Finished bytes of the index block of an SST file. -/
def iBlockBytes (blocks : List (List (ByteStr × Int × GoBytes))) : ByteStr :=
  blockBytes (ibEntries (iEntries blocks))

/-- Footer bytes for an index handle: the handle zero-padded to
`MaxVarintLen64`, its CRC-32C, the magic. -/
def footerBytes (ih : BlockHandle) : ByteStr :=
  let fo1 := ih.encodeTo ++ List.replicate (maxVarintLen64 - ih.encodeTo.length) (byteOf 0)
  fo1 ++ putUint32LE (crc32c fo1) ++ putUint64LE sstMagic

/-- Full byte layout of an SST file whose rows were flushed as `blocks`. -/
def sstFileOf (blocks : List (List (ByteStr × Int × GoBytes))) : ByteStr :=
  fileOf blocks ++ iBlockBytes blocks ++ putUint32LE (crc32c (iBlockBytes blocks)) ++
    footerBytes ⟨(fileOf blocks).length, (iBlockBytes blocks).length⟩

/-- Embedding of `Server.Get` (server/server.go): reject an invalid key, then
an engine `Find` error is Internal, a nil value is NotFound, and otherwise the
value is returned. -/
def serverGet (find : ByteStr → Except GoErr GoBytes) (key : ByteStr) :
    Except GrpcCode ByteStr :=
  match validateKey key with
  | some c => .error c
  | none =>
    match find key with
    | .error _ => .error .internalErr
    | .ok none => .error .notFound
    | .ok (some v) => .ok v

/-- Data block builder state holding exactly the rows `pending`. -/
def dbbOf (pending : List (ByteStr × Int × GoBytes)) : DataBlockB :=
  ⟨restBytes [] 0 (dEntries pending),
   ⟨16, 0 :: restRestarts true [] 0 0 (dEntries pending),
    lastKeyD [] (dEntries pending), countAfter true 0 (dEntries pending)⟩⟩

/-- Index block builder state holding the entries of the flushed `blocks`. -/
def ibbOf (blocks : List (List (ByteStr × Int × GoBytes))) : IndexBlockB :=
  ⟨restBytes [] 0 (ibEntries (iEntries blocks)),
   ⟨16, 0 :: restRestarts true [] 0 0 (ibEntries (iEntries blocks)),
    lastKeyD [] (ibEntries (iEntries blocks)), countAfter true 0 (ibEntries (iEntries blocks))⟩⟩

/-- Writer state after flushing `blocks`, with `pending` rows in the current
data block. -/
def wOf (blocks : List (List (ByteStr × Int × GoBytes)))
    (pending : List (ByteStr × Int × GoBytes)) : SstWriter :=
  ⟨fileOf blocks, (fileOf blocks).length, lastRowKey pending, dbbOf pending, ibbOf blocks, false⟩

/-- Adapter from the embedded `NewReader` + `Reader.Find` to the `SstRes`
shape `database.Find` consumes from each SST (`sst.ErrNotFound` is the skip
signal, other errors abort). -/
def sstResOf (file : ByteStr) (key : ByteStr) : SstRes :=
  match sstReaderFind file key with
  | .ok (v, ts) => .hit v ts
  | .error .notFound => .notFound
  | .error e => .fail e

/-! ### Theorems -/


theorem strLt_trans {a b c : ByteStr} (h1 : strLt a b = true) (h2 : strLt b c = true) :
    strLt a c = true := by
  induction a generalizing b c with
  | nil =>
    cases b with
    | nil => simp [strLt] at h1
    | cons y bs =>
      cases c with
      | nil => simp [strLt] at h2
      | cons z cs => simp [strLt]
  | cons x as ih =>
    cases b with
    | nil => simp [strLt] at h1
    | cons y bs =>
      cases c with
      | nil => simp [strLt] at h2
      | cons z cs =>
        simp only [strLt] at h1 h2 ⊢
        by_cases hxy : x < y
        · by_cases hyz : y < z
          · simp [lt_trans hxy hyz]
          · simp only [if_neg hyz] at h2
            by_cases hzy : z < y
            · simp [hzy] at h2
            · have hyz2 : y = z := le_antisymm (not_lt.mp hzy) (not_lt.mp hyz)
              simp [hyz2 ▸ hxy]
        · simp only [if_neg hxy] at h1
          by_cases hyx : y < x
          · simp [hyx] at h1
          · have hxy2 : x = y := le_antisymm (not_lt.mp hyx) (not_lt.mp hxy)
            subst hxy2
            by_cases hxz : x < z
            · simp [hxz]
            · simp only [if_neg hxz] at h2 ⊢
              by_cases hzx : z < x
              · simp [hzx] at h2
              · simp only [if_neg hzx] at h2 ⊢
                simp only [if_neg hxy] at h1
                exact ih h1 h2

theorem strLt_eq_of_not {a b : ByteStr} (h1 : strLt a b = false) (h2 : strLt b a = false) :
    a = b := by
  induction a generalizing b with
  | nil =>
    cases b with
    | nil => rfl
    | cons y bs => simp [strLt] at h1
  | cons x as ih =>
    cases b with
    | nil => simp [strLt] at h2
    | cons y bs =>
      simp only [strLt] at h1 h2
      by_cases hxy : x < y
      · simp [hxy] at h1
      · by_cases hyx : y < x
        · simp [hyx] at h2
        · have hxy2 : x = y := le_antisymm (not_lt.mp hyx) (not_lt.mp hxy)
          subst hxy2
          simp only [if_neg hxy, lt_irrefl, if_false] at h1 h2
          rw [ih h1 h2]

theorem skipBefore_trans {ak bk ck : ByteStr} {ats bts cts : Int}
    (h1 : skipBefore ak ats bk bts = true) (h2 : skipBefore bk bts ck cts = true) :
    skipBefore ak ats ck cts = true := by
  unfold skipBefore at h1 h2 ⊢
  simp only [Bool.or_eq_true, Bool.and_eq_true, decide_eq_true_eq] at h1 h2 ⊢
  rcases h1 with h1 | ⟨he1, ht1⟩
  · rcases h2 with h2 | ⟨he2, ht2⟩
    · exact Or.inl (strLt_trans h1 h2)
    · exact Or.inl (he2 ▸ h1)
  · rcases h2 with h2 | ⟨he2, ht2⟩
    · exact Or.inl (he1 ▸ h2)
    · exact Or.inr ⟨he1.trans he2, by omega⟩

theorem skipBefore_irrefl (k : ByteStr) (ts : Int) : skipBefore k ts k ts = false := by
  unfold skipBefore
  simp only [Bool.or_eq_false_iff, Bool.and_eq_false_iff]
  constructor
  · induction k with
    | nil => rfl
    | cons x xs ih => simp [strLt, ih]
  · right
    simp

theorem advMoved_split (key : ByteStr) (ts : Int) (cl : Nat) :
    ∀ {s t : List SkipNode}, s.Pairwise nodeBefore →
      advMoved key ts cl s = some t →
      ∃ d, d ≠ [] ∧ s = d ++ t ∧ ∀ x ∈ d, skipCond key ts x = true := by
  intro s
  induction s with
  | nil => intro t _ h; simp [advMoved] at h
  | cons n rest ih =>
    intro t hsort h
    have hsrest : rest.Pairwise nodeBefore := (List.pairwise_cons.mp hsort).2
    have hnb : ∀ x ∈ rest, nodeBefore n x := (List.pairwise_cons.mp hsort).1
    unfold advMoved at h
    by_cases hvis : cl ≤ n.level
    · rw [if_pos hvis] at h
      by_cases hc : skipCond key ts n
      · rw [if_pos hc] at h
        cases hm : advMoved key ts cl rest with
        | none =>
          rw [hm] at h
          simp only [Option.getD_none, Option.some.injEq] at h
          exact ⟨[n], by simp, by rw [← h]; rfl, by simpa using hc⟩
        | some t2 =>
          rw [hm] at h
          simp only [Option.getD_some, Option.some.injEq] at h
          obtain ⟨d, hdne, hds, hdc⟩ := ih hsrest hm
          refine ⟨n :: d, by simp, by rw [← h, hds]; rfl, ?_⟩
          intro x hx
          rcases List.mem_cons.mp hx with hx | hx
          · subst hx; exact hc
          · exact hdc x hx
      · rw [if_neg hc] at h
        cases h
    · rw [if_neg hvis] at h
      obtain ⟨d, hdne, hds, hdc⟩ := ih hsrest h
      refine ⟨n :: d, by simp, by rw [hds]; rfl, ?_⟩
      intro x hx
      rcases List.mem_cons.mp hx with hx | hx
      · rw [hx]
        obtain ⟨x0, hx0⟩ := List.exists_mem_of_ne_nil d hdne
        have hcx0 : skipCond key ts x0 = true := hdc x0 hx0
        have hx0rest : x0 ∈ rest := by
          rw [hds]
          exact List.mem_append_left _ hx0
        have hb : nodeBefore n x0 := hnb x0 hx0rest
        exact skipBefore_trans hb hcx0
      · exact hdc x hx

theorem advanceLevel_split (key : ByteStr) (ts : Int) (cl : Nat) (s : List SkipNode)
    (hsort : s.Pairwise nodeBefore) :
    ∃ d, s = d ++ advanceLevel key ts cl s ∧ ∀ x ∈ d, skipCond key ts x = true := by
  unfold advanceLevel
  cases hm : advMoved key ts cl s with
  | none => exact ⟨[], rfl, by simp⟩
  | some t =>
    obtain ⟨d, _, hds, hdc⟩ := advMoved_split key ts cl hsort hm
    exact ⟨d, by simpa using hds, hdc⟩

theorem advanceLevel_zero (key : ByteStr) (ts : Int) (s : List SkipNode) :
    advanceLevel key ts 0 s = s.dropWhile (skipCond key ts) := by
  induction s with
  | nil => rfl
  | cons n rest ih =>
    unfold advanceLevel advMoved
    rw [if_pos (Nat.zero_le _)]
    by_cases hc : skipCond key ts n
    · rw [if_pos hc, List.dropWhile_cons_of_pos hc, ← ih]
      unfold advanceLevel
      cases advMoved key ts 0 rest <;> rfl
    · rw [if_neg hc]
      simp [List.dropWhile_cons_of_neg (by simpa using hc)]

theorem dropWhile_append_cond {p : SkipNode → Bool} :
    ∀ {d s : List SkipNode}, (∀ x ∈ d, p x = true) →
      (d ++ s).dropWhile p = s.dropWhile p := by
  intro d
  induction d with
  | nil => intro s _; rfl
  | cons x xs ih =>
    intro s h
    rw [List.cons_append, List.dropWhile_cons_of_pos (h x (by simp))]
    exact ih fun y hy => h y (by simp [hy])

theorem descend_eq_dropWhile (key : ByteStr) (ts : Int) :
    ∀ (cl : Nat) {s : List SkipNode}, s.Pairwise nodeBefore →
      descend key ts cl s = s.dropWhile (skipCond key ts) := by
  intro cl
  induction cl with
  | zero => intro s _; exact advanceLevel_zero key ts s
  | succ cl ih =>
    intro s hsort
    unfold descend
    obtain ⟨d, hds, hdc⟩ := advanceLevel_split key ts (cl + 1) s hsort
    have hsuff : (advanceLevel key ts (cl + 1) s).Pairwise nodeBefore := by
      rw [hds] at hsort
      exact hsort.sublist (List.sublist_append_right d _)
    rw [ih hsuff]
    conv_rhs => rw [hds]
    rw [dropWhile_append_cond hdc]

theorem advMoved_isSuffix (key : ByteStr) (ts : Int) (cl : Nat) :
    ∀ {s t : List SkipNode}, advMoved key ts cl s = some t → t.IsSuffix s := by
  intro s
  induction s with
  | nil => intro t h; simp [advMoved] at h
  | cons n rest ih =>
    intro t h
    unfold advMoved at h
    by_cases hvis : cl ≤ n.level
    · rw [if_pos hvis] at h
      by_cases hc : skipCond key ts n
      · rw [if_pos hc] at h
        cases hm : advMoved key ts cl rest with
        | none =>
          rw [hm] at h
          simp only [Option.getD_none, Option.some.injEq] at h
          exact h ▸ List.suffix_cons n rest
        | some t2 =>
          rw [hm] at h
          simp only [Option.getD_some, Option.some.injEq] at h
          exact h ▸ ((ih hm).trans (List.suffix_cons n rest))
      · rw [if_neg hc] at h
        cases h
    · rw [if_neg hvis] at h
      exact (ih h).trans (List.suffix_cons n rest)

theorem advanceLevel_isSuffix (key : ByteStr) (ts : Int) (cl : Nat) (s : List SkipNode) :
    (advanceLevel key ts cl s).IsSuffix s := by
  unfold advanceLevel
  cases hm : advMoved key ts cl s with
  | none => simp
  | some t => simpa using advMoved_isSuffix key ts cl hm

theorem descend_isSuffix (key : ByteStr) (ts : Int) :
    ∀ (cl : Nat) (s : List SkipNode), (descend key ts cl s).IsSuffix s := by
  intro cl
  induction cl with
  | zero => intro s; exact advanceLevel_isSuffix key ts 0 s
  | succ cl ih => intro s; exact (ih _).trans (advanceLevel_isSuffix key ts (cl + 1) s)

theorem findGE_mem (rows : List SkipNode) (key : ByteStr) (ts : Int) :
    ∀ n ∈ findGE rows key ts, n ∈ rows :=
  fun n hn => (descend_isSuffix key ts (maxLevel - 1) rows).subset hn


theorem dropWhile_stops_at_dup (key : ByteStr) (ts : Int) :
    ∀ {rows : List SkipNode}, rows.Pairwise nodeBefore →
      ∀ {n0 : SkipNode}, n0 ∈ rows → n0.key = key → n0.ts = ts →
        ∃ rest, rows.dropWhile (skipCond key ts) = n0 :: rest := by
  intro rows
  induction rows with
  | nil => intro _ n0 h; cases h
  | cons m rest ih =>
    intro hsort n0 hmem hk ht
    rcases List.mem_cons.mp hmem with h | h
    · subst h
      have hcm : skipCond key ts n0 = false := by
        unfold skipCond
        rw [hk, ht]
        exact skipBefore_irrefl key ts
      exact ⟨rest, by rw [List.dropWhile_cons_of_neg (by simp [hcm])]⟩
    · have hsrest : rest.Pairwise nodeBefore := (List.pairwise_cons.mp hsort).2
      have hb : nodeBefore m n0 := (List.pairwise_cons.mp hsort).1 n0 h
      have hcm : skipCond key ts m = true := by
        unfold skipCond
        have hb2 : skipBefore m.key m.ts n0.key n0.ts = true := hb
        rwa [hk, ht] at hb2
      obtain ⟨r2, hr2⟩ := ih hsrest h hk ht
      exact ⟨r2, by rw [List.dropWhile_cons_of_pos hcm, hr2]⟩

/-- Claim C9.  On any memtable whose rows are in skiplist order (the invariant
every `New`/`Insert`-reachable table satisfies): `Insert` is fatal
(process-terminating, not an error return) on an empty key and on a
`(key, timestamp)` pair already present; `Find` is fatal on an empty key; and
when the key is non-empty and the pair is fresh, the fatal branches of
`Insert` are not taken and the insert succeeds. -/
theorem memtable_fatal_spec (rows : List SkipNode) (sz : Int) (key : ByteStr) (ts : Int)
    (value : GoBytes) (level : Nat) (hsort : rows.Pairwise nodeBefore) :
    (∀ ts2 v2 l2, mtInsert ⟨rows, sz⟩ [] ts2 v2 l2 = .error .fatalErr) ∧
    mtFind ⟨rows, sz⟩ [] = .error .fatalErr ∧
    (key ≠ [] → (∃ n ∈ rows, n.key = key ∧ n.ts = ts) →
      mtInsert ⟨rows, sz⟩ key ts value level = .error .fatalErr) ∧
    (key ≠ [] → (∀ n ∈ rows, ¬(n.key = key ∧ n.ts = ts)) →
      ∃ m2, mtInsert ⟨rows, sz⟩ key ts value level = .ok m2) := by
  refine ⟨?_, ?_, ?_, ?_⟩
  · intro ts2 v2 l2
    unfold mtInsert
    rw [if_pos rfl]
  · unfold mtFind
    rw [if_pos rfl]
  · intro hne hdup
    obtain ⟨n0, hn0mem, hk, ht⟩ := hdup
    unfold mtInsert
    rw [if_neg hne]
    have hfind : findGE rows key ts = rows.dropWhile (skipCond key ts) :=
      descend_eq_dropWhile key ts (maxLevel - 1) hsort
    obtain ⟨r2, hr2⟩ := dropWhile_stops_at_dup key ts hsort hn0mem hk ht
    simp only [hfind, hr2, List.head?_cons, ht, hk]
    simp
  · intro hne hfresh
    unfold mtInsert
    rw [if_neg hne]
    cases hh : (findGE rows key ts).head? with
    | none => simp [hh]
    | some n =>
      have hnmem : n ∈ rows := by
        refine findGE_mem rows key ts n ?_
        cases hfge : findGE rows key ts with
        | nil => rw [hfge] at hh; cases hh
        | cons a l =>
          rw [hfge] at hh
          simp only [List.head?_cons, Option.some.injEq] at hh
          rw [← hh]
          exact List.mem_cons_self a l
      have hnf : ¬ (n.key = key ∧ n.ts = ts) := hfresh n hnmem
      have hb : (n.ts = ts && n.key = key) = false := by
        by_cases h1 : n.ts = ts
        · by_cases h2 : n.key = key
          · exact absurd ⟨h2, h1⟩ hnf
          · simp [h2]
        · simp [h1]
      simp [hh, hb]

theorem memtable_fatal_spec_witness :
    ∃ m2, mtInsert ⟨[], 0⟩ [(97 : Byte)] 5 (some [(1 : Byte)]) 3 = .ok m2 :=
  (memtable_fatal_spec [] 0 [(97 : Byte)] 5 (some [(1 : Byte)]) 3 List.Pairwise.nil).2.2.2
    (by simp) (by simp)

theorem findSstLoop_fold (ssts : List (ByteStr → SstRes)) (key : ByteStr)
    (v0 : GoBytes) (t0 : Int) (hok : sstHasFail ssts key = false) :
    findSstLoop ssts key v0 t0 =
      .ok (List.foldl hitStep (v0, t0) (sstHits ssts key)).1 := by
  induction ssts generalizing v0 t0 with
  | nil => simp [findSstLoop, sstHits]
  | cons s rest ih =>
    simp only [sstHasFail, List.any_cons, Bool.or_eq_false_iff] at hok
    obtain ⟨h1, h2⟩ := hok
    have hrest : sstHasFail rest key = false := by simpa [sstHasFail] using h2
    simp only [findSstLoop, sstHits, List.filterMap_cons]
    cases hs : s key with
    | notFound => simpa [hs] using ih v0 t0 hrest
    | fail e => simp [hs] at h1
    | hit v ts =>
      simp only [hs, List.foldl_cons]
      by_cases hlt : t0 < ts
      · simpa [hlt, hitStep] using ih v ts hrest
      · simpa [hlt, hitStep] using ih v0 t0 hrest

theorem foldl_hitStep_ts_le (hs : List (GoBytes × Int)) (p0 : GoBytes × Int) :
    p0.2 ≤ (List.foldl hitStep p0 hs).2 := by
  induction hs generalizing p0 with
  | nil => simp
  | cons q rest ih =>
    refine le_trans ?_ (ih (hitStep p0 q))
    unfold hitStep
    split <;> omega

theorem foldl_hitStep_mem (hs : List (GoBytes × Int)) (p0 : GoBytes × Int) :
    List.foldl hitStep p0 hs = p0 ∨ List.foldl hitStep p0 hs ∈ hs := by
  induction hs generalizing p0 with
  | nil => simp
  | cons q rest ih =>
    rw [List.foldl_cons]
    rcases ih (hitStep p0 q) with h | h
    · rw [h]
      unfold hitStep
      split
      · right
        exact List.mem_cons_self _ _
      · left
        rfl
    · right
      exact List.mem_cons_of_mem _ h

theorem foldl_hitStep_ge (hs : List (GoBytes × Int)) (p0 : GoBytes × Int)
    (q : GoBytes × Int) (hq : q ∈ hs) : q.2 ≤ (List.foldl hitStep p0 hs).2 := by
  induction hs generalizing p0 with
  | nil => cases hq
  | cons r rest ih =>
    rcases List.mem_cons.mp hq with h | h
    · subst h
      refine le_trans ?_ (foldl_hitStep_ts_le rest (hitStep p0 q))
      unfold hitStep
      split <;> omega
    · exact ih (hitStep p0 r) h

/-- Claim C1 (amended).  `database.Find` consults the live memtable first and
returns its value on a hit; on a miss it consults the frozen memtable if one
exists; only when both miss does it run over the SSTs, skipping NotFound
results; if no SST hits it reports absent (nil), and if some SST hits and
every hit timestamp is strictly greater than `math.MinInt64`, it returns the
value of a hit whose user timestamp is greatest.  (A hit at exactly
`math.MinInt64` is dropped by the `ts > valueTs` comparison — see the
counterexample.) -/
theorem dbFind_spec (memF : ByteStr → GoBytes × Bool) (imem : Option (ByteStr → GoBytes × Bool))
    (ssts : List (ByteStr → SstRes)) (key : ByteStr) :
    ((memF key).2 = true → dbFind memF imem ssts key = .ok (memF key).1) ∧
    ((memF key).2 = false → ∀ imemF, imem = some imemF → (imemF key).2 = true →
      dbFind memF imem ssts key = .ok (imemF key).1) ∧
    ((memF key).2 = false →
      (∀ imemF, imem = some imemF → (imemF key).2 = false) →
      sstHasFail ssts key = false →
      ((sstHits ssts key = [] → dbFind memF imem ssts key = .ok none) ∧
        (sstHits ssts key ≠ [] →
          (∀ q ∈ sstHits ssts key, int64Min < q.2) →
          ∃ v m, dbFind memF imem ssts key = .ok v ∧ (v, m) ∈ sstHits ssts key ∧
            ∀ q ∈ sstHits ssts key, q.2 ≤ m))) := by
  refine ⟨?_, ?_, ?_⟩
  · intro hhit
    unfold dbFind
    simp [hhit]
  · intro hmiss imemF him hhit
    unfold dbFind
    simp [hmiss, him, hhit]
  · intro hmiss himiss hok
    have hbody : dbFind memF imem ssts key = findSstLoop ssts key none int64Min := by
      unfold dbFind
      cases him : imem with
      | none => simp [hmiss]
      | some imemF => simp [hmiss, himiss imemF him]
    constructor
    · intro hnil
      rw [hbody, findSstLoop_fold ssts key none int64Min hok, hnil]
      rfl
    · intro hne hgt
      rw [hbody, findSstLoop_fold ssts key none int64Min hok]
      set r := List.foldl hitStep (none, int64Min) (sstHits ssts key) with hr
      obtain ⟨q, hq⟩ := List.exists_mem_of_ne_nil _ hne
      have hmem : r ∈ sstHits ssts key := by
        rcases foldl_hitStep_mem (sstHits ssts key) (none, int64Min) with h | h
        · exfalso
          have h1 : q.2 ≤ r.2 := foldl_hitStep_ge _ _ q hq
          have h2 : int64Min < q.2 := hgt q hq
          rw [← hr] at h
          rw [h] at h1
          simp at h1
          omega
        · rwa [← hr] at h
      exact ⟨r.1, r.2, rfl, by simpa using hmem, fun q hq => foldl_hitStep_ge _ _ q hq⟩

theorem dbFind_spec_witness :
    dbFind (fun _ => (some [(2 : Byte)], true)) none [] [] = .ok (some [(2 : Byte)]) :=
  (dbFind_spec (fun _ => (some [(2 : Byte)], true)) none [] []).1 rfl

/-- Claim C1 counterexample: with both memtables missing and a single SST
returning a hit whose timestamp is exactly `math.MinInt64`, `database.Find`
returns nil (absent) instead of the hit's value, contradicting the claim that
the hit with the greatest user timestamp is returned. -/
theorem dbFind_drops_min_ts_hit :
    dbFind (fun _ => (none, false)) none [fun _ => SstRes.hit (some [(1 : Byte)]) int64Min] [] =
        .ok none ∧
      sstHits [fun _ => SstRes.hit (some [(1 : Byte)]) int64Min] [] =
        [(some [(1 : Byte)], int64Min)] ∧
      (some [(1 : Byte)] : GoBytes) ≠ none := by
  refine ⟨?_, rfl, by simp⟩
  simp [dbFind, findSstLoop]

/-- Claim C2: with `descriptor.3` the highest (and only) descriptor file,
`LoadDescriptor` does read `descriptor.3` but — because `findLatestFile`
returns its never-assigned named return `version` (always 0) instead of
`maxVersion` — sets `Descriptor.version = 1`, so the next `Save` writes
`descriptor.2` and best-effort deletes `descriptor.1`, leaving the stale
`descriptor.3` as the highest-numbered file.  The claim (and the spec) demand
that the next Save write `descriptor.4` and delete `descriptor.3`. -/
theorem descriptor_stale_after_load_save :
    loadDescriptor [3] = .ok (1, 3) ∧
      descSave [3] 1 = ([3, 2], 2, 2) ∧
      ([3, 2] : List Int).maximum = some 3 := by
  refine ⟨rfl, by decide, by decide⟩

/-- Claim C5 (amended).  While scanning a WAL segment: a frame-header read
that hits pure end-of-file (zero bytes remaining) makes `Scan` return false
with a nil error; a *partial* header read (1-7 bytes remaining) is
`io.ErrUnexpectedEOF`, a non-nil error; a short read inside the payload and a
CRC mismatch are likewise non-nil errors surfaced through `Err`. -/
theorem fsScan_spec (f : FileR) :
    (f.len = 0 → fsScan f = ⟨false, f, none, none⟩) ∧
    (0 < f.len → f.len < 8 → fsScan f = ⟨false, f, some .unexpectedEOF, none⟩) ∧
    (∀ scratch f1, readFull f 8 = .ok (scratch, f1) →
      f1.len < leVal (scratch.take 4) →
      (fsScan f).hasNext = false ∧ (fsScan f).err ≠ none) ∧
    (∀ scratch f1 data f2, readFull f 8 = .ok (scratch, f1) →
      readFull f1 (leVal (scratch.take 4)) = .ok (data, f2) →
      crc32c data ≠ leVal (scratch.drop 4) →
      fsScan f = ⟨false, f2, some .checksumMismatch, none⟩) := by
  refine ⟨?_, ?_, ?_, ?_⟩
  · intro h0
    unfold fsScan readFull
    simp [h0]
  · intro hpos hlt
    unfold fsScan readFull
    have h8 : ¬ (8 ≤ f.len) := by omega
    have h0 : ¬ (f.len = 0) := by omega
    simp [h8, h0]
  · intro scratch f1 hread hshort
    obtain ⟨e, he⟩ : ∃ e, readFull f1 (leVal (scratch.take 4)) = .error e := by
      unfold readFull
      by_cases h0 : f1.len = 0
      · refine ⟨.eof, ?_⟩
        simp only [h0]
        have : ¬ (leVal (scratch.take 4) ≤ 0) := by omega
        simp [this]
      · refine ⟨.unexpectedEOF, ?_⟩
        have : ¬ (leVal (scratch.take 4) ≤ f1.len) := by omega
        simp [this, h0]
    unfold fsScan
    rw [hread]
    simp [he]
  · intro scratch f1 data f2 hread hpay hcrc
    unfold fsScan
    rw [hread]
    simp only [hpay]
    simp [hcrc]

theorem fsScan_spec_witness :
    fsScan ⟨[], 0⟩ = ⟨false, ⟨[], 0⟩, none, none⟩ :=
  (fsScan_spec ⟨[], 0⟩).1 rfl

/-- Claim C5 counterexample: a segment tail holding only 4 of the 8 header
bytes makes `Scan` return false with the non-nil error `io.ErrUnexpectedEOF`
(`io.ReadFull` returns `io.EOF` — the only error the code clears — solely
when *zero* bytes were read), contradicting the claim that every short header
read at segment end is a clean EOF with nil error. -/
theorem fsScan_partial_header_is_error :
    fsScan ⟨List.replicate 4 (0 : Byte), 0⟩ =
      ⟨false, ⟨List.replicate 4 (0 : Byte), 0⟩, some .unexpectedEOF, none⟩ := by
  decide

theorem cleanLoop_zip (au : Int) (x : Int) (l : List Int) :
    cleanLoop au (some x) l =
      ((x :: l).zip l).filterMap (fun p => if p.2 < au then some p.1 else none) := by
  induction l generalizing x with
  | nil => rfl
  | cons b rest ih =>
    unfold cleanLoop
    by_cases hb : b < au
    · simp [hb, ih b]
    · simp [hb, ih b]

/-- Claim C6 (amended).  `CleanUnusedFiles` deletes exactly those segments
whose successor segment's starting sequence number is strictly less than
`applied_until` (the boundary case `= applied_until` is *not* deleted), and
the last segment, having no successor, is never deleted. -/
theorem cleanUnusedFiles_spec (dir : List Int) (au : Int) :
    cleanUnusedFiles dir au =
      ((listLogFiles dir).zip (listLogFiles dir).tail).filterMap
        (fun p => if p.2 < au then some p.1 else none) := by
  unfold cleanUnusedFiles
  cases h : listLogFiles dir with
  | nil => rfl
  | cons a rest =>
    show cleanLoop au (some a) rest = _
    rw [cleanLoop_zip au a rest]
    rfl

/-- Claim C6 counterexample: with segments `wal-1.log` and `wal-5.log` and
`applied_until = 5`, the claim (successor start `≤ applied_until`) requires
deleting segment 1, but the code's strict `<` deletes nothing. -/
theorem cleanUnusedFiles_boundary_kept :
    cleanUnusedFiles [1, 5] 5 = [] ∧ (¬ ((5 : Int) < 5)) ∧ ((5 : Int) ≤ 5) := by
  decide

theorem goLen_some (l : ByteStr) : goLen (some l) = l.length := rfl

theorem validateValue_wraps :
    validateValue (some (List.replicate (2 ^ 32) (0 : Byte))) = none := by
  unfold validateValue
  rw [goLen_some, List.length_replicate, Nat.mod_self]
  exact if_neg (Nat.not_lt_zero _)

theorem dbSet_ok_of_valid (st : DbState) (key : ByteStr) (value : GoBytes) (ts : Int)
    (h1 : validateKey key = none) (h2 : validateValue value = none) :
    ∀ e, dbSet st key value ts ≠ .error e := by
  intro e
  unfold dbSet
  rw [h1, h2]
  exact fun h => Except.noConfusion h

/-- Claim C8 counterexample: a value of length `2^32` (greater than 524288) is
*accepted*: `validateValue` compares `uint32(len(v))`, and the length wraps to
0 modulo `2^32`, so `Set` does not return InvalidArgument. -/
theorem dbSet_accepts_oversized_value :
    (∀ e, dbSet ⟨[], [], 1⟩ [(97 : Byte)] (some (List.replicate (2 ^ 32) (0 : Byte))) 5 ≠
      .error e) ∧
    goLen (some (List.replicate (2 ^ 32) (0 : Byte))) > MaxValueSize := by
  constructor
  · exact dbSet_ok_of_valid _ _ _ _ (by decide) validateValue_wraps
  · rw [goLen_some, List.length_replicate]
    norm_num [MaxValueSize]

/-- Claim C8 (amended).  `Set` returns InvalidArgument exactly when the key is
empty, or the key's length reduced modulo `2^32` (the `uint32` conversion in
`validateKey`) exceeds 4096, or the value's length reduced modulo `2^32`
exceeds 524288; in the error case the engine state is unchanged (nothing is
appended to the WAL and the memtable is untouched); a key of length in
[1, 4096] with a value of length in [0, 524288] passes validation and the
mutation is appended to the WAL and applied to the memtable. -/
theorem dbSet_validation (st : DbState) (key : ByteStr) (value : GoBytes) (ts : Int) :
    ((∃ e, dbSet st key value ts = .error e) ↔
      (key = [] ∨ key.length % 2 ^ 32 > MaxKeySize ∨ goLen value % 2 ^ 32 > MaxValueSize)) ∧
    (∀ e, dbSet st key value ts = .error e → e = GrpcCode.invalidArgument) ∧
    (1 ≤ key.length → key.length ≤ MaxKeySize → goLen value ≤ MaxValueSize →
      dbSet st key value ts =
        .ok ({ wal := st.wal ++ [⟨st.nextSeq, some ⟨key, ts, value, .put⟩⟩],
               mem := st.mem ++ [⟨st.nextSeq, key, ts, value⟩],
               nextSeq := st.nextSeq + 1 }, ts)) := by
  have hk4096 : MaxKeySize = 4096 := rfl
  have hv : MaxValueSize = 524288 := rfl
  refine ⟨?_, ?_, ?_⟩
  · unfold dbSet validateKey validateValue
    by_cases h1 : key = []
    · rw [if_pos h1]
      exact iff_of_true ⟨_, rfl⟩ (Or.inl h1)
    · rw [if_neg h1]
      by_cases h2 : MaxKeySize < key.length % 2 ^ 32
      · rw [if_pos h2]
        exact iff_of_true ⟨_, rfl⟩ (Or.inr (Or.inl h2))
      · rw [if_neg h2]
        by_cases h3 : MaxValueSize < goLen value % 2 ^ 32
        · rw [if_pos h3]
          exact iff_of_true ⟨_, rfl⟩ (Or.inr (Or.inr h3))
        · rw [if_neg h3]
          refine iff_of_false ?_ ?_
          · rintro ⟨e, he⟩
            exact Except.noConfusion he
          · rintro (hc | hc | hc)
            exacts [h1 hc, h2 hc, h3 hc]
  · intro e
    unfold dbSet validateKey validateValue
    by_cases h1 : key = []
    · rw [if_pos h1]
      intro he
      injection he with h
      exact h.symm
    · rw [if_neg h1]
      by_cases h2 : MaxKeySize < key.length % 2 ^ 32
      · rw [if_pos h2]
        intro he
        injection he with h
        exact h.symm
      · rw [if_neg h2]
        by_cases h3 : MaxValueSize < goLen value % 2 ^ 32
        · rw [if_pos h3]
          intro he
          injection he with h
          exact h.symm
        · rw [if_neg h3]
          exact fun he => Except.noConfusion he
  · intro hk1 hk2 hv2
    have h1 : ¬ (key = []) := by
      intro h
      rw [h] at hk1
      simp at hk1
    have hmodk : key.length % 2 ^ 32 = key.length :=
      Nat.mod_eq_of_lt (by rw [hk4096] at hk2; omega)
    have hmodv : goLen value % 2 ^ 32 = goLen value :=
      Nat.mod_eq_of_lt (by rw [hv] at hv2; omega)
    have h2 : ¬ (key.length % 2 ^ 32 > MaxKeySize) := by rw [hmodk]; omega
    have h3 : ¬ (goLen value % 2 ^ 32 > MaxValueSize) := by rw [hmodv]; omega
    unfold dbSet validateKey validateValue
    rw [if_neg h1, if_neg h2, if_neg h3]
    rfl

theorem dbSet_validation_witness :
    dbSet ⟨[], [], 1⟩ [(97 : Byte)] (some [(1 : Byte)]) 7 =
      .ok ({ wal := [⟨1, some ⟨[(97 : Byte)], 7, some [(1 : Byte)], .put⟩⟩],
             mem := [⟨1, [(97 : Byte)], 7, some [(1 : Byte)]⟩],
             nextSeq := 2 }, 7) := by
  have h := (dbSet_validation ⟨[], [], 1⟩ [(97 : Byte)] (some [(1 : Byte)]) 7).2.2
    (by decide) (by decide) (by decide)
  simpa using h

/-- Claim C7: with cache capacity 5 (young target 1, old target 4), after
`Insert("b", 1 byte)` a miss returns nil and the first `Get("b")` does move
the entry's value to the front of the old list and migrate its size from
young to old — but the `old` mark is written to a local *copy* of the entry
and `entries` still references the element removed from young, so the stored
entry keeps `old = false`.  The second `Get("b")` therefore takes the young
path again rather than the old-hit path: it pushes a second copy onto the old
list and changes both size totals (oldSize 1→2, youngSize 0→-1), refuting the
claim that every subsequent Get takes the old-hit path without changing the
size totals. -/
theorem cacheGet_young_promotion_lost :
    newCache 5 = some ⟨[], [], [], [], 0, 0, 1, 4, 0⟩ ∧
    (let c1 := cacheInsert ⟨[], [], [], [], 0, 0, 1, 4, 0⟩ [98] [7]
     let r2 := cacheGet c1 [98]
     let r3 := cacheGet r2.2 [98]
     (cacheGet c1 [99]).1 = none ∧
     r2.1 = some [7] ∧ r2.2.oldSize = 1 ∧ r2.2.youngSize = 0 ∧
     storeGet r2.2.store 0 = ⟨[98], [7], false⟩ ∧
     assocFind r2.2.entries [98] = some 0 ∧
     r2.2.young = [] ∧ r2.2.old = [1] ∧
     r3.1 = some [7] ∧ r3.2.oldSize = 2 ∧ r3.2.youngSize = -1 ∧
     r3.2.old = [2, 1]) := by
  decide


theorem putUvarint_length_pos (x : Nat) : 0 < (putUvarint x).length := by
  unfold putUvarint putUvarintAux
  split <;> simp

theorem encodeInto_grows (e : PrefixEnc) (w k : ByteStr) (o : Nat) :
    w.length < (e.encodeInto w k o).1.length := by
  unfold PrefixEnc.encodeInto
  split
  · have h := putUvarint_length_pos (commonPrefixLen e.lastKey k)
    simp only [List.length_append]
    omega
  · have h := putUvarint_length_pos 0
    simp only [List.length_append]
    omega

theorem appendEntry_grows (b : IndexBlockB) (k : ByteStr) (bh : BlockHandle) :
    b.buf.length < (b.appendEntry k bh).buf.length := by
  unfold IndexBlockB.appendEntry
  dsimp only
  have h := encodeInto_grows b.enc b.buf k (b.buf.length % 2 ^ 32)
  simp only [List.length_append]
  omega

theorem sstClose_sees_flush_and_footer (w : SstWriter) (f : ByteStr) (sy : Bool)
    (h : w.close = .ok (f, sy)) :
    sy = w.synced ∧
    ∃ fo, fo.length = footerSize ∧
      f = w.file ++ w.dataBlockB.finish ++ putUint32LE (crc32c w.dataBlockB.finish) ++
        (w.indexBlockB.appendEntry w.lastKey ⟨w.offset, w.dataBlockB.finish.length⟩).finish ++
        putUint32LE
          (crc32c
            (w.indexBlockB.appendEntry w.lastKey ⟨w.offset, w.dataBlockB.finish.length⟩).finish) ++
        fo := by
  unfold SstWriter.close flushBlock writeChecksummedBlock writeIndexBlock writeFooter at h
  dsimp only at h
  split at h
  · exact Except.noConfusion h
  · next w3 heq =>
    split at heq
    · exact Except.noConfusion heq
    · next hlen =>
      rw [Except.ok.injEq] at heq h
      rw [Prod.mk.injEq] at h
      obtain ⟨hf, hsy⟩ := h
      subst heq
      dsimp only at hf hsy
      refine ⟨hsy.symm, _, not_ne_iff.mp hlen, ?_⟩
      rw [← hf]
      simp [writeChecksummedBlock, List.append_assoc]

/-- Claim C4 (amended).  `Writer.Close` flushes the current data block
unconditionally — recording an index entry even when no row was appended
since the last flush —, then writes the index block and the fixed-size
footer, flushes the buffered writer and closes the file; it writes no filter
block (the produced file consists solely of the flushed data blocks, the
index block and the footer) and never calls `f.Sync()`. -/
theorem sstClose_spec (rows : List (ByteStr × Int × GoBytes)) (f : ByteStr) (sy : Bool)
    (h : (rows.foldl (fun w r => w.appendRow r.1 r.2.1 r.2.2) newSstWriter).close =
      .ok (f, sy)) :
    sy = false ∧
    (∀ w : SstWriter, w.indexBlockB.buf.length < (flushBlock w).indexBlockB.buf.length) ∧
    (∃ fo, fo.length = footerSize ∧
      f = (writeIndexBlock
            (flushBlock (rows.foldl (fun w r => w.appendRow r.1 r.2.1 r.2.2) newSstWriter))).2.file
          ++ fo) := by
  set w := rows.foldl (fun w r => w.appendRow r.1 r.2.1 r.2.2) newSstWriter with hw
  obtain ⟨hsy, fo, hfolen, hf⟩ := sstClose_sees_flush_and_footer w f sy h
  have happ : ∀ (w0 : SstWriter) (k : ByteStr) (ts : Int) (v : GoBytes),
      (w0.appendRow k ts v).synced = w0.synced := by
    intro w0 k ts v
    unfold SstWriter.appendRow
    dsimp only
    split <;> rfl
  have hsy2 : w.synced = false := by
    rw [hw]
    have hfold : ∀ (rs : List (ByteStr × Int × GoBytes)) (w0 : SstWriter), w0.synced = false →
        (rs.foldl (fun w r => w.appendRow r.1 r.2.1 r.2.2) w0).synced = false := by
      intro rs
      induction rs with
      | nil => intro w0 h0; exact h0
      | cons r rest ih =>
        intro w0 h0
        refine ih _ ?_
        rw [happ]
        exact h0
    exact hfold rows newSstWriter rfl
  refine ⟨hsy.trans hsy2, ?_, fo, hfolen, ?_⟩
  · intro w2
    exact appendEntry_grows w2.indexBlockB w2.lastKey ⟨w2.offset, w2.dataBlockB.finish.length⟩
  · rw [hf]
    simp [writeIndexBlock, writeChecksummedBlock, flushBlock, List.append_assoc]

set_option maxRecDepth 100000 in
theorem sstClose_spec_witness :
    (false = false) ∧
    (∀ w : SstWriter, w.indexBlockB.buf.length < (flushBlock w).indexBlockB.buf.length) := by
  have h := sstClose_spec [] (([0, 0, 0, 0, 1, 0, 0, 0, 50, 24, 109, 81, 0, 0, 2, 0, 8, 0, 0, 0, 0, 1, 0, 0, 0, 184, 100, 98, 242, 12, 13, 0, 0, 0, 0, 0, 0, 0, 0, 14, 136, 232, 20, 107, 83, 121, 212, 169, 248, 137, 228] : List Nat).map byteOf) false (by decide)
  exact ⟨h.1, h.2.1⟩

set_option maxRecDepth 100000 in
/-- Claim C4 counterexample: closing a writer with no appended rows still
flushes the empty data block (an index entry is recorded for it), produces a
51-byte file — far smaller than the 20001-byte Bloom filter block the claim
says is written — and reports `synced = false`: `Close` never calls
`f.Sync()`. -/
theorem sstClose_counterexample :
    ((newSstWriter.close).map (fun p => (p.1.length, p.2)) = .ok (51, false)) ∧
    (flushBlock newSstWriter).indexBlockB.enc.count = 1 ∧ (51 : Nat) < 20001 := by
  refine ⟨by decide, by decide, by norm_num⟩

theorem drop_succ_of_drop {l : ByteStr} {p : Nat} {b : Byte} {tail : ByteStr}
    (h : l.drop p = b :: tail) : l.drop (p + 1) = tail := by
  have h2 := List.drop_drop 1 p l
  rw [h] at h2
  simpa using h2.symm

theorem drop_append_of_drop {l : ByteStr} {p : Nat} {a b : ByteStr}
    (h : l.drop p = a ++ b) : l.drop (p + a.length) = b := by
  induction a generalizing p with
  | nil => simpa using h
  | cons x a2 ih =>
    have h1 : l.drop (p + 1) = a2 ++ b := drop_succ_of_drop (by simpa using h)
    have := ih h1
    simpa [Nat.add_comm, Nat.add_assoc, Nat.add_left_comm] using this

theorem readByte_drop {f : FileR} {b : Byte} {tail : ByteStr}
    (h : f.data.drop f.pos = b :: tail) :
    readByte f = .ok (b, { f with pos := f.pos + 1 }) := by
  unfold readByte
  rw [h]

theorem readFull_drop {f : FileR} {a b : ByteStr}
    (h : f.data.drop f.pos = a ++ b) :
    readFull f a.length = .ok (a, { f with pos := f.pos + a.length }) := by
  have hlen : a.length + b.length = f.len := by
    have := congrArg List.length h
    simp [FileR.len, List.length_drop] at this ⊢
    omega
  unfold readFull
  rw [if_pos (by omega)]
  rw [h, List.take_append_of_le_length (le_refl a.length), List.take_length]

theorem putUvarintAux_len_le : ∀ (fuel k x : Nat), 1 ≤ k → k ≤ fuel → x < 2 ^ (7 * k) →
    (putUvarintAux fuel x).length ≤ k := by
  intro fuel
  induction fuel with
  | zero => intro k x h1 h2 _; omega
  | succ n ih =>
    intro k x h1 h2 hx
    unfold putUvarintAux
    by_cases hsmall : x < 128
    · simp [hsmall]; omega
    · rw [if_neg hsmall]
      have hk2 : 2 ≤ k := by
        by_contra hk
        have : k = 1 := by omega
        subst this
        simp at hx
        omega
      have hdiv : x / 128 < 2 ^ (7 * (k - 1)) := by
        rw [Nat.div_lt_iff_lt_mul (by norm_num)]
        have : (2 : Nat) ^ (7 * (k - 1)) * 128 = 2 ^ (7 * k) := by
          rw [show (128 : Nat) = 2 ^ 7 by norm_num, ← pow_add]
          congr 1
          omega
        omega
      have := ih (k - 1) (x / 128) (by omega) (by omega) hdiv
      simp
      omega

theorem putUvarint_len_le {k x : Nat} (h1 : 1 ≤ k) (h2 : k ≤ 10) (hx : x < 2 ^ (7 * k)) :
    (putUvarint x).length ≤ k :=
  putUvarintAux_len_le 10 k x h1 h2 hx

theorem readUvarintLoop_step {fuel i x s : Nat} {f f1 : FileR} {b : Byte}
    (hb : readByte f = .ok (b, f1)) :
    readUvarintLoop (fuel + 1) i f x s =
      if b.val < 128 then
        if i = 9 ∧ b.val > 1 then .error .varintOverflow
        else .ok ((x + b.val * 2 ^ s) % 2 ^ 64, f1)
      else readUvarintLoop fuel (i + 1) f1 ((x + b.val % 128 * 2 ^ s) % 2 ^ 64) (s + 7) := by
  simp only [readUvarintLoop, hb]

theorem readUvarintLoop_spec : ∀ (fuel i s x acc : Nat) (f : FileR) (rest : ByteStr),
    f.data.drop f.pos = putUvarintAux (fuel + 1) x ++ rest →
    x < 2 ^ (7 * (fuel + 1)) →
    fuel + 1 + i = 10 →
    s = 7 * i →
    acc < 2 ^ s →
    acc + x * 2 ^ s < 2 ^ 64 →
    readUvarintLoop (fuel + 1) i f acc s =
      .ok (acc + x * 2 ^ s, { f with pos := f.pos + (putUvarintAux (fuel + 1) x).length }) := by
  intro fuel
  induction fuel with
  | zero =>
    intro i s x acc f rest h hx hi hs hacc hbound
    have hsmall : x < 128 := by simpa using hx
    rw [putUvarintAux, if_pos hsmall] at h ⊢
    have hb : readByte f = .ok (byteOf x, { f with pos := f.pos + 1 }) :=
      readByte_drop (by simpa using h)
    have hbv : (byteOf x).val = x := by simp [byteOf, Nat.mod_eq_of_lt (by omega : x < 256)]
    rw [readUvarintLoop_step hb]
    rw [if_pos (by omega : (byteOf x).val < 128)]
    have hnot : ¬(i = 9 ∧ (byteOf x).val > 1) := by
      rintro ⟨h9, hgt⟩
      subst h9
      rw [hbv] at hgt
      have : (2 : Nat) ^ s = 2 ^ 63 := by rw [hs]
      have : 2 * 2 ^ 63 ≤ x * 2 ^ s := by
        rw [this]
        exact Nat.mul_le_mul_right _ (by omega)
      omega
    rw [if_neg hnot, hbv, Nat.mod_eq_of_lt hbound]
    simp
  | succ n ih =>
    intro i s x acc f rest h hx hi hs hacc hbound
    by_cases hsmall : x < 128
    · rw [putUvarintAux, if_pos hsmall] at h ⊢
      have hb : readByte f = .ok (byteOf x, { f with pos := f.pos + 1 }) :=
        readByte_drop (by simpa using h)
      have hbv : (byteOf x).val = x := by simp [byteOf, Nat.mod_eq_of_lt (by omega : x < 256)]
      rw [readUvarintLoop_step hb]
      rw [if_pos (by omega : (byteOf x).val < 128)]
      have hnot : ¬(i = 9 ∧ (byteOf x).val > 1) := by
        rintro ⟨h9, _⟩
        omega
      rw [if_neg hnot, hbv, Nat.mod_eq_of_lt hbound]
      simp
    · rw [putUvarintAux, if_neg hsmall] at h ⊢
      have hb : readByte f =
          .ok (byteOf (x % 128 + 128), { f with pos := f.pos + 1 }) :=
        readByte_drop (by simpa using h)
      have hbv : (byteOf (x % 128 + 128)).val = x % 128 + 128 := by
        have : x % 128 < 128 := Nat.mod_lt _ (by norm_num)
        simp [byteOf, Nat.mod_eq_of_lt (by omega : x % 128 + 128 < 256)]
      rw [readUvarintLoop_step hb]
      rw [if_neg (by omega : ¬(byteOf (x % 128 + 128)).val < 128)]
      have hmod : (byteOf (x % 128 + 128)).val % 128 = x % 128 := by
        rw [hbv]
        omega
      have hxsplit : 128 * (x / 128) + x % 128 = x := Nat.div_add_mod x 128
      have hpow : (2 : Nat) ^ (s + 7) = 2 ^ s * 128 := by
        rw [pow_add]
        norm_num
      have hmono : x % 128 * 2 ^ s ≤ x * 2 ^ s := Nat.mul_le_mul_right _ (by omega)
      have hacc2 : acc + x % 128 * 2 ^ s < 2 ^ (s + 7) := by
        have h127 : x % 128 * 2 ^ s ≤ 127 * 2 ^ s :=
          Nat.mul_le_mul_right _ (by omega)
        have : acc + x % 128 * 2 ^ s < 2 ^ s + 127 * 2 ^ s := by omega
        calc acc + x % 128 * 2 ^ s < 2 ^ s + 127 * 2 ^ s := this
          _ = 2 ^ s * 128 := by ring
          _ = 2 ^ (s + 7) := hpow.symm
      have hsum : acc + x % 128 * 2 ^ s + x / 128 * 2 ^ (s + 7) = acc + x * 2 ^ s := by
        rw [hpow]
        calc acc + x % 128 * 2 ^ s + x / 128 * (2 ^ s * 128)
            = acc + (128 * (x / 128) + x % 128) * 2 ^ s := by ring
          _ = acc + x * 2 ^ s := by rw [hxsplit]
      have hm : (acc + x % 128 * 2 ^ s) % 2 ^ 64 = acc + x % 128 * 2 ^ s :=
        Nat.mod_eq_of_lt (by omega)
      have hdiv : x / 128 < 2 ^ (7 * (n + 1)) := by
        rw [Nat.div_lt_iff_lt_mul (by norm_num)]
        have he : (2 : Nat) ^ (7 * (n + 1)) * 128 = 2 ^ (7 * (n + 1 + 1)) := by
          rw [show (128 : Nat) = 2 ^ 7 by norm_num, ← pow_add]
          congr 1 <;> omega
        omega
      have hdrop : ({ f with pos := f.pos + 1 } : FileR).data.drop
          ({ f with pos := f.pos + 1 } : FileR).pos = putUvarintAux (n + 1) (x / 128) ++ rest := by
        exact drop_succ_of_drop (by simpa using h)
      have := ih (i + 1) (s + 7) (x / 128) (acc + x % 128 * 2 ^ s)
        { f with pos := f.pos + 1 } rest hdrop hdiv (by omega) (by omega) hacc2
        (by rw [hsum]; exact hbound)
      rw [hmod, hm, this, hsum]
      simp
      omega

theorem readUvarint_of_put {x : Nat} (hx : x < 2 ^ 64) {f : FileR} {rest : ByteStr}
    (h : f.data.drop f.pos = putUvarint x ++ rest) :
    readUvarint f = .ok (x, { f with pos := f.pos + (putUvarint x).length }) := by
  have h10 : x < 2 ^ (7 * (9 + 1)) := by
    have : (2 : Nat) ^ 64 ≤ 2 ^ 70 := Nat.pow_le_pow_right (by norm_num) (by norm_num)
    omega
  have := readUvarintLoop_spec 9 0 0 x 0 f rest h h10 (by norm_num) (by norm_num)
    (by norm_num) (by simpa using hx)
  simpa [readUvarint, putUvarint] using this

theorem byteOf_val (n : Nat) : (byteOf n).val = n % 256 := rfl

theorem bnot_bnot (b : Byte) : bnot (bnot b) = b := by
  have := b.isLt
  simp only [bnot]
  ext
  simp
  omega

theorem map_bnot_bnot (l : ByteStr) : (l.map bnot).map bnot = l := by
  simp [List.map_map, Function.comp]
  calc l.map (fun b => bnot (bnot b)) = l.map id := by
        apply List.map_congr_left
        intro b _
        simp [bnot_bnot]
    _ = l := List.map_id l

theorem ocParseStr_enc : ∀ (k rest : ByteStr), ocParseStr (ocEncStr k ++ rest) = .ok (k, rest) := by
  intro k
  induction k with
  | nil =>
    intro rest
    simp [ocEncStr, ocEscape, ocParseStr, byteOf]
  | cons b ks ih =>
    intro rest
    by_cases h0 : b.val = 0
    · have hsh : ocEncStr (b :: ks) ++ rest = b :: byteOf 255 :: (ocEncStr ks ++ rest) := by
        simp [ocEncStr, ocEscape, h0]
      rw [hsh]
      simp only [ocParseStr]
      rw [if_pos h0, if_neg (by simp [byteOf_val]), if_pos (by simp [byteOf_val]), ih rest]
    · by_cases h255 : b.val = 255
      · have hsh : ocEncStr (b :: ks) ++ rest = b :: byteOf 0 :: (ocEncStr ks ++ rest) := by
          simp [ocEncStr, ocEscape, h0, h255]
        rw [hsh]
        simp only [ocParseStr]
        rw [if_neg h0, if_pos h255, if_pos (by simp [byteOf_val]), ih rest]
      · have hsh : ocEncStr (b :: ks) ++ rest = b :: (ocEncStr ks ++ rest) := by
          simp [ocEncStr, ocEscape, h0, h255]
        rw [hsh]
        rcases hE : ocEncStr ks ++ rest with _ | ⟨c, tl⟩
        · exfalso
          have : 2 ≤ (ocEncStr ks ++ rest).length := by
            simp [ocEncStr]
            omega
          rw [hE] at this
          simp at this
        · simp only [ocParseStr]
          rw [if_neg h0, if_neg h255, ← hE, ih rest]

theorem beBytes_length : ∀ (k e : Nat), (beBytes k e).length = k := by
  intro k
  induction k with
  | zero => intro e; rfl
  | succ n ih => intro e; simp [beBytes, ih]

theorem beVal_beBytes : ∀ (k e : Nat), e < 2 ^ (8 * k) → beVal (beBytes k e) = e := by
  intro k
  induction k with
  | zero =>
    intro e he
    simp at he
    simp [beBytes, beVal, he]
  | succ n ih =>
    intro e he
    have hdivlt : e / 2 ^ (8 * n) < 256 := by
      rw [Nat.div_lt_iff_lt_mul (Nat.pos_pow_of_pos _ (by norm_num))]
      have : (2 : Nat) ^ (8 * n) * 256 = 2 ^ (8 * (n + 1)) := by
        rw [show (256 : Nat) = 2 ^ 8 by norm_num, ← pow_add]
        congr 1 <;> omega
      omega
    have hmod : e % 2 ^ (8 * n) < 2 ^ (8 * n) :=
      Nat.mod_lt _ (Nat.pos_pow_of_pos _ (by norm_num))
    simp only [beBytes, beVal, beBytes_length, byteOf_val, ih _ hmod,
      Nat.mod_eq_of_lt hdivlt]
    rw [Nat.mul_comm]
    exact Nat.div_add_mod e (2 ^ (8 * n))

theorem decLen_small {m E : Nat} {junk : ByteStr}
    (h255 : E / 2 ^ (8 * m) % 256 ≠ 255)
    (hlead : leadOnes8 (byteOf (E / 2 ^ (8 * m))) ≠ 0) :
    decInt64Len (beBytes (m + 1) E ++ junk) =
      .ok (leadOnes8 (byteOf (E / 2 ^ (8 * m)))) := by
  simp only [beBytes, List.cons_append, decInt64Len]
  rw [if_neg (by simpa [byteOf_val] using h255), if_neg hlead]

theorem decLen_big {m E : Nat} {junk : ByteStr}
    (h255 : E / 2 ^ (8 * (m + 1)) % 256 = 255)
    (hm : leadOnes8 (byteOf (E % 2 ^ (8 * (m + 1)) / 2 ^ (8 * m))) ≤ 2) :
    decInt64Len (beBytes (m + 2) E ++ junk) =
      .ok (8 + leadOnes8 (byteOf (E % 2 ^ (8 * (m + 1)) / 2 ^ (8 * m)))) := by
  simp only [beBytes, List.cons_append, decInt64Len]
  rw [if_pos (by simpa [byteOf_val] using h255)]
  rw [if_neg (by omega)]

theorem exbind_ok {α β : Type} (a : α) (f : α → Except GoErr β) :
    (Except.ok a >>= f : Except GoErr β) = f a := rfl

theorem head_ge_128 {m E : Nat} (h : 128 ≤ E / 2 ^ (8 * m) % 256) :
    128 ≤ ((beBytes (m + 1) E).headD (byteOf 0)).val := h

theorem leadOnes8_eq0 {v : Nat} (h : v % 256 < 128) : leadOnes8 (byteOf v) = 0 := by
  simp only [leadOnes8, byteOf_val]
  split_ifs <;> omega

theorem leadOnes8_eq1 {v : Nat} (h1 : 128 ≤ v % 256) (h2 : v % 256 < 192) :
    leadOnes8 (byteOf v) = 1 := by
  simp only [leadOnes8, byteOf_val]
  split_ifs <;> omega

theorem leadOnes8_eq2 {v : Nat} (h1 : 192 ≤ v % 256) (h2 : v % 256 < 224) :
    leadOnes8 (byteOf v) = 2 := by
  simp only [leadOnes8, byteOf_val]
  split_ifs <;> omega

theorem leadOnes8_eq3 {v : Nat} (h1 : 224 ≤ v % 256) (h2 : v % 256 < 240) :
    leadOnes8 (byteOf v) = 3 := by
  simp only [leadOnes8, byteOf_val]
  split_ifs <;> omega

theorem leadOnes8_eq4 {v : Nat} (h1 : 240 ≤ v % 256) (h2 : v % 256 < 248) :
    leadOnes8 (byteOf v) = 4 := by
  simp only [leadOnes8, byteOf_val]
  split_ifs <;> omega

theorem leadOnes8_eq5 {v : Nat} (h1 : 248 ≤ v % 256) (h2 : v % 256 < 252) :
    leadOnes8 (byteOf v) = 5 := by
  simp only [leadOnes8, byteOf_val]
  split_ifs <;> omega

theorem leadOnes8_eq6 {v : Nat} (h1 : 252 ≤ v % 256) (h2 : v % 256 < 254) :
    leadOnes8 (byteOf v) = 6 := by
  simp only [leadOnes8, byteOf_val]
  split_ifs <;> omega

theorem leadOnes8_eq7 {v : Nat} (h1 : v % 256 = 254) :
    leadOnes8 (byteOf v) = 7 := by
  simp only [leadOnes8, byteOf_val]
  split_ifs <;> omega

theorem decLen_small2 {m E L : Nat} {junk : ByteStr}
    (h255 : E / 2 ^ (8 * m) % 256 ≠ 255)
    (hlead : leadOnes8 (byteOf (E / 2 ^ (8 * m))) = L)
    (hL : L ≠ 0) :
    decInt64Len (beBytes (m + 1) E ++ junk) = .ok L := by
  rw [← hlead]
  exact decLen_small h255 (by rw [hlead]; exact hL)

theorem decLen_big2 {m E L : Nat} {junk : ByteStr}
    (h255 : E / 2 ^ (8 * (m + 1)) % 256 = 255)
    (hlead : leadOnes8 (byteOf (E % 2 ^ (8 * (m + 1)) / 2 ^ (8 * m))) = L)
    (hL : L ≤ 2) :
    decInt64Len (beBytes (m + 2) E ++ junk) = .ok (8 + L) := by
  rw [← hlead]
  exact decLen_big h255 (by rw [hlead]; exact hL)

theorem encNonneg_facts (x : Nat) (hx : x < 2 ^ 63) (junk : ByteStr) :
    decInt64Len (encInt64Nonneg x ++ junk) = .ok (i64Len x) ∧
    128 ≤ ((encInt64Nonneg x).headD (byteOf 0)).val := by
  unfold encInt64Nonneg i64Len i64Prefix
  split_ifs with h1 h2 h3 h4 h5 h6 h7 h8 h9
  · exact ⟨decLen_small2 (m := 0) (by omega) (leadOnes8_eq1 (by omega) (by omega))
      (by norm_num), head_ge_128 (m := 0) (by omega)⟩
  · exact ⟨decLen_small2 (m := 1) (by omega) (leadOnes8_eq2 (by omega) (by omega))
      (by norm_num), head_ge_128 (m := 1) (by omega)⟩
  · exact ⟨decLen_small2 (m := 2) (by omega) (leadOnes8_eq3 (by omega) (by omega))
      (by norm_num), head_ge_128 (m := 2) (by omega)⟩
  · exact ⟨decLen_small2 (m := 3) (by omega) (leadOnes8_eq4 (by omega) (by omega))
      (by norm_num), head_ge_128 (m := 3) (by omega)⟩
  · exact ⟨decLen_small2 (m := 4) (by omega) (leadOnes8_eq5 (by omega) (by omega))
      (by norm_num), head_ge_128 (m := 4) (by omega)⟩
  · exact ⟨decLen_small2 (m := 5) (by omega) (leadOnes8_eq6 (by omega) (by omega))
      (by norm_num), head_ge_128 (m := 5) (by omega)⟩
  · exact ⟨decLen_small2 (m := 6) (by omega) (leadOnes8_eq7 (by omega))
      (by norm_num), head_ge_128 (m := 6) (by omega)⟩
  · exact ⟨decLen_big2 (m := 6) (by omega) (leadOnes8_eq0 (by omega)) (by norm_num),
      head_ge_128 (m := 7) (by omega)⟩
  · exact ⟨decLen_big2 (m := 7) (by omega) (leadOnes8_eq1 (by omega) (by omega)) (by norm_num),
      head_ge_128 (m := 8) (by omega)⟩
  · exact ⟨decLen_big2 (m := 8) (by omega) (leadOnes8_eq2 (by omega) (by omega)) (by norm_num),
      head_ge_128 (m := 9) (by omega)⟩

theorem i64Len_spec (x : Nat) (hx : x < 2 ^ 63) :
    1 ≤ i64Len x ∧ i64Len x ≤ 10 ∧ x < 2 ^ (7 * i64Len x - 1) := by
  unfold i64Len
  split_ifs <;> exact ⟨by norm_num, by norm_num, by omega⟩

theorem i64Prefix_add_lt {k x : Nat} (hk : 1 ≤ k) (hx : x < 2 ^ (7 * k - 1)) :
    i64Prefix k + x < 2 ^ (8 * k) := by
  unfold i64Prefix
  have hA : 2 ≤ 2 ^ (k + 1) := by
    calc (2 : Nat) = 2 ^ 1 := by norm_num
      _ ≤ 2 ^ (k + 1) := Nat.pow_le_pow_right (by norm_num) (by omega)
  have hstep : (2 ^ (k + 1) - 2) * 2 ^ (7 * k - 1) + 2 ^ (7 * k - 1) =
      (2 ^ (k + 1) - 1) * 2 ^ (7 * k - 1) := by
    have h2 : (2 ^ (k + 1) - 1) = (2 ^ (k + 1) - 2) + 1 := by omega
    rw [h2, Nat.add_mul, Nat.one_mul]
  have hpos : 0 < 2 ^ (7 * k - 1) := Nat.pos_pow_of_pos _ (by norm_num)
  have hlt : (2 ^ (k + 1) - 1) * 2 ^ (7 * k - 1) < 2 ^ (k + 1) * 2 ^ (7 * k - 1) :=
    (Nat.mul_lt_mul_right hpos).mpr (by omega)
  have hpow : (2 : Nat) ^ (k + 1) * 2 ^ (7 * k - 1) = 2 ^ (8 * k) := by
    rw [← pow_add]
    congr 1
    omega
  omega

theorem encNonneg_length (x : Nat) : (encInt64Nonneg x).length = i64Len x := by
  unfold encInt64Nonneg
  exact beBytes_length _ _

theorem decInt64Nonneg_enc (x : Nat) (hx : x < 2 ^ 63) (junk : ByteStr) :
    decInt64Nonneg (encInt64Nonneg x ++ junk) = .ok (x, i64Len x) := by
  obtain ⟨hk1, _, hxk⟩ := i64Len_spec x hx
  have hlen := (encNonneg_facts x hx junk).1
  have hEbound : i64Prefix (i64Len x) + x < 2 ^ (8 * i64Len x) := i64Prefix_add_lt hk1 hxk
  unfold decInt64Nonneg
  rw [hlen, exbind_ok]
  rw [if_neg (by rw [List.length_append, encNonneg_length]; omega)]
  have htake : (encInt64Nonneg x ++ junk).take (i64Len x) = encInt64Nonneg x := by
    rw [← encNonneg_length x]
    exact List.take_left _ _
  rw [htake]
  conv_lhs => rw [encInt64Nonneg]
  rw [beVal_beBytes _ _ hEbound]
  rw [if_neg (by omega)]
  have hsub : i64Prefix (i64Len x) + x - i64Prefix (i64Len x) = x := by omega
  rw [hsub]

theorem encNonneg_ne_nil (x : Nat) (hx : x < 2 ^ 63) : encInt64Nonneg x ≠ [] := by
  intro hcon
  have h1 := (i64Len_spec x hx).1
  have h2 := encNonneg_length x
  rw [hcon] at h2
  simp at h2
  omega

theorem parseInt64_enc (t : Int) (ht1 : -(2 ^ 63) ≤ t) (ht2 : t < 2 ^ 63) (junk : ByteStr) :
    ∃ m, parseInt64 (encInt64 t ++ junk) = .ok (t, m) := by
  by_cases ht : 0 ≤ t
  · have hx : t.toNat < 2 ^ 63 := by omega
    obtain ⟨hdec, hhead⟩ := encNonneg_facts t.toNat hx junk
    rcases henc : encInt64Nonneg t.toNat with _ | ⟨b, tail⟩
    · exact absurd henc (encNonneg_ne_nil _ hx)
    refine ⟨i64Len t.toNat, ?_⟩
    rw [henc] at hhead
    simp only [List.headD_cons] at hhead
    have hb : ¬((b : Nat) < 128) := by omega
    unfold encInt64
    rw [if_pos ht, henc, List.cons_append]
    simp only [parseInt64]
    rw [if_neg hb]
    rw [← List.cons_append, ← henc, decInt64Nonneg_enc t.toNat hx junk]
    exact (by rw [Int.toNat_of_nonneg ht] :
      (Except.ok ((t.toNat : Int), i64Len t.toNat) : Except GoErr (Int × Nat)) =
        .ok (t, i64Len t.toNat))
  · have hx : (-(t + 1)).toNat < 2 ^ 63 := by omega
    obtain ⟨hdec, hhead⟩ := encNonneg_facts (-(t + 1)).toNat hx (junk.map bnot)
    rcases henc : encInt64Nonneg (-(t + 1)).toNat with _ | ⟨b, tail⟩
    · exact absurd henc (encNonneg_ne_nil _ hx)
    refine ⟨i64Len (-(t + 1)).toNat, ?_⟩
    rw [henc] at hhead
    simp only [List.headD_cons] at hhead
    have hb : ((bnot b : Byte) : Nat) < 128 := by
      have hbv := b.isLt
      exact (by omega : 255 - (b : Nat) < 128)
    unfold encInt64
    rw [if_neg ht, henc]
    simp only [List.map_cons, List.cons_append]
    simp only [parseInt64]
    rw [if_pos hb]
    have hs : (bnot b :: (List.map bnot tail ++ junk)).map bnot =
        encInt64Nonneg (-(t + 1)).toNat ++ junk.map bnot := by
      simp only [List.map_cons, List.map_append, bnot_bnot, map_bnot_bnot, henc,
        List.cons_append]
    rw [hs, decInt64Nonneg_enc _ hx (junk.map bnot)]
    exact (by rw [show -(((-(t + 1)).toNat : Int) + 1) = t from by omega] :
      (Except.ok (-(((-(t + 1)).toNat : Int) + 1), i64Len (-(t + 1)).toNat) :
        Except GoErr (Int × Nat)) = .ok (t, i64Len (-(t + 1)).toNat))

theorem parseInt64Decr_enc (t : Int) (ht1 : -(2 ^ 63) ≤ t) (ht2 : t < 2 ^ 63)
    (junk : ByteStr) :
    ∃ m, parseInt64Decr (encInt64Decr t ++ junk) = .ok (t, m) := by
  unfold parseInt64Decr encInt64Decr
  rw [List.map_append, map_bnot_bnot]
  exact parseInt64_enc t ht1 ht2 (junk.map bnot)

theorem parseEKey_enc (key : ByteStr) (ts : Int) (ht1 : -(2 ^ 63) ≤ ts) (ht2 : ts < 2 ^ 63) :
    parseEKey (encodeEKey key ts) = .ok (key, ts) := by
  unfold parseEKey encodeEKey
  rw [ocParseStr_enc key (encInt64Decr ts), exbind_ok]
  obtain ⟨m, hm⟩ := parseInt64Decr_enc ts ht1 ht2 []
  rw [List.append_nil] at hm
  simp only []
  rw [hm, exbind_ok]

theorem commonPrefixLen_le_left : ∀ (a b : ByteStr), commonPrefixLen a b ≤ a.length := by
  intro a
  induction a with
  | nil => intro b; cases b <;> simp [commonPrefixLen]
  | cons x as ih =>
    intro b
    cases b with
    | nil => simp [commonPrefixLen]
    | cons y bs =>
      simp only [commonPrefixLen]
      split_ifs
      · have := ih bs
        simp
        omega
      · simp

theorem commonPrefixLen_le_right : ∀ (a b : ByteStr), commonPrefixLen a b ≤ b.length := by
  intro a
  induction a with
  | nil => intro b; cases b <;> simp [commonPrefixLen]
  | cons x as ih =>
    intro b
    cases b with
    | nil => simp [commonPrefixLen]
    | cons y bs =>
      simp only [commonPrefixLen]
      split_ifs
      · have := ih bs
        simp
        omega
      · simp

theorem take_cpl_append : ∀ (a b : ByteStr),
    a.take (commonPrefixLen a b) ++ b.drop (commonPrefixLen a b) = b := by
  intro a
  induction a with
  | nil => intro b; cases b <;> simp [commonPrefixLen]
  | cons x as ih =>
    intro b
    cases b with
    | nil => simp [commonPrefixLen]
    | cons y bs =>
      simp only [commonPrefixLen]
      split_ifs with he
      · subst he
        simp only [show 1 + commonPrefixLen as bs = commonPrefixLen as bs + 1 from by omega]
        simp only [List.take_succ_cons, List.drop_succ_cons, List.cons_append, List.cons.injEq]
        exact ⟨trivial, ih bs⟩
      · simp

theorem segN_nil (k : ByteStr) : segN [] k = segR k := by
  unfold segN segR
  have h : commonPrefixLen [] k = 0 := by cases k <;> rfl
  rw [h]
  simp

theorem prefixDecode_segR {r : FileR} {k tail : ByteStr} {lk : Option ByteStr}
    (h : r.data.drop r.pos = segR k ++ tail) (hk : k.length < 2 ^ 64) :
    prefixDecodeFrom r lk = (.ok k, { r with pos := r.pos + (segR k).length }) := by
  unfold segR at h
  rw [List.append_assoc, List.append_assoc] at h
  have h0 := readUvarint_of_put (x := 0) (by norm_num) h
  have h1 : ({ r with pos := r.pos + (putUvarint 0).length } : FileR).data.drop
      ({ r with pos := r.pos + (putUvarint 0).length } : FileR).pos =
      putUvarint k.length ++ (k ++ tail) :=
    drop_append_of_drop h
  have h2 := readUvarint_of_put hk h1
  have h3 : ({ ({ r with pos := r.pos + (putUvarint 0).length } : FileR) with
      pos := ({ r with pos := r.pos + (putUvarint 0).length } : FileR).pos +
        (putUvarint k.length).length } : FileR).data.drop
      ({ ({ r with pos := r.pos + (putUvarint 0).length } : FileR) with
      pos := ({ r with pos := r.pos + (putUvarint 0).length } : FileR).pos +
        (putUvarint k.length).length } : FileR).pos = k ++ tail :=
    drop_append_of_drop h1
  have h4 := readFull_drop h3
  unfold prefixDecodeFrom
  simp only [h0, h2]
  rw [if_neg (by omega)]
  simp only [h4]
  apply Prod.ext
  · simp
  · simp only [FileR.mk.injEq]
    refine ⟨trivial, ?_⟩
    simp [segR, List.length_append]
    omega

theorem prefixDecode_segN {r : FileR} {prev k tail : ByteStr}
    (h : r.data.drop r.pos = segN prev k ++ tail) (hk : k.length < 2 ^ 64) :
    prefixDecodeFrom r (some prev) =
      (.ok k, { r with pos := r.pos + (segN prev k).length }) := by
  have hcl : commonPrefixLen prev k ≤ prev.length := commonPrefixLen_le_left prev k
  have hcr : commonPrefixLen prev k ≤ k.length := commonPrefixLen_le_right prev k
  unfold segN at h
  rw [List.append_assoc, List.append_assoc] at h
  have h0 := readUvarint_of_put (x := commonPrefixLen prev k) (by omega) h
  have h1 : ({ r with pos := r.pos + (putUvarint (commonPrefixLen prev k)).length } :
      FileR).data.drop
      ({ r with pos := r.pos + (putUvarint (commonPrefixLen prev k)).length } : FileR).pos =
      putUvarint (k.length - commonPrefixLen prev k) ++
        (k.drop (commonPrefixLen prev k) ++ tail) :=
    drop_append_of_drop h
  have h2 := readUvarint_of_put (x := k.length - commonPrefixLen prev k) (by omega) h1
  have h3 : ({ ({ r with pos := r.pos + (putUvarint (commonPrefixLen prev k)).length } :
      FileR) with
      pos := ({ r with pos := r.pos + (putUvarint (commonPrefixLen prev k)).length } :
        FileR).pos + (putUvarint (k.length - commonPrefixLen prev k)).length } :
      FileR).data.drop
      ({ ({ r with pos := r.pos + (putUvarint (commonPrefixLen prev k)).length } :
      FileR) with
      pos := ({ r with pos := r.pos + (putUvarint (commonPrefixLen prev k)).length } :
        FileR).pos + (putUvarint (k.length - commonPrefixLen prev k)).length } :
      FileR).pos = k.drop (commonPrefixLen prev k) ++ tail :=
    drop_append_of_drop h1
  have h4 := readFull_drop h3
  have hdl : (k.drop (commonPrefixLen prev k)).length = k.length - commonPrefixLen prev k := by
    simp
  rw [hdl] at h4
  unfold prefixDecodeFrom
  simp only [h0, h2]
  rw [if_neg (by simp only [Option.getD]; omega)]
  simp only [h4]
  apply Prod.ext
  · simp [take_cpl_append]
  · simp only [FileR.mk.injEq]
    refine ⟨trivial, ?_⟩
    simp [segN, List.length_append]
    omega

theorem appendRow_eq_bstep (b : DataBlockB) (key : ByteStr) (ts : Int) (v : GoBytes) :
    b.appendRow key ts v =
      ⟨(bstep (b.buf, b.enc) (dEntry (key, ts, v))).1,
       (bstep (b.buf, b.enc) (dEntry (key, ts, v))).2⟩ := by
  unfold DataBlockB.appendRow bstep dEntry dataValBytes
  cases v <;> simp [List.append_assoc]

theorem appendEntry_eq_bstep (b : IndexBlockB) (key : ByteStr) (bh : BlockHandle) :
    b.appendEntry key bh =
      ⟨(bstep (b.buf, b.enc) (key, bhVal bh)).1,
       (bstep (b.buf, b.enc) (key, bhVal bh)).2⟩ := by
  unfold IndexBlockB.appendEntry bstep bhVal
  simp [List.append_assoc]

theorem encodeInto_restart (e : PrefixEnc) (w k : ByteStr) (off : Nat)
    (hc : ¬(e.count < e.restartInterval)) :
    e.encodeInto w k off =
      (w ++ segR k,
       { e with lastKey := k, count := 1, restarts := e.restarts ++ [off % 2 ^ 32] }) := by
  unfold PrefixEnc.encodeInto segR
  rw [if_neg hc]
  simp [List.append_assoc]

theorem encodeInto_cont (e : PrefixEnc) (w k : ByteStr) (off : Nat)
    (hc : e.count < e.restartInterval) :
    e.encodeInto w k off =
      (w ++ segN e.lastKey k, { e with lastKey := k, count := e.count + 1 }) := by
  unfold PrefixEnc.encodeInto segN
  rw [if_pos hc]
  simp [List.append_assoc]

theorem countA_false_eq (j : Nat) (hj : j ≠ 0) : countA false j = (j : Int) := by
  unfold countA
  simp [hj]

theorem countAfter_cons (seeded : Bool) (j : Nat) (e : ByteStr × ByteStr)
    (rest : List (ByteStr × ByteStr)) (hj : j < 16) :
    countAfter seeded j (e :: rest) = countAfter false ((j + 1) % 16) rest := by
  have hL : countAfter seeded j (e :: rest) =
      (((j + (e :: rest).length - 1) % 16 + 1 : Nat) : Int) := by
    unfold countAfter
    rw [if_neg (by simp)]
  rw [hL]
  cases rest with
  | nil =>
    unfold countAfter countA
    rw [if_pos (by simp), if_neg (by simp)]
    split_ifs <;> simp <;> omega
  | cons f fs =>
    unfold countAfter
    rw [if_neg (by simp)]
    simp only [List.length_cons]
    congr 1
    omega

theorem fold_chars : ∀ (es : List (ByteStr × ByteStr)) (buf : ByteStr) (R : List Nat)
    (prev : ByteStr) (j : Nat) (seeded : Bool),
    j < 16 →
    (seeded = true → j = 0 ∧ prev = []) →
    buf.length + (restBytes prev j es).length < 2 ^ 32 →
    List.foldl bstep (buf, ⟨16, R, prev, countA seeded j⟩) es =
      (buf ++ restBytes prev j es,
       ⟨16, R ++ restRestarts seeded prev j buf.length es,
        lastKeyD prev es, countAfter seeded j es⟩) := by
  intro es
  induction es with
  | nil =>
    intro buf R prev j seeded hj hseed hoff
    simp [restBytes, restRestarts, lastKeyD, countAfter]
  | cons e rest ih =>
    intro buf R prev j seeded hj hseed hoff
    have hlen_cons : restBytes prev j (e :: rest) =
        (if j = 0 then segR e.1 else segN prev e.1) ++ e.2 ++
          restBytes e.1 ((j + 1) % 16) rest := rfl
    rw [List.foldl_cons]
    by_cases hsd : seeded = true
    · obtain ⟨hj0, hprev⟩ := hseed hsd
      subst hj0
      subst hprev
      subst hsd
      have hstep : bstep (buf, ⟨16, R, [], countA true 0⟩) e =
          (buf ++ segR e.1 ++ e.2, ⟨16, R, e.1, countA false ((0 + 1) % 16)⟩) := by
        simp only [bstep]
        rw [encodeInto_cont _ _ _ _ (by simp [countA])]
        simp [segN_nil, countA]
      rw [hstep]
      rw [ih (buf ++ segR e.1 ++ e.2) R e.1 ((0 + 1) % 16) false (by omega)
        (by simp)
        (by rw [hlen_cons] at hoff
            simp [List.length_append] at hoff ⊢
            omega)]
      rw [countAfter_cons true 0 e rest (by omega)]
      apply Prod.ext
      · rw [hlen_cons]
        simp [List.append_assoc]
      · simp only [PrefixEnc.mk.injEq]
        simp only [restRestarts]
        simp [lastKeyD, List.length_append, Nat.add_assoc, List.append_assoc]
    · have hsd2 : seeded = false := by cases seeded <;> simp_all
      subst hsd2
      by_cases hj0 : j = 0
      · subst hj0
        have hstep : bstep (buf, ⟨16, R, prev, countA false 0⟩) e =
            (buf ++ segR e.1 ++ e.2,
             ⟨16, R ++ [buf.length % 2 ^ 32 % 2 ^ 32], e.1, (1 : Int)⟩) := by
          simp only [bstep]
          rw [encodeInto_restart _ _ _ _ (by simp [countA])]
        rw [hstep]
        rw [show buf.length % 2 ^ 32 % 2 ^ 32 = buf.length from by omega]
        rw [show (1 : Int) = countA false ((0 + 1) % 16) from rfl]
        rw [ih (buf ++ segR e.1 ++ e.2) (R ++ [buf.length]) e.1 ((0 + 1) % 16) false
          (by omega) (by simp)
          (by rw [hlen_cons] at hoff
              simp [List.length_append] at hoff ⊢
              omega)]
        rw [countAfter_cons false 0 e rest (by omega)]
        apply Prod.ext
        · rw [hlen_cons]
          simp [List.append_assoc]
        · simp only [PrefixEnc.mk.injEq]
          simp only [restRestarts]
          simp [lastKeyD, List.length_append, Nat.add_assoc, List.append_assoc]
      · have hstep : bstep (buf, ⟨16, R, prev, countA false j⟩) e =
            (buf ++ segN prev e.1 ++ e.2,
             ⟨16, R, e.1, countA false j + 1⟩) := by
          simp only [bstep]
          rw [encodeInto_cont _ _ _ _ (by
            show countA false j < (16 : Int)
            rw [countA_false_eq j hj0]
            exact_mod_cast hj)]
        rw [hstep]
        rw [show countA false j + 1 = countA false ((j + 1) % 16) from by
          rw [countA_false_eq j hj0]
          unfold countA
          rw [if_neg (by simp)]
          split_ifs <;> omega]
        rw [ih (buf ++ segN prev e.1 ++ e.2) R e.1 ((j + 1) % 16) false
          (by omega) (by simp)
          (by rw [hlen_cons] at hoff
              simp [if_neg hj0, List.length_append] at hoff ⊢
              omega)]
        rw [countAfter_cons false j e rest hj]
        apply Prod.ext
        · rw [hlen_cons]
          simp [if_neg hj0, List.append_assoc]
        · simp only [PrefixEnc.mk.injEq]
          simp only [restRestarts]
          simp [if_neg hj0, lastKeyD, List.length_append, Nat.add_assoc, List.append_assoc]

theorem restBytes_prev0 (p q : ByteStr) (es : List (ByteStr × ByteStr)) :
    restBytes p 0 es = restBytes q 0 es := by
  cases es with
  | nil => rfl
  | cons e rest => simp [restBytes]

theorem restBytes_append : ∀ (es1 es2 : List (ByteStr × ByteStr)) (prev : ByteStr) (j : Nat),
    j < 16 →
    restBytes prev j (es1 ++ es2) =
      restBytes prev j es1 ++ restBytes (lastKeyD prev es1) ((j + es1.length) % 16) es2 := by
  intro es1
  induction es1 with
  | nil =>
    intro es2 prev j hj
    simp [restBytes, lastKeyD, Nat.mod_eq_of_lt hj]
  | cons e rest ih =>
    intro es2 prev j hj
    rw [List.cons_append]
    rw [show restBytes prev j (e :: (rest ++ es2)) =
        (if j = 0 then segR e.1 else segN prev e.1) ++ e.2 ++
          restBytes e.1 ((j + 1) % 16) (rest ++ es2) from rfl]
    rw [show restBytes prev j (e :: rest) =
        (if j = 0 then segR e.1 else segN prev e.1) ++ e.2 ++
          restBytes e.1 ((j + 1) % 16) rest from rfl]
    rw [ih es2 e.1 ((j + 1) % 16) (Nat.mod_lt _ (by norm_num))]
    rw [show lastKeyD prev (e :: rest) = lastKeyD e.1 rest from rfl]
    rw [show ((j + 1) % 16 + rest.length) % 16 = (j + (e :: rest).length) % 16 from by
      simp [List.length_cons]
      omega]
    simp [List.append_assoc]

theorem restRestarts_cons (seeded : Bool) (prev : ByteStr) (j off : Nat)
    (e : ByteStr × ByteStr) (rest : List (ByteStr × ByteStr)) :
    restRestarts seeded prev j off (e :: rest) =
      (if j = 0 ∧ seeded = false then [off] else []) ++
        restRestarts false e.1 ((j + 1) % 16)
          (off + ((if j = 0 then segR e.1 else segN prev e.1) ++ e.2).length) rest := rfl

theorem restBytes_cons (prev : ByteStr) (j : Nat) (e : ByteStr × ByteStr)
    (rest : List (ByteStr × ByteStr)) :
    restBytes prev j (e :: rest) =
      (if j = 0 then segR e.1 else segN prev e.1) ++ e.2 ++
        restBytes e.1 ((j + 1) % 16) rest := rfl

theorem restRestarts_mid : ∀ (c rest2 : List (ByteStr × ByteStr))
    (prev : ByteStr) (j off : Nat),
    j ≠ 0 → j < 16 → j + c.length = 16 →
    restRestarts false prev j off (c ++ rest2) =
      restRestarts false (lastKeyD prev c) 0 (off + (restBytes prev j c).length) rest2 := by
  intro c
  induction c with
  | nil =>
    intro rest2 prev j off hj0 hj hc
    simp at hc
    omega
  | cons e c2 ih =>
    intro rest2 prev j off hj0 hj hc
    have hlc : j + 1 + c2.length = 16 := by simp at hc; omega
    rw [List.cons_append, restRestarts_cons, if_neg (by simp [hj0]), List.nil_append,
      if_neg hj0]
    rw [restBytes_cons prev j e c2, if_neg hj0]
    have h3 : lastKeyD prev (e :: c2) = lastKeyD e.1 c2 := rfl
    rw [h3]
    by_cases hfull : j + 1 = 16
    · have hc2 : c2 = [] := by
        have : c2.length = 0 := by omega
        exact List.length_eq_zero.mp this
      subst hc2
      rw [show (j + 1) % 16 = 0 from by omega]
      simp only [restBytes, lastKeyD]
      congr 1
      simp [List.length_append]
    · have hmod : (j + 1) % 16 = j + 1 := by omega
      rw [hmod]
      rw [ih rest2 e.1 (j + 1) (off + (segN prev e.1 ++ e.2).length) (by omega) (by omega)
        (by omega)]
      congr 1
      simp [List.length_append]
      omega

theorem restRestarts_short : ∀ (c : List (ByteStr × ByteStr)) (prev : ByteStr) (j off : Nat),
    j ≠ 0 → j + c.length ≤ 16 →
    restRestarts false prev j off c = [] := by
  intro c
  induction c with
  | nil => intro prev j off _ _; rfl
  | cons e c2 ih =>
    intro prev j off hj0 hc
    have hlc : j + 1 + c2.length ≤ 16 := by simp at hc; omega
    rw [restRestarts_cons, if_neg (by simp [hj0]), List.nil_append]
    by_cases hfull : j + 1 = 16
    · have hc2 : c2 = [] := by
        have : c2.length = 0 := by omega
        exact List.length_eq_zero.mp this
      subst hc2
      rfl
    · rw [show (j + 1) % 16 = j + 1 from by omega]
      exact ih e.1 (j + 1) _ (by omega) (by omega)

theorem restRestarts_false_eq : ∀ (n : Nat) (es : List (ByteStr × ByteStr)),
    es.length = n → ∀ (prev : ByteStr) (off : Nat),
    restRestarts false prev 0 off es = chunkOffs off es := by
  intro n
  induction n using Nat.strong_induction_on with
  | _ n ihn =>
    intro es hlen prev off
    cases es with
    | nil => simp [chunkOffs, restRestarts]
    | cons e rest =>
      have hn : rest.length + 1 = n := by simpa using hlen
      rw [chunkOffs]
      rw [restRestarts_cons, if_pos ⟨rfl, rfl⟩, if_pos rfl, List.singleton_append]
      congr 1
      by_cases hlong : rest.length ≤ 14
      · rw [restRestarts_short rest e.1 ((0 + 1) % 16) _ (by norm_num) (by omega)]
        have hdrop : (e :: rest).drop 16 = [] := by
          apply List.drop_eq_nil_of_le
          simp
          omega
        rw [hdrop]
        simp [chunkOffs]
      · have hsplit : rest = rest.take 15 ++ rest.drop 15 := (List.take_append_drop 15 rest).symm
        rw [show (0 + 1) % 16 = 1 from by norm_num]
        conv_lhs => rw [hsplit]
        rw [restRestarts_mid (rest.take 15) (rest.drop 15) e.1 1 _ (by norm_num) (by norm_num)
          (by simp [List.length_take]; omega)]
        rw [ihn (rest.drop 15).length (by simp; omega) (rest.drop 15) rfl]
        have hdrop16 : (e :: rest).drop 16 = rest.drop 15 := by
          simp [List.drop_succ_cons]
        rw [hdrop16]
        congr 1
        have htake16 : (e :: rest).take 16 = e :: rest.take 15 := by
          simp [List.take_succ_cons]
        rw [htake16, restBytes_cons, if_pos rfl]
        rw [show (0 + 1) % 16 = 1 from by norm_num]
        simp [List.length_append]
        omega

theorem restRestarts_true_eq : ∀ (es : List (ByteStr × ByteStr)) (prev : ByteStr) (off : Nat),
    restRestarts true prev 0 off es =
      chunkOffs (off + (restBytes prev 0 (es.take 16)).length) (es.drop 16) := by
  intro es prev off
  cases es with
  | nil => simp [chunkOffs, restRestarts]
  | cons e rest =>
    rw [restRestarts_cons, if_neg (by simp), List.nil_append, if_pos rfl]
    by_cases hlong : rest.length ≤ 14
    · rw [restRestarts_short rest e.1 ((0 + 1) % 16) _ (by norm_num) (by omega)]
      have hdrop : (e :: rest).drop 16 = [] := by
        apply List.drop_eq_nil_of_le
        simp
        omega
      rw [hdrop]
      simp [chunkOffs]
    · have hsplit : rest = rest.take 15 ++ rest.drop 15 := (List.take_append_drop 15 rest).symm
      rw [show (0 + 1) % 16 = 1 from by norm_num]
      conv_lhs => rw [hsplit]
      rw [restRestarts_mid (rest.take 15) (rest.drop 15) e.1 1 _ (by norm_num) (by norm_num)
        (by simp [List.length_take]; omega)]
      rw [restRestarts_false_eq (rest.drop 15).length (rest.drop 15) rfl]
      have hdrop16 : (e :: rest).drop 16 = rest.drop 15 := by
        simp [List.drop_succ_cons]
      rw [hdrop16]
      congr 1
      have htake16 : (e :: rest).take 16 = e :: rest.take 15 := by
        simp [List.take_succ_cons]
      rw [htake16, restBytes_cons, if_pos rfl]
      rw [show (0 + 1) % 16 = 1 from by norm_num]
      simp [List.length_append]
      omega

theorem chunkOffs_spec : ∀ (t : Nat) (es : List (ByteStr × ByteStr)) (off : Nat),
    t < (chunkOffs off es).length →
    (chunkOffs off es).getD t 0 = off + (restBytes [] 0 (es.take (16 * t))).length ∧
      16 * t < es.length := by
  intro t
  induction t with
  | zero =>
    intro es off h
    cases es with
    | nil => simp [chunkOffs] at h
    | cons e rest =>
      rw [chunkOffs]
      constructor
      · simp [restBytes]
      · simp
  | succ t ih =>
    intro es off h
    cases es with
    | nil => simp [chunkOffs] at h
    | cons e rest =>
      rw [chunkOffs] at h ⊢
      have h2 : t < (chunkOffs (off + (restBytes [] 0 ((e :: rest).take 16)).length)
          ((e :: rest).drop 16)).length := by
        simpa using h
      obtain ⟨hget, hcov⟩ := ih ((e :: rest).drop 16)
        (off + (restBytes [] 0 ((e :: rest).take 16)).length) h2
      have hlen16 : ((e :: rest).take 16).length = 16 := by
        rw [List.length_take]
        have : 0 < ((e :: rest).drop 16).length := by omega
        simp at this ⊢
        omega
      constructor
      · rw [show ((off :: chunkOffs (off + (restBytes [] 0 ((e :: rest).take 16)).length)
            ((e :: rest).drop 16)).getD (t + 1) 0) =
            (chunkOffs (off + (restBytes [] 0 ((e :: rest).take 16)).length)
              ((e :: rest).drop 16)).getD t 0 from rfl]
        rw [hget]
        have hsplit : (e :: rest).take (16 * (t + 1)) =
            (e :: rest).take 16 ++ ((e :: rest).drop 16).take (16 * t) := by
          rw [← List.take_add]
          congr 1
          omega
        rw [hsplit]
        rw [restBytes_append _ _ [] 0 (by norm_num), hlen16]
        rw [show (0 + 16) % 16 = 0 from by norm_num]
        rw [restBytes_prev0 (lastKeyD [] ((e :: rest).take 16)) []]
        simp [List.length_append]
        omega
      · have hdl : ((e :: rest).drop 16).length = (e :: rest).length - 16 := by simp
        simp at hdl hcov ⊢
        omega

theorem length_putUint32LE (x : Nat) : (putUint32LE x).length = 4 := rfl

theorem length_putUint64LE (x : Nat) : (putUint64LE x).length = 8 := rfl

theorem leVal_putUint32LE (x : Nat) : leVal (putUint32LE x) = x % 2 ^ 32 := by
  simp only [putUint32LE, leVal]
  omega

theorem leVal_append (a b : ByteStr) : leVal (a ++ b) = leVal a + 256 ^ a.length * leVal b := by
  induction a with
  | nil => simp [leVal]
  | cons x as ih =>
    rw [List.cons_append]
    rw [show leVal (x :: (as ++ b)) = x.val + 256 * leVal (as ++ b) from rfl]
    rw [show leVal (x :: as) = x.val + 256 * leVal as from rfl]
    rw [ih, List.length_cons]
    ring

theorem leVal_putUint64LE (x : Nat) : leVal (putUint64LE x) = x % 2 ^ 64 := by
  unfold putUint64LE
  rw [leVal_append, leVal_putUint32LE, leVal_putUint32LE, length_putUint32LE]
  have h1 : (256 : Nat) ^ 4 = 2 ^ 32 := by norm_num
  rw [h1]
  omega

theorem flatten_putUint32_length (offs : List Nat) :
    ((offs.map putUint32LE).flatten).length = 4 * offs.length := by
  induction offs with
  | nil => rfl
  | cons o os ih =>
    simp only [List.map_cons, List.flatten_cons, List.length_append, ih,
      length_putUint32LE, List.length_cons]
    omega

theorem restartsLoop_spec : ∀ (offs : List Nat) (fuel : Nat) (d pre tail4 : ByteStr),
    d = pre ++ (offs.map putUint32LE).flatten ++ tail4 →
    tail4.length = 4 →
    (∀ o ∈ offs, o < 2 ^ 32) →
    offs.length < fuel →
    restartsLoop d fuel pre.length = offs := by
  intro offs
  induction offs with
  | nil =>
    intro fuel d pre tail4 hd h4 _ hf
    cases fuel with
    | zero => omega
    | succ n =>
      have hdlen : d.length = pre.length + 4 := by
        rw [hd]
        simp [List.length_append, h4]
      simp only [restartsLoop]
      rw [if_neg (by omega)]
  | cons o offs2 ih =>
    intro fuel d pre tail4 hd h4 ho hf
    cases fuel with
    | zero => omega
    | succ n =>
      have hfl := flatten_putUint32_length (o :: offs2)
      have hdlen : d.length = pre.length + 4 * offs2.length + 8 := by
        rw [hd]
        simp only [List.length_append, h4, hfl, List.length_cons]
        omega
      simp only [restartsLoop]
      rw [if_pos (by omega)]
      have hdrop : d.drop pre.length = putUint32LE o ++ ((offs2.map putUint32LE).flatten ++ tail4) := by
        rw [hd]
        rw [List.append_assoc]
        rw [List.drop_left]
        simp [List.append_assoc]
      have htake : (d.drop pre.length).take 4 = putUint32LE o := by
        rw [hdrop]
        rw [show (4 : Nat) = (putUint32LE o).length from rfl]
        exact List.take_left _ _
      rw [htake, leVal_putUint32LE, Nat.mod_eq_of_lt (ho o (by simp))]
      congr 1
      have hd2 : d = (pre ++ putUint32LE o) ++ (offs2.map putUint32LE).flatten ++ tail4 := by
        rw [hd]
        simp [List.append_assoc]
      have := ih n d (pre ++ putUint32LE o) tail4 hd2 h4
        (fun x hx => ho x (by simp [hx])) (by simp at hf ⊢; omega)
      rw [show pre.length + 4 = (pre ++ putUint32LE o).length from by
        simp [List.length_append, length_putUint32LE]]
      exact this

theorem newParsedBlock_spec (E : ByteStr) (offs : List Nat)
    (ho : ∀ o ∈ offs, o < 2 ^ 32) (hn : offs.length < 2 ^ 32) :
    newParsedBlock (E ++ (offs.map putUint32LE).flatten ++ putUint32LE offs.length) =
      ⟨⟨E, 0⟩, offs⟩ := by
  have hfl := flatten_putUint32_length offs
  have hdlen : (E ++ (offs.map putUint32LE).flatten ++ putUint32LE offs.length).length =
      E.length + 4 * offs.length + 4 := by
    simp only [List.length_append, hfl, length_putUint32LE]
  have hdrop : (E ++ (offs.map putUint32LE).flatten ++ putUint32LE offs.length).drop
      ((E ++ (offs.map putUint32LE).flatten ++ putUint32LE offs.length).length - 4) =
      putUint32LE offs.length := by
    rw [hdlen]
    rw [show E.length + 4 * offs.length + 4 - 4 =
        (E ++ (offs.map putUint32LE).flatten).length from by
      simp [List.length_append, hfl]]
    exact List.drop_left _ _
  simp only [newParsedBlock]
  rw [hdrop, leVal_putUint32LE, Nat.mod_eq_of_lt hn, hdlen]
  have hro : E.length + 4 * offs.length + 4 - 4 - 4 * offs.length = E.length := by omega
  rw [hro]
  have htk : (E ++ (offs.map putUint32LE).flatten ++ putUint32LE offs.length).take E.length
      = E := by
    rw [List.append_assoc]
    exact List.take_left _ _
  rw [htk]
  congr 1
  have := restartsLoop_spec offs (E.length + 4 * offs.length + 4)
    (E ++ (offs.map putUint32LE).flatten ++ putUint32LE offs.length) E
    (putUint32LE offs.length) rfl rfl ho (by omega)
  exact this

theorem strLt_irrefl : ∀ (a : ByteStr), strLt a a = false := by
  intro a
  induction a with
  | nil => rfl
  | cons x as ih => simp [strLt, ih]

theorem firstRow_none_of : ∀ (rs : List (ByteStr × Int × GoBytes)) (key : ByteStr),
    (∀ b ∈ rs, b.1 ≠ key) → firstRow rs key = none := by
  intro rs key h
  induction rs with
  | nil => rfl
  | cons a rest ih =>
    simp only [firstRow]
    rw [if_neg (h a (by simp))]
    exact ih (fun b hb => h b (by simp [hb]))

theorem rowBefore_key {a b : ByteStr × Int × GoBytes} (h : rowBefore a b) :
    strLt a.1 b.1 = true ∨ a.1 = b.1 := by
  unfold rowBefore skipBefore at h
  simp only [Bool.or_eq_true, Bool.and_eq_true, decide_eq_true_eq] at h
  tauto

theorem prefixDecode_seg {r : FileR} {prevE k tail : ByteStr} {lk : Option ByteStr} {j : Nat}
    (h : r.data.drop r.pos = (if j = 0 then segR k else segN prevE k) ++ tail)
    (hk : k.length < 2 ^ 64)
    (hlk : j ≠ 0 → lk = some prevE) :
    prefixDecodeFrom r lk =
      (.ok k, { r with pos := r.pos + ((if j = 0 then segR k else segN prevE k)).length }) := by
  by_cases hj : j = 0
  · rw [if_pos hj] at h ⊢
    exact prefixDecode_segR h hk
  · rw [if_neg hj] at h ⊢
    rw [hlk hj]
    exact prefixDecode_segN h hk

theorem restBytes_dcons (prevE : ByteStr) (j : Nat) (a : ByteStr × Int × GoBytes)
    (rest : List (ByteStr × Int × GoBytes)) :
    restBytes prevE j (dEntries (a :: rest)) =
      (if j = 0 then segR (encodeEKey a.1 a.2.1) else segN prevE (encodeEKey a.1 a.2.1)) ++
        dataValBytes a.2.2 ++
        restBytes (encodeEKey a.1 a.2.1) ((j + 1) % 16) (dEntries rest) := rfl

theorem seg_length_pos (j : Nat) (prevE k : ByteStr) :
    0 < ((if j = 0 then segR k else segN prevE k)).length := by
  by_cases hj : j = 0
  · rw [if_pos hj]
    unfold segR
    simp only [List.length_append]
    have := putUvarint_length_pos 0
    omega
  · rw [if_neg hj]
    unfold segN
    simp only [List.length_append]
    have := putUvarint_length_pos (commonPrefixLen prevE k)
    omega

theorem readFull_at {d : ByteStr} {p : Nat} {a b : ByteStr} (h : d.drop p = a ++ b) :
    readFull ⟨d, p⟩ a.length = .ok (a, ⟨d, p + a.length⟩) :=
  readFull_drop (f := ⟨d, p⟩) h

theorem readUvarint_at {x : Nat} (hx : x < 2 ^ 64) {d : ByteStr} {p : Nat} {rest : ByteStr}
    (h : d.drop p = putUvarint x ++ rest) :
    readUvarint ⟨d, p⟩ = .ok (x, ⟨d, p + (putUvarint x).length⟩) :=
  readUvarint_of_put hx (f := ⟨d, p⟩) h

theorem prefixDecode_seg_at {d : ByteStr} {p : Nat} {prevE k tail : ByteStr}
    {lk : Option ByteStr} {j : Nat}
    (h : d.drop p = (if j = 0 then segR k else segN prevE k) ++ tail)
    (hk : k.length < 2 ^ 64)
    (hlk : j ≠ 0 → lk = some prevE) :
    prefixDecodeFrom ⟨d, p⟩ lk =
      (.ok k, ⟨d, p + ((if j = 0 then segR k else segN prevE k)).length⟩) :=
  prefixDecode_seg (r := ⟨d, p⟩) h hk hlk

theorem prefixDecode_segR_at {d : ByteStr} {p : Nat} {k tail : ByteStr} {lk : Option ByteStr}
    (h : d.drop p = segR k ++ tail) (hk : k.length < 2 ^ 64) :
    prefixDecodeFrom ⟨d, p⟩ lk = (.ok k, ⟨d, p + (segR k).length⟩) :=
  prefixDecode_segR (r := ⟨d, p⟩) h hk

theorem dbFindScan_spec : ∀ (rs : List (ByteStr × Int × GoBytes)) (fuel : Nat)
    (d : ByteStr) (p : Nat) (lk : Option ByteStr) (j : Nat) (prevE : ByteStr) (key : ByteStr),
    d.drop p = restBytes prevE j (dEntries rs) →
    rs.length < fuel →
    j < 16 →
    (j ≠ 0 → lk = some prevE) →
    rs.Pairwise rowBefore →
    (∀ a ∈ rs, -(2 ^ 63) ≤ a.2.1 ∧ a.2.1 < 2 ^ 63 ∧
      (encodeEKey a.1 a.2.1).length < 2 ^ 64 ∧ goLen a.2.2 + 1 < 2 ^ 64) →
    dbFindScan key fuel ⟨d, p⟩ lk =
      (match firstRow rs key with
       | some q => .ok (q.2, q.1)
       | none => .error .notFound) := by
  intro rs
  induction rs with
  | nil =>
    intro fuel d p lk j prevE key hdrop hfuel hj hlk hpw hb
    cases fuel with
    | zero => omega
    | succ n =>
      have hlen0 : FileR.len ⟨d, p⟩ = 0 := by
        have hc := congrArg List.length hdrop
        simp only [List.length_drop] at hc
        simp [restBytes, dEntries] at hc
        show d.length - p = 0
        omega
      simp only [dbFindScan]
      rw [if_pos hlen0]
      rfl
  | cons a rest ih =>
    intro fuel d p lk j prevE key hdrop hfuel hj hlk hpw hb
    cases fuel with
    | zero => simp at hfuel
    | succ n =>
      obtain ⟨hts1, hts2, hekb, hvb⟩ := hb a (by simp)
      rw [restBytes_dcons] at hdrop
      have hdrop2 : d.drop p =
          (if j = 0 then segR (encodeEKey a.1 a.2.1) else segN prevE (encodeEKey a.1 a.2.1)) ++
            (dataValBytes a.2.2 ++
              restBytes (encodeEKey a.1 a.2.1) ((j + 1) % 16) (dEntries rest)) := by
        rw [hdrop]
        simp [List.append_assoc]
      have hlen0 : ¬(FileR.len ⟨d, p⟩ = 0) := by
        have hc := congrArg List.length hdrop2
        simp only [List.length_drop, List.length_append] at hc
        have hsp := seg_length_pos j prevE (encodeEKey a.1 a.2.1)
        show ¬(d.length - p = 0)
        omega
      have hdec := prefixDecode_seg_at hdrop2 hekb hlk
      simp only [dbFindScan]
      rw [if_neg hlen0]
      simp only [hdec]
      have hpek : parseEKey (encodeEKey a.1 a.2.1) = .ok (a.1, a.2.1) :=
        parseEKey_enc a.1 a.2.1 hts1 hts2
      simp only [hpek]
      obtain ⟨CELL, hvb1, hvblen, hvbcase⟩ :
          ∃ CELL : ByteStr, dataValBytes a.2.2 = putUvarint (goLen a.2.2 + 1) ++ CELL ∧
            CELL.length = goLen a.2.2 + 1 ∧
            ((a.2.2 = none ∧ CELL = [typeNilByte]) ∨
              (∃ q, a.2.2 = some q ∧ CELL = typeBytesByte :: q)) := by
        cases hv : a.2.2 with
        | none => exact ⟨[typeNilByte], rfl, rfl, Or.inl ⟨rfl, rfl⟩⟩
        | some q => exact ⟨typeBytesByte :: q, rfl, by simp [goLen], Or.inr ⟨q, rfl, rfl⟩⟩
      have hr1 : d.drop (p + ((if j = 0 then segR (encodeEKey a.1 a.2.1)
            else segN prevE (encodeEKey a.1 a.2.1))).length) =
          putUvarint (goLen a.2.2 + 1) ++
            (CELL ++ restBytes (encodeEKey a.1 a.2.1) ((j + 1) % 16) (dEntries rest)) := by
        have h0 := drop_append_of_drop hdrop2
        rw [hvb1] at h0
        rw [h0]
        simp [List.append_assoc]
      have hvread := readUvarint_at hvb hr1
      simp only [hvread]
      have hr2 := drop_append_of_drop hr1
      by_cases hak : a.1 = key
      · rw [if_pos hak]
        have hread := readFull_at hr2
        rw [hvblen] at hread
        simp only [hread]
        have hfr : firstRow (a :: rest) key = some a.2 := by
          simp [firstRow, hak]
        rw [hfr]
        rcases hvbcase with ⟨hvn, hC⟩ | ⟨q, hvs, hC⟩
        · subst hC
          simp [hvn]
        · subst hC
          have hne : ¬(typeBytesByte = typeNilByte) := by decide
          simp [hvs, hne]
      · rw [if_neg hak]
        by_cases hlt : strLt key a.1 = true
        · rw [if_pos hlt]
          rw [firstRow_none_of (a :: rest) key ?_]
          case _ =>
            intro b hbm
            rcases List.mem_cons.mp hbm with hba | hbr
            · rw [hba]
              intro hbk
              exact hak hbk
            · rcases List.pairwise_cons.mp hpw with ⟨hpa, _⟩
              rcases rowBefore_key (hpa b hbr) with hab | hab
              · intro hbk
                have h2 := strLt_trans hlt hab
                rw [hbk] at h2
                rw [strLt_irrefl key] at h2
                exact Bool.noConfusion h2
              · intro hbk
                rw [← hab] at hbk
                exact hak hbk
        · rw [if_neg hlt]
          rw [show firstRow (a :: rest) key = firstRow rest key from by simp [firstRow, hak]]
          have h4 := drop_append_of_drop hr2
          rw [hvblen] at h4
          exact ih n d _ (some (encodeEKey a.1 a.2.1)) ((j + 1) % 16) (encodeEKey a.1 a.2.1)
            key h4 (by simp at hfuel ⊢; omega) (Nat.mod_lt _ (by norm_num)) (fun _ => rfl)
            (List.Pairwise.of_cons hpw) (fun b hbr => hb b (by simp [hbr]))

theorem newBlockHandle_at {bh : BlockHandle} {d : ByteStr} {p : Nat} {rest : ByteStr}
    (h1 : bh.offset < 2 ^ 64) (h2 : bh.size < 2 ^ 64)
    (h : d.drop p = bh.encodeTo ++ rest) :
    newBlockHandle ⟨d, p⟩ = .ok (bh, ⟨d, p + bh.encodeTo.length⟩) := by
  unfold BlockHandle.encodeTo at h
  rw [List.append_assoc] at h
  have ho := readUvarint_at h1 h
  have hs := readUvarint_at h2 (drop_append_of_drop h)
  unfold newBlockHandle
  rw [ho, exbind_ok]
  simp only []
  rw [hs, exbind_ok]
  simp only [BlockHandle.encodeTo, List.length_append]
  rw [Nat.add_assoc]

theorem ibEntries_cons (e : ByteStr × BlockHandle) (rest : List (ByteStr × BlockHandle)) :
    ibEntries (e :: rest) = (e.1, bhVal e.2) :: ibEntries rest := rfl

theorem ibFindScan_spec : ∀ (ies : List (ByteStr × BlockHandle)) (fuel : Nat)
    (d : ByteStr) (p : Nat) (lk : Option ByteStr) (j : Nat) (prevE : ByteStr) (key : ByteStr),
    d.drop p = restBytes prevE j (ibEntries ies) →
    ies.length < fuel →
    j < 16 →
    (j ≠ 0 → lk = some prevE) →
    (∀ e ∈ ies, e.1.length < 2 ^ 64 ∧ e.2.offset < 2 ^ 64 ∧ e.2.size < 2 ^ 64) →
    ibFindScan key fuel ⟨d, p⟩ lk =
      (match firstLeH ies key with
       | some bh => .ok bh
       | none => .error .notFound) := by
  intro ies
  induction ies with
  | nil =>
    intro fuel d p lk j prevE key hdrop hfuel hj hlk hb
    cases fuel with
    | zero => omega
    | succ n =>
      have hlen0 : FileR.len ⟨d, p⟩ = 0 := by
        have hc := congrArg List.length hdrop
        simp only [List.length_drop] at hc
        simp [restBytes, ibEntries] at hc
        show d.length - p = 0
        omega
      simp only [ibFindScan]
      rw [if_pos hlen0]
      rfl
  | cons e rest ih =>
    intro fuel d p lk j prevE key hdrop hfuel hj hlk hb
    cases fuel with
    | zero => simp at hfuel
    | succ n =>
      obtain ⟨hkb, hob, hsb⟩ := hb e (by simp)
      rw [ibEntries_cons, restBytes_cons] at hdrop
      have hdrop2 : d.drop p =
          (if j = 0 then segR e.1 else segN prevE e.1) ++
            (bhVal e.2 ++ restBytes e.1 ((j + 1) % 16) (ibEntries rest)) := by
        rw [hdrop]
        simp [List.append_assoc]
      have hlen0 : ¬(FileR.len ⟨d, p⟩ = 0) := by
        have hc := congrArg List.length hdrop2
        simp only [List.length_drop, List.length_append] at hc
        have hsp := seg_length_pos j prevE e.1
        show ¬(d.length - p = 0)
        omega
      have hdec := prefixDecode_seg_at hdrop2 hkb hlk
      simp only [ibFindScan]
      rw [if_neg hlen0]
      simp only [hdec]
      have h70 : (2 : Nat) ^ 64 ≤ 2 ^ 70 := Nat.pow_le_pow_right (by norm_num) (by norm_num)
      have hvarb : e.2.encodeTo.length < 2 ^ 64 := by
        have hlo : (putUvarint e.2.offset).length ≤ 10 :=
          putUvarint_len_le (by norm_num) (by norm_num) (by omega)
        have hls : (putUvarint e.2.size).length ≤ 10 :=
          putUvarint_len_le (by norm_num) (by norm_num) (by omega)
        unfold BlockHandle.encodeTo
        simp only [List.length_append]
        have : (2 : Nat) ^ 64 = 18446744073709551616 := by norm_num
        omega
      have hr1 : d.drop (p + ((if j = 0 then segR e.1 else segN prevE e.1)).length) =
          putUvarint e.2.encodeTo.length ++
            (e.2.encodeTo ++ restBytes e.1 ((j + 1) % 16) (ibEntries rest)) := by
        have h0 := drop_append_of_drop hdrop2
        rw [show bhVal e.2 = putUvarint e.2.encodeTo.length ++ e.2.encodeTo from rfl] at h0
        rw [h0]
        simp [List.append_assoc]
      have hvread := readUvarint_at hvarb hr1
      simp only [hvread]
      have hr2 := drop_append_of_drop hr1
      by_cases hle : strLe key e.1 = true
      · rw [if_pos hle]
        have hbh := newBlockHandle_at hob hsb hr2
        simp only [hbh]
        rw [show firstLeH (e :: rest) key = some e.2 from by simp [firstLeH, hle]]
      · rw [if_neg hle]
        rw [show firstLeH (e :: rest) key = firstLeH rest key from by
          simp only [firstLeH]
          rw [if_neg (by simp [hle])]]
        have h4 := drop_append_of_drop hr2
        exact ih n d _ (some e.1) ((j + 1) % 16) e.1 key h4
          (by simp at hfuel ⊢; omega) (Nat.mod_lt _ (by norm_num)) (fun _ => rfl)
          (fun b hbr => hb b (by simp [hbr]))

theorem dbFindBin_spec : ∀ (fuel i jj : Nat) (pb : ParsedBlock) (key : ByteStr)
    (K : Nat → ByteStr),
    (∀ t, 0 < t → t < pb.restarts.length →
      ∃ ekey r1 ts, prefixDecodeFrom (seekStart pb.r (pb.restarts.getD t 0)) none =
          (.ok ekey, r1) ∧ parseEKey ekey = .ok (K t, ts)) →
    i ≤ jj → jj < pb.restarts.length →
    jj - i < fuel →
    (i = 0 ∨ strLt (K i) key = true) →
    ∃ i2, dbFindBin pb key fuel i jj = .ok i2 ∧ i2 ≤ jj ∧
      (i2 = 0 ∨ strLt (K i2) key = true) := by
  intro fuel
  induction fuel with
  | zero => intro i jj pb key K hdec hij hjl hf hinv; omega
  | succ n ih =>
    intro i jj pb key K hdec hij hjl hf hinv
    by_cases hlt : i < jj
    · have hh1 : i < (i + jj + 1) / 2 := by omega
      have hh2 : (i + jj + 1) / 2 ≤ jj := by omega
      obtain ⟨ekey, r1, ts, hd1, hd2⟩ := hdec ((i + jj + 1) / 2) (by omega) (by omega)
      simp only [dbFindBin]
      rw [if_pos hlt]
      simp only [hd1, hd2]
      by_cases hk : strLt (K ((i + jj + 1) / 2)) key = true
      · rw [if_pos hk]
        obtain ⟨i2, hres, hle, hinv2⟩ := ih ((i + jj + 1) / 2) jj pb key K hdec
          (by omega) hjl (by omega) (Or.inr hk)
        exact ⟨i2, hres, hle, hinv2⟩
      · rw [if_neg hk]
        obtain ⟨i2, hres, hle, hinv2⟩ := ih i ((i + jj + 1) / 2 - 1) pb key K hdec
          (by omega) (by omega) (by omega) hinv
        exact ⟨i2, hres, by omega, hinv2⟩
    · simp only [dbFindBin]
      rw [if_neg hlt]
      exact ⟨i, rfl, hij, hinv⟩

theorem ibFindBin_spec : ∀ (fuel i jj : Nat) (pb : ParsedBlock) (key : ByteStr)
    (K : Nat → ByteStr),
    (∀ t, 0 < t → t < pb.restarts.length →
      ∃ r1, prefixDecodeFrom (seekStart pb.r (pb.restarts.getD t 0)) none =
        (.ok (K t), r1)) →
    i ≤ jj → jj < pb.restarts.length →
    jj - i < fuel →
    (i = 0 ∨ strLt (K i) key = true) →
    ∃ i2, ibFindBin pb key fuel i jj = .ok i2 ∧ i2 ≤ jj ∧
      (i2 = 0 ∨ strLt (K i2) key = true) := by
  intro fuel
  induction fuel with
  | zero => intro i jj pb key K hdec hij hjl hf hinv; omega
  | succ n ih =>
    intro i jj pb key K hdec hij hjl hf hinv
    by_cases hlt : i < jj
    · have hh1 : i < (i + jj + 1) / 2 := by omega
      have hh2 : (i + jj + 1) / 2 ≤ jj := by omega
      obtain ⟨r1, hd1⟩ := hdec ((i + jj + 1) / 2) (by omega) (by omega)
      simp only [ibFindBin]
      rw [if_pos hlt]
      simp only [hd1]
      by_cases hk : strLt (K ((i + jj + 1) / 2)) key = true
      · rw [if_pos hk]
        obtain ⟨i2, hres, hle, hinv2⟩ := ih ((i + jj + 1) / 2) jj pb key K hdec
          (by omega) hjl (by omega) (Or.inr hk)
        exact ⟨i2, hres, hle, hinv2⟩
      · rw [if_neg hk]
        obtain ⟨i2, hres, hle, hinv2⟩ := ih i ((i + jj + 1) / 2 - 1) pb key K hdec
          (by omega) (by omega) (by omega) hinv
        exact ⟨i2, hres, by omega, hinv2⟩
    · simp only [ibFindBin]
      rw [if_neg hlt]
      exact ⟨i, rfl, hij, hinv⟩

theorem strLt_not_sym {a b : ByteStr} (h : strLt a b = true) : strLt b a = false := by
  by_cases hba : strLt b a = true
  · have h2 := strLt_trans h hba
    rw [strLt_irrefl] at h2
    exact Bool.noConfusion h2
  · exact Bool.not_eq_true _ ▸ (by simpa using hba)

theorem strLe_lt_trans {a b c : ByteStr} (h1 : strLe a b = true) (h2 : strLt b c = true) :
    strLt a c = true := by
  have hba : strLt b a = false := by
    unfold strLe at h1
    simpa using h1
  by_cases hac : strLt a c = true
  · exact hac
  · exfalso
    have hacf : strLt a c = false := by simpa using hac
    by_cases hca : strLt c a = true
    · have h3 := strLt_trans h2 hca
      rw [h3] at hba
      exact Bool.noConfusion hba
    · have hcaf : strLt c a = false := by simpa using hca
      have hEq : a = c := strLt_eq_of_not hacf hcaf
      rw [← hEq] at h2
      rw [h2] at hba
      exact Bool.noConfusion hba

theorem restBytes_length_ge : ∀ (es : List (ByteStr × ByteStr)) (prev : ByteStr) (j : Nat),
    es.length ≤ (restBytes prev j es).length := by
  intro es
  induction es with
  | nil => simp [restBytes]
  | cons e rest ih =>
    intro prev j
    rw [restBytes_cons]
    simp only [List.length_append, List.length_cons]
    have h1 := seg_length_pos j prev e.1
    have h2 := ih e.1 ((j + 1) % 16)
    omega

theorem restBytes_split16 (es : List (ByteStr × ByteStr)) (s : Nat) (hs : s % 16 = 0) :
    restBytes [] 0 es = restBytes [] 0 (es.take s) ++ restBytes [] 0 (es.drop s) := by
  by_cases hlen : es.length ≤ s
  · rw [List.drop_eq_nil_of_le hlen, List.take_of_length_le hlen]
    simp [restBytes]
  · conv_lhs => rw [← List.take_append_drop s es]
    rw [restBytes_append _ _ [] 0 (by norm_num)]
    congr 1
    rw [List.length_take, Nat.min_eq_left (by omega)]
    rw [show (0 + s) % 16 = 0 from by omega]
    exact restBytes_prev0 _ [] _

theorem chunkOffs_mem_bound : ∀ (n : Nat) (es : List (ByteStr × ByteStr)),
    es.length = n → ∀ (off o : Nat),
    o ∈ chunkOffs off es → off ≤ o ∧ o ≤ off + (restBytes [] 0 es).length := by
  intro n
  induction n using Nat.strong_induction_on with
  | _ n ihn =>
    intro es hlen off o hmem
    cases es with
    | nil => simp [chunkOffs] at hmem
    | cons e rest =>
      rw [chunkOffs] at hmem
      rcases List.mem_cons.mp hmem with ho | ho
      · subst ho
        omega
      · have hn1 : (1 : Nat) ≤ n := by
          simp at hlen
          omega
        have hih := ihn ((e :: rest).drop 16).length (by simp at hlen ⊢; omega)
          ((e :: rest).drop 16) rfl _ o ho
        have hsplit := restBytes_split16 (e :: rest) 16 (by norm_num)
        have hlensum := congrArg List.length hsplit
        simp only [List.length_append] at hlensum
        omega

theorem chunkOffs_length_le : ∀ (n : Nat) (es : List (ByteStr × ByteStr)),
    es.length = n → ∀ (off : Nat),
    (chunkOffs off es).length ≤ es.length / 16 + 1 := by
  intro n
  induction n using Nat.strong_induction_on with
  | _ n ihn =>
    intro es hlen off
    cases es with
    | nil => simp [chunkOffs]
    | cons e rest =>
      rw [chunkOffs]
      simp only [List.length_cons]
      by_cases hshort : rest.length ≤ 14
      · have hdropnil : (e :: rest).drop 16 = [] := List.drop_eq_nil_of_le (by simp; omega)
        rw [hdropnil]
        rw [show chunkOffs (off + (restBytes [] 0 ((e :: rest).take 16)).length) [] = []
          from by simp [chunkOffs]]
        simp
      · have hih := ihn ((e :: rest).drop 16).length (by simp at hlen ⊢; omega)
          ((e :: rest).drop 16) rfl (off + (restBytes [] 0 ((e :: rest).take 16)).length)
        have hdl : ((e :: rest).drop 16).length = (e :: rest).length - 16 := by simp
        simp only [List.length_cons] at hdl hih ⊢
        omega

theorem drop_cons_of_lt {α : Type} (dflt : α) : ∀ (l : List α) (n : Nat), n < l.length →
    l.drop n = l.getD n dflt :: l.drop (n + 1) := by
  intro l
  induction l with
  | nil => intro n h; simp at h
  | cons x xs ih =>
    intro n h
    cases n with
    | zero => rfl
    | succ m =>
      rw [List.drop_succ_cons]
      rw [show (x :: xs).getD (m + 1) dflt = xs.getD m dflt from rfl]
      rw [show (x :: xs).drop (m + 1 + 1) = xs.drop (m + 1) from rfl]
      exact ih m (by simp at h; omega)

theorem firstRow_drop_eq (key : ByteStr) :
    ∀ (s : Nat) (rs : List (ByteStr × Int × GoBytes)),
    (∀ m, m < s → m < rs.length → (rs.getD m ([], 0, none)).1 ≠ key) →
    firstRow (rs.drop s) key = firstRow rs key := by
  intro s
  induction s with
  | zero => intro rs _; rfl
  | succ m ih =>
    intro rs h
    cases rs with
    | nil => rfl
    | cons a rest =>
      rw [List.drop_succ_cons]
      rw [show firstRow (a :: rest) key = if a.1 = key then some a.2 else firstRow rest key
        from rfl]
      have h0 : a.1 ≠ key := h 0 (by omega) (by simp)
      rw [if_neg h0]
      exact ih rest (fun m2 hm2 hml => h (m2 + 1) (by omega) (by simp; omega))

theorem firstLeH_drop_eq (key : ByteStr) :
    ∀ (s : Nat) (ies : List (ByteStr × BlockHandle)),
    (∀ m, m < s → m < ies.length → strLe key (ies.getD m ([], ⟨0, 0⟩)).1 = false) →
    firstLeH (ies.drop s) key = firstLeH ies key := by
  intro s
  induction s with
  | zero => intro ies _; rfl
  | succ m ih =>
    intro ies h
    cases ies with
    | nil => rfl
    | cons a rest =>
      rw [List.drop_succ_cons]
      rw [show firstLeH (a :: rest) key = if strLe key a.1 then some a.2 else firstLeH rest key
        from rfl]
      have h0 : strLe key a.1 = false := h 0 (by omega) (by simp)
      rw [if_neg (by simp [h0])]
      exact ih rest (fun m2 hm2 hml => h (m2 + 1) (by omega) (by simp; omega))

theorem offs_eq_chunkOffs (es : List (ByteStr × ByteStr)) (hne : es ≠ []) :
    0 :: restRestarts true [] 0 0 es = chunkOffs 0 es := by
  rw [restRestarts_true_eq]
  cases es with
  | nil => exact absurd rfl hne
  | cons e rest => rw [chunkOffs]

theorem dataBlockFind_spec (rs : List (ByteStr × Int × GoBytes)) (key : ByteStr)
    (hpw : rs.Pairwise rowBefore)
    (hb : ∀ a ∈ rs, -(2 ^ 63) ≤ a.2.1 ∧ a.2.1 < 2 ^ 63 ∧
      (encodeEKey a.1 a.2.1).length < 2 ^ 64 ∧ goLen a.2.2 + 1 < 2 ^ 64)
    (hsize : (restBytes [] 0 (dEntries rs)).length < 2 ^ 32) :
    dataBlockFind (dBlockBytes rs) key =
      (match firstRow rs key with
       | some q => .ok (q.2, q.1)
       | none => .error .notFound) := by
  by_cases hrs : rs = []
  · subst hrs
    rfl
  · have hlenes : (dEntries rs).length = rs.length := by simp [dEntries]
    have hne : dEntries rs ≠ [] := by
      cases rs with
      | nil => exact absurd rfl hrs
      | cons a b => simp [dEntries]
    have hoffs : (0 :: restRestarts true [] 0 0 (dEntries rs)) = chunkOffs 0 (dEntries rs) :=
      offs_eq_chunkOffs _ hne
    have ho : ∀ o ∈ (0 :: restRestarts true [] 0 0 (dEntries rs)), o < 2 ^ 32 := by
      intro o hmem
      rcases List.mem_cons.mp hmem with h0 | hmem2
      · omega
      · rw [restRestarts_true_eq] at hmem2
        have hbd := chunkOffs_mem_bound ((dEntries rs).drop 16).length _ rfl _ o hmem2
        have hsp := restBytes_split16 (dEntries rs) 16 (by norm_num)
        have hlsp := congrArg List.length hsp
        simp only [List.length_append] at hlsp
        omega
    have hn : (0 :: restRestarts true [] 0 0 (dEntries rs)).length < 2 ^ 32 := by
      rw [hoffs]
      have hcl := chunkOffs_length_le (dEntries rs).length _ rfl 0
      have hge := restBytes_length_ge (dEntries rs) [] 0
      omega
    have hpb : newParsedBlock (dBlockBytes rs) =
        ⟨⟨restBytes [] 0 (dEntries rs), 0⟩, 0 :: restRestarts true [] 0 0 (dEntries rs)⟩ :=
      newParsedBlock_spec (restBytes [] 0 (dEntries rs))
        (0 :: restRestarts true [] 0 0 (dEntries rs)) ho hn
    have hdropfact : ∀ t : Nat, 16 * t < rs.length →
        (restBytes [] 0 (dEntries rs)).drop
          ((restBytes [] 0 ((dEntries rs).take (16 * t))).length) =
          restBytes [] 0 (dEntries (rs.drop (16 * t))) := by
      intro t hcov
      have hsplit := restBytes_split16 (dEntries rs) (16 * t) (by omega)
      rw [hsplit, List.drop_left]
      rw [show (dEntries rs).drop (16 * t) = dEntries (rs.drop (16 * t)) from
        (List.map_drop dEntry rs (16 * t)).symm]
    have hKdec : ∀ t, 0 < t → t < (chunkOffs 0 (dEntries rs)).length →
        ∃ ekey r1 ts,
          prefixDecodeFrom (⟨restBytes [] 0 (dEntries rs),
            (chunkOffs 0 (dEntries rs)).getD t 0⟩ : FileR) none = (.ok ekey, r1) ∧
          parseEKey ekey = .ok ((rs.getD (16 * t) ([], 0, none)).1, ts) := by
      intro t ht0 htl
      obtain ⟨hget, hcov⟩ := chunkOffs_spec t (dEntries rs) 0 htl
      have hcov2 : 16 * t < rs.length := by omega
      rw [hget, Nat.zero_add]
      have hd1 := hdropfact t hcov2
      have hdcons := drop_cons_of_lt (([], 0, none) : ByteStr × Int × GoBytes) rs (16 * t) hcov2
      rw [hdcons] at hd1
      rw [restBytes_dcons] at hd1
      obtain ⟨hts1, hts2, hekb, _⟩ := hb (rs.getD (16 * t) ([], 0, none))
        (by rw [show (16 * t) = 16 * t from rfl] at hdcons
            have : rs.getD (16 * t) ([], 0, none) ∈ rs.drop (16 * t) := by
              rw [hdcons]
              simp
            exact List.mem_of_mem_drop this)
      have hd2 : (restBytes [] 0 (dEntries rs)).drop
          ((restBytes [] 0 ((dEntries rs).take (16 * t))).length) =
          (if (0 : Nat) = 0 then segR (encodeEKey (rs.getD (16 * t) ([], 0, none)).1
              (rs.getD (16 * t) ([], 0, none)).2.1)
            else segN [] (encodeEKey (rs.getD (16 * t) ([], 0, none)).1
              (rs.getD (16 * t) ([], 0, none)).2.1)) ++
            (dataValBytes (rs.getD (16 * t) ([], 0, none)).2.2 ++
              restBytes (encodeEKey (rs.getD (16 * t) ([], 0, none)).1
                (rs.getD (16 * t) ([], 0, none)).2.1) ((0 + 1) % 16)
                (dEntries (rs.drop (16 * t + 1)))) := by
        rw [hd1]
        simp [List.append_assoc]
      exact ⟨encodeEKey (rs.getD (16 * t) ([], 0, none)).1 (rs.getD (16 * t) ([], 0, none)).2.1,
        _, (rs.getD (16 * t) ([], 0, none)).2.1, prefixDecode_segR_at hd2 hekb,
        parseEKey_enc _ _ hts1 hts2⟩
    rw [← hoffs] at hKdec
    have hlenpos : 1 ≤ (0 :: restRestarts true [] 0 0 (dEntries rs)).length := by simp
    obtain ⟨i2, hbin, hi2le, hinv2⟩ := dbFindBin_spec
      (0 :: restRestarts true [] 0 0 (dEntries rs)).length 0
      ((0 :: restRestarts true [] 0 0 (dEntries rs)).length - 1)
      ⟨⟨restBytes [] 0 (dEntries rs), 0⟩, 0 :: restRestarts true [] 0 0 (dEntries rs)⟩ key
      (fun t => (rs.getD (16 * t) ([], 0, none)).1) hKdec (by omega)
      (by show (0 :: restRestarts true [] 0 0 (dEntries rs)).length - 1 <
            (0 :: restRestarts true [] 0 0 (dEntries rs)).length
          simp)
      (by omega) (Or.inl rfl)
    have hi2lt : i2 < (0 :: restRestarts true [] 0 0 (dEntries rs)).length := by omega
    obtain ⟨hgetI, hcovI⟩ := chunkOffs_spec i2 (dEntries rs) 0 (by rw [← hoffs]; exact hi2lt)
    have hcovI2 : 16 * i2 < rs.length := by omega
    have hbefore : ∀ m, m < 16 * i2 → m < rs.length → (rs.getD m ([], 0, none)).1 ≠ key := by
      intro m hm hml
      rcases hinv2 with h0 | hK
      · omega
      · have hmono := List.pairwise_iff_get.mp hpw ⟨m, hml⟩ ⟨16 * i2, hcovI2⟩ (by
          simp only [Fin.mk_lt_mk]
          omega)
        have hkeyrel := rowBefore_key hmono
        rw [List.getD_eq_get rs ([], 0, none) hml]
        rw [List.getD_eq_get rs ([], 0, none) hcovI2] at hK
        intro heq
        rcases hkeyrel with hlt2 | heq2
        · have h3 := strLt_trans hlt2 hK
          rw [heq] at h3
          rw [strLt_irrefl] at h3
          exact Bool.noConfusion h3
        · rw [heq2] at heq
          rw [heq] at hK
          rw [strLt_irrefl] at hK
          exact Bool.noConfusion hK
    rw [← firstRow_drop_eq key (16 * i2) rs hbefore]
    simp only [dataBlockFind, hpb]
    rw [hbin, exbind_ok]
    have hdropI : (restBytes [] 0 (dEntries rs)).drop
        ((0 :: restRestarts true [] 0 0 (dEntries rs)).getD i2 0) =
        restBytes [] 0 (dEntries (rs.drop (16 * i2))) := by
      rw [hoffs, hgetI, Nat.zero_add]
      exact hdropfact i2 hcovI2
    exact dbFindScan_spec (rs.drop (16 * i2)) _ (restBytes [] 0 (dEntries rs))
      ((0 :: restRestarts true [] 0 0 (dEntries rs)).getD i2 0) none 0 [] key hdropI
      (by show (rs.drop (16 * i2)).length < (restBytes [] 0 (dEntries rs)).length + 1
          have h1 : (rs.drop (16 * i2)).length ≤ rs.length := by simp
          have h2 := restBytes_length_ge (dEntries rs) [] 0
          omega)
      (by norm_num) (by simp) (hpw.sublist (List.drop_sublist _ _))
      (fun a ha => hb a (List.mem_of_mem_drop ha))

theorem indexBlockFind_spec (ies : List (ByteStr × BlockHandle)) (key : ByteStr)
    (hord : ies.Pairwise (fun a b => strLe a.1 b.1 = true))
    (hb : ∀ e ∈ ies, e.1.length < 2 ^ 64 ∧ e.2.offset < 2 ^ 64 ∧ e.2.size < 2 ^ 64)
    (hsize : (restBytes [] 0 (ibEntries ies)).length < 2 ^ 32) :
    indexBlockFind (blockBytes (ibEntries ies)) key =
      (match firstLeH ies key with
       | some bh => .ok bh
       | none => .error .notFound) := by
  by_cases hies : ies = []
  · subst hies
    rfl
  · have hlenes : (ibEntries ies).length = ies.length := by simp [ibEntries]
    have hne : ibEntries ies ≠ [] := by
      cases ies with
      | nil => exact absurd rfl hies
      | cons a b => simp [ibEntries]
    have hoffs : (0 :: restRestarts true [] 0 0 (ibEntries ies)) = chunkOffs 0 (ibEntries ies) :=
      offs_eq_chunkOffs _ hne
    have ho : ∀ o ∈ (0 :: restRestarts true [] 0 0 (ibEntries ies)), o < 2 ^ 32 := by
      intro o hmem
      rcases List.mem_cons.mp hmem with h0 | hmem2
      · omega
      · rw [restRestarts_true_eq] at hmem2
        have hbd := chunkOffs_mem_bound ((ibEntries ies).drop 16).length _ rfl _ o hmem2
        have hsp := restBytes_split16 (ibEntries ies) 16 (by norm_num)
        have hlsp := congrArg List.length hsp
        simp only [List.length_append] at hlsp
        omega
    have hn : (0 :: restRestarts true [] 0 0 (ibEntries ies)).length < 2 ^ 32 := by
      rw [hoffs]
      have hcl := chunkOffs_length_le (ibEntries ies).length _ rfl 0
      have hge := restBytes_length_ge (ibEntries ies) [] 0
      omega
    have hpb : newParsedBlock (blockBytes (ibEntries ies)) =
        ⟨⟨restBytes [] 0 (ibEntries ies), 0⟩, 0 :: restRestarts true [] 0 0 (ibEntries ies)⟩ :=
      newParsedBlock_spec (restBytes [] 0 (ibEntries ies))
        (0 :: restRestarts true [] 0 0 (ibEntries ies)) ho hn
    have hdropfact : ∀ t : Nat, 16 * t < ies.length →
        (restBytes [] 0 (ibEntries ies)).drop
          ((restBytes [] 0 ((ibEntries ies).take (16 * t))).length) =
          restBytes [] 0 (ibEntries (ies.drop (16 * t))) := by
      intro t hcov
      have hsplit := restBytes_split16 (ibEntries ies) (16 * t) (by omega)
      rw [hsplit, List.drop_left]
      rw [show (ibEntries ies).drop (16 * t) = ibEntries (ies.drop (16 * t)) from
        (List.map_drop ibEntry ies (16 * t)).symm]
    have hKdec : ∀ t, 0 < t → t < (chunkOffs 0 (ibEntries ies)).length →
        ∃ r1, prefixDecodeFrom (⟨restBytes [] 0 (ibEntries ies),
            (chunkOffs 0 (ibEntries ies)).getD t 0⟩ : FileR) none =
          (.ok ((ies.getD (16 * t) ([], ⟨0, 0⟩)).1), r1) := by
      intro t ht0 htl
      obtain ⟨hget, hcov⟩ := chunkOffs_spec t (ibEntries ies) 0 htl
      have hcov2 : 16 * t < ies.length := by omega
      rw [hget, Nat.zero_add]
      have hd1 := hdropfact t hcov2
      have hdcons := drop_cons_of_lt (([], ⟨0, 0⟩) : ByteStr × BlockHandle) ies (16 * t) hcov2
      rw [hdcons] at hd1
      obtain ⟨hekb, _, _⟩ := hb (ies.getD (16 * t) ([], ⟨0, 0⟩))
        (by have : ies.getD (16 * t) ([], ⟨0, 0⟩) ∈ ies.drop (16 * t) := by
              rw [hdcons]
              simp
            exact List.mem_of_mem_drop this)
      have hd2 : (restBytes [] 0 (ibEntries ies)).drop
          ((restBytes [] 0 ((ibEntries ies).take (16 * t))).length) =
          (if (0 : Nat) = 0 then segR (ies.getD (16 * t) ([], ⟨0, 0⟩)).1
            else segN [] (ies.getD (16 * t) ([], ⟨0, 0⟩)).1) ++
            (bhVal (ies.getD (16 * t) ([], ⟨0, 0⟩)).2 ++
              restBytes (ies.getD (16 * t) ([], ⟨0, 0⟩)).1 ((0 + 1) % 16)
                (ibEntries (ies.drop (16 * t + 1)))) := by
        rw [hd1]
        rw [ibEntries_cons, restBytes_cons]
        simp [List.append_assoc]
      exact ⟨_, prefixDecode_segR_at hd2 hekb⟩
    rw [← hoffs] at hKdec
    have hlenpos : 1 ≤ (0 :: restRestarts true [] 0 0 (ibEntries ies)).length := by simp
    obtain ⟨i2, hbin, hi2le, hinv2⟩ := ibFindBin_spec
      (0 :: restRestarts true [] 0 0 (ibEntries ies)).length 0
      ((0 :: restRestarts true [] 0 0 (ibEntries ies)).length - 1)
      ⟨⟨restBytes [] 0 (ibEntries ies), 0⟩, 0 :: restRestarts true [] 0 0 (ibEntries ies)⟩ key
      (fun t => (ies.getD (16 * t) ([], ⟨0, 0⟩)).1) hKdec (by omega)
      (by show (0 :: restRestarts true [] 0 0 (ibEntries ies)).length - 1 <
            (0 :: restRestarts true [] 0 0 (ibEntries ies)).length
          simp)
      (by omega) (Or.inl rfl)
    have hi2lt : i2 < (0 :: restRestarts true [] 0 0 (ibEntries ies)).length := by omega
    obtain ⟨hgetI, hcovI⟩ := chunkOffs_spec i2 (ibEntries ies) 0 (by rw [← hoffs]; exact hi2lt)
    have hcovI2 : 16 * i2 < ies.length := by omega
    have hbefore : ∀ m, m < 16 * i2 → m < ies.length →
        strLe key (ies.getD m ([], ⟨0, 0⟩)).1 = false := by
      intro m hm hml
      rcases hinv2 with h0 | hK
      · omega
      · have hmono := List.pairwise_iff_get.mp hord ⟨m, hml⟩ ⟨16 * i2, hcovI2⟩ (by
          simp only [Fin.mk_lt_mk]
          omega)
        rw [List.getD_eq_get ies ([], ⟨0, 0⟩) hcovI2] at hK
        have hlt := strLe_lt_trans hmono hK
        rw [List.getD_eq_get ies ([], ⟨0, 0⟩) hml]
        show (!(strLt (ies.get ⟨m, hml⟩).1 key)) = false
        rw [hlt]
        rfl
    rw [← firstLeH_drop_eq key (16 * i2) ies hbefore]
    simp only [indexBlockFind, hpb]
    rw [hbin, exbind_ok]
    have hdropI : (restBytes [] 0 (ibEntries ies)).drop
        ((0 :: restRestarts true [] 0 0 (ibEntries ies)).getD i2 0) =
        restBytes [] 0 (ibEntries (ies.drop (16 * i2))) := by
      rw [hoffs, hgetI, Nat.zero_add]
      exact hdropfact i2 hcovI2
    exact ibFindScan_spec (ies.drop (16 * i2)) _ (restBytes [] 0 (ibEntries ies))
      ((0 :: restRestarts true [] 0 0 (ibEntries ies)).getD i2 0) none 0 [] key hdropI
      (by show (ies.drop (16 * i2)).length < (restBytes [] 0 (ibEntries ies)).length + 1
          have h1 : (ies.drop (16 * i2)).length ≤ ies.length := by simp
          have h2 := restBytes_length_ge (ibEntries ies) [] 0
          omega)
      (by norm_num) (by simp)
      (fun e he => hb e (List.mem_of_mem_drop he))

theorem crc32cStep_lt {c : Nat} (h : c < 2 ^ 32) : crc32cStep c < 2 ^ 32 := by
  unfold crc32cStep
  split_ifs
  · exact Nat.xor_lt_two_pow (by omega) (by norm_num)
  · omega

theorem crc32cIter_lt : ∀ (n : Nat) {c : Nat}, c < 2 ^ 32 → crc32cStep^[n] c < 2 ^ 32 := by
  intro n
  induction n with
  | zero => intro c h; simpa using h
  | succ m ih =>
    intro c h
    rw [Function.iterate_succ_apply]
    exact ih (crc32cStep_lt h)

theorem crc32cByte_lt {c : Nat} (h : c < 2 ^ 32) (b : Byte) : crc32cByte c b < 2 ^ 32 :=
  crc32cIter_lt 8 (Nat.xor_lt_two_pow h (by have := b.isLt; omega))

theorem crc32cFold_lt : ∀ (d : ByteStr) {c : Nat}, c < 2 ^ 32 →
    d.foldl crc32cByte c < 2 ^ 32 := by
  intro d
  induction d with
  | nil => intro c h; simpa using h
  | cons b rest ih =>
    intro c h
    exact ih (crc32cByte_lt h b)

theorem crc32c_lt (d : ByteStr) : crc32c d < 2 ^ 32 :=
  Nat.xor_lt_two_pow (crc32cFold_lt d (by norm_num)) (by norm_num)

theorem beBytes_len : ∀ (k e : Nat), (beBytes k e).length = k := by
  intro k
  induction k with
  | zero => intro e; rfl
  | succ m ih =>
    intro e
    simp only [beBytes, List.length_cons, ih]

theorem i64Len_le10 (x : Nat) : i64Len x ≤ 10 := by
  unfold i64Len
  split_ifs <;> omega

theorem encInt64_len_le (x : Int) : (encInt64 x).length ≤ 10 := by
  unfold encInt64 encInt64Nonneg
  split_ifs
  · rw [beBytes_len]
    exact i64Len_le10 _
  · rw [List.length_map, beBytes_len]
    exact i64Len_le10 _

theorem encInt64Decr_len_le (x : Int) : (encInt64Decr x).length ≤ 10 := by
  unfold encInt64Decr
  rw [List.length_map]
  exact encInt64_len_le x

theorem ocEscape_len_le : ∀ (s : ByteStr), (ocEscape s).length ≤ 2 * s.length := by
  intro s
  induction s with
  | nil => simp [ocEscape]
  | cons b rest ih =>
    unfold ocEscape
    split_ifs <;> simp only [List.length_cons] <;> omega

theorem encodeEKey_len_le (key : ByteStr) (ts : Int) :
    (encodeEKey key ts).length ≤ 2 * key.length + 12 := by
  unfold encodeEKey ocEncStr
  simp only [List.length_append, List.length_cons, List.length_nil]
  have h1 := ocEscape_len_le key
  have h2 := encInt64Decr_len_le ts
  omega

theorem putUvarint_le2 {x : Nat} (hx : x < 2 ^ 14) : (putUvarint x).length ≤ 2 :=
  putUvarint_len_le (by omega) (by omega) (by omega)

theorem seg_len_le {k : ByteStr} (prev : ByteStr) (j N : Nat) (hk : k.length ≤ N)
    (hN : N < 2 ^ 14) :
    ((if j = 0 then segR k else segN prev k)).length ≤ 4 + N := by
  split_ifs
  · unfold segR
    simp only [List.length_append]
    have h1 : (putUvarint 0).length ≤ 2 := putUvarint_le2 (by norm_num)
    have h2 : (putUvarint k.length).length ≤ 2 := putUvarint_le2 (by omega)
    omega
  · unfold segN
    simp only [List.length_append, List.length_drop]
    have hc := commonPrefixLen_le_right prev k
    have h1 : (putUvarint (commonPrefixLen prev k)).length ≤ 2 := putUvarint_le2 (by omega)
    have h2 : (putUvarint (k.length - commonPrefixLen prev k)).length ≤ 2 :=
      putUvarint_le2 (by omega)
    omega

theorem dataValBytes_len_le {v : GoBytes} (hv : goLen v ≤ 524288) :
    (dataValBytes v).length ≤ goLen v + 4 := by
  unfold dataValBytes
  have h1 : (putUvarint (goLen v + 1)).length ≤ 3 :=
    putUvarint_len_le (k := 3) (by omega) (by omega) (by omega)
  cases v with
  | none => simp only [List.length_append, List.length_cons, List.length_nil, goLen] at h1 ⊢; omega
  | some p =>
    simp only [List.length_append, List.length_cons, goLen] at h1 ⊢
    omega

theorem encodeTo_len_le {h : BlockHandle} (h1 : h.offset < 2 ^ 64) (h2 : h.size < 2 ^ 64) :
    h.encodeTo.length ≤ 20 := by
  unfold BlockHandle.encodeTo
  simp only [List.length_append]
  have ha : (putUvarint h.offset).length ≤ 10 :=
    putUvarint_len_le (by omega) (by omega) (by omega)
  have hb : (putUvarint h.size).length ≤ 10 :=
    putUvarint_len_le (by omega) (by omega) (by omega)
  omega

theorem bhVal_len_le {h : BlockHandle} (h1 : h.offset < 2 ^ 64) (h2 : h.size < 2 ^ 64) :
    (bhVal h).length ≤ 21 := by
  unfold bhVal
  simp only [List.length_append]
  have he := encodeTo_len_le h1 h2
  have h3 : (putUvarint h.encodeTo.length).length ≤ 1 :=
    putUvarint_len_le (k := 1) (by omega) (by omega) (by omega)
  omega

theorem restBytes_len_le (A B : Nat) (hA : A < 2 ^ 14) :
    ∀ (es : List (ByteStr × ByteStr)) (prev : ByteStr) (j : Nat),
    (∀ e ∈ es, e.1.length ≤ A ∧ e.2.length ≤ B) →
    (restBytes prev j es).length ≤ es.length * (4 + A + B) := by
  intro es
  induction es with
  | nil => intro prev j _; simp [restBytes]
  | cons e rest ih =>
    intro prev j hb
    rw [restBytes_cons]
    simp only [List.length_append, List.length_cons]
    obtain ⟨h1, h2⟩ := hb e (by simp)
    have hseg := seg_len_le prev j A h1 hA
    have hrec := ih e.1 ((j + 1) % 16) (fun x hx => hb x (by simp [hx]))
    have : (rest.length + 1) * (4 + A + B) = rest.length * (4 + A + B) + (4 + A + B) := by ring
    omega

theorem restarts_count_le (es : List (ByteStr × ByteStr)) :
    (0 :: restRestarts true [] 0 0 es).length ≤ es.length / 16 + 2 := by
  cases es with
  | nil => simp [restRestarts]
  | cons e rest =>
    rw [offs_eq_chunkOffs _ (by simp)]
    have := chunkOffs_length_le (e :: rest).length _ rfl 0
    omega

theorem blockBytes_len_le (A B : Nat) (hA : A < 2 ^ 14) (es : List (ByteStr × ByteStr))
    (hb : ∀ e ∈ es, e.1.length ≤ A ∧ e.2.length ≤ B) :
    (blockBytes es).length ≤ es.length * (4 + A + B) + 4 * (es.length / 16) + 12 := by
  unfold blockBytes
  simp only [List.length_append, flatten_putUint32_length, length_putUint32LE]
  have h1 := restBytes_len_le A B hA es [] 0 hb
  have h2 := restarts_count_le es
  omega

theorem footerBytes_len {ih : BlockHandle} (hlen : ih.encodeTo.length ≤ 10) :
    (footerBytes ih).length = 22 := by
  unfold footerBytes maxVarintLen64
  simp only [List.length_append, List.length_replicate, length_putUint32LE, length_putUint64LE]
  omega

theorem readFooterR_spec (pre : ByteStr) (ih : BlockHandle)
    (h1 : ih.offset < 2 ^ 64) (h2 : ih.size < 2 ^ 64) (hlen : ih.encodeTo.length ≤ 10) :
    readFooterR (pre ++ footerBytes ih) = .ok ih := by
  have hfl : (footerBytes ih).length = 22 := footerBytes_len hlen
  have hfs : footerSize = 22 := rfl
  have hfo1 : (ih.encodeTo ++ List.replicate (maxVarintLen64 - ih.encodeTo.length) (byteOf 0)).length = 10 := by
    simp only [List.length_append, List.length_replicate]
    unfold maxVarintLen64
    omega
  have hsplit : footerBytes ih =
      (ih.encodeTo ++ List.replicate (maxVarintLen64 - ih.encodeTo.length) (byteOf 0)) ++
        putUint32LE (crc32c (ih.encodeTo ++
          List.replicate (maxVarintLen64 - ih.encodeTo.length) (byteOf 0))) ++
        putUint64LE sstMagic := rfl
  have hlen2 : (pre ++ footerBytes ih).length = pre.length + 22 := by
    simp [hfl]
  have hdrop : (pre ++ footerBytes ih).drop ((pre ++ footerBytes ih).length - footerSize) =
      footerBytes ih := by
    rw [hlen2, hfs]
    rw [show pre.length + 22 - 22 = pre.length from by omega]
    exact List.drop_left pre (footerBytes ih)
  have hm : (footerBytes ih).drop (footerSize - 8) = putUint64LE sstMagic := by
    rw [hsplit, hfs]
    rw [show (22 : Nat) - 8 =
      ((ih.encodeTo ++ List.replicate (maxVarintLen64 - ih.encodeTo.length) (byteOf 0)) ++
        putUint32LE (crc32c (ih.encodeTo ++
          List.replicate (maxVarintLen64 - ih.encodeTo.length) (byteOf 0)))).length from by
      simp only [List.length_append, length_putUint32LE]
      simp only [List.length_append] at hfo1
      omega]
    exact List.drop_left _ _
  have hmagic : leVal ((footerBytes ih).drop (footerSize - 8)) = sstMagic := by
    rw [hm, leVal_putUint64LE]
    exact Nat.mod_eq_of_lt (by norm_num [sstMagic])
  have ht : (footerBytes ih).take (footerSize - 12) =
      ih.encodeTo ++ List.replicate (maxVarintLen64 - ih.encodeTo.length) (byteOf 0) := by
    rw [hsplit, hfs, List.append_assoc]
    rw [show (22 : Nat) - 12 =
      (ih.encodeTo ++ List.replicate (maxVarintLen64 - ih.encodeTo.length) (byteOf 0)).length
      from by rw [hfo1]]
    exact List.take_left _ _
  have hd : ((footerBytes ih).drop (footerSize - 12)).take 4 =
      putUint32LE (crc32c (ih.encodeTo ++
        List.replicate (maxVarintLen64 - ih.encodeTo.length) (byteOf 0))) := by
    rw [hsplit, hfs, List.append_assoc]
    rw [show (22 : Nat) - 12 =
      (ih.encodeTo ++ List.replicate (maxVarintLen64 - ih.encodeTo.length) (byteOf 0)).length
      from by rw [hfo1]]
    rw [List.drop_left]
    rw [show (4 : Nat) = (putUint32LE (crc32c (ih.encodeTo ++
      List.replicate (maxVarintLen64 - ih.encodeTo.length) (byteOf 0)))).length from
      (length_putUint32LE _).symm]
    exact List.take_left _ _
  have hcrc : crc32c ((footerBytes ih).take (footerSize - 12)) =
      leVal (((footerBytes ih).drop (footerSize - 12)).take 4) := by
    rw [ht, hd, leVal_putUint32LE]
    exact (Nat.mod_eq_of_lt (crc32c_lt _)).symm
  have hnb : newBlockHandle ⟨footerBytes ih, 0⟩ =
      .ok (ih, ⟨footerBytes ih, 0 + ih.encodeTo.length⟩) :=
    newBlockHandle_at h1 h2 (by
      rw [List.drop_zero, hsplit, List.append_assoc, List.append_assoc])
  unfold readFooterR
  rw [if_neg (by rw [hlen2, hfs]; omega)]
  simp only [hdrop]
  rw [if_neg (not_not_intro hmagic)]
  rw [if_neg (not_not_intro hcrc)]
  rw [hnb]

theorem readRawBlock_spec (pre bd tail : ByteStr) :
    readRawBlock (pre ++ (bd ++ putUint32LE (crc32c bd) ++ tail)) ⟨pre.length, bd.length⟩ =
      .ok bd := by
  have hlen : (pre ++ (bd ++ putUint32LE (crc32c bd) ++ tail)).length =
      pre.length + bd.length + 4 + tail.length := by
    simp [length_putUint32LE]
    omega
  have hdrop : (pre ++ (bd ++ putUint32LE (crc32c bd) ++ tail)).drop pre.length =
      bd ++ putUint32LE (crc32c bd) ++ tail := List.drop_left _ _
  have htake : (bd ++ putUint32LE (crc32c bd) ++ tail).take (bd.length + 4) =
      bd ++ putUint32LE (crc32c bd) := by
    rw [show bd.length + 4 = (bd ++ putUint32LE (crc32c bd)).length from by
      simp [length_putUint32LE]]
    exact List.take_left _ _
  have h1 : (bd ++ putUint32LE (crc32c bd)).take bd.length = bd := List.take_left _ _
  have h2 : (bd ++ putUint32LE (crc32c bd)).drop bd.length = putUint32LE (crc32c bd) :=
    List.drop_left _ _
  unfold readRawBlock
  dsimp only
  rw [if_neg (by rw [hlen]; omega)]
  rw [hdrop, htake]
  simp only [h1, h2, leVal_putUint32LE]
  rw [if_neg (not_not_intro (Nat.mod_eq_of_lt (crc32c_lt bd)).symm)]

theorem fileOf_nil : fileOf [] = [] := rfl

theorem fileOf_cons (B : List (ByteStr × Int × GoBytes))
    (bs : List (List (ByteStr × Int × GoBytes))) :
    fileOf (B :: bs) =
      dBlockBytes B ++ putUint32LE (crc32c (dBlockBytes B)) ++ fileOf bs := by
  unfold fileOf
  simp [List.append_assoc]

theorem fileOf_append (bs1 bs2 : List (List (ByteStr × Int × GoBytes))) :
    fileOf (bs1 ++ bs2) = fileOf bs1 ++ fileOf bs2 := by
  unfold fileOf
  simp

theorem iEntriesAux_keys : ∀ (bs : List (List (ByteStr × Int × GoBytes))) (off : Nat),
    (iEntriesAux off bs).map Prod.fst = bs.map lastRowKey := by
  intro bs
  induction bs with
  | nil => intro off; rfl
  | cons B rest ih =>
    intro off
    simp only [iEntriesAux, List.map_cons, ih]

theorem iEntriesAux_mem : ∀ (bs : List (List (ByteStr × Int × GoBytes))) (off : Nat)
    (e : ByteStr × BlockHandle), e ∈ iEntriesAux off bs →
    ∃ B, B ∈ bs ∧ e.1 = lastRowKey B ∧ e.2.size = (dBlockBytes B).length ∧
      e.2.offset ≤ off + (fileOf bs).length := by
  intro bs
  induction bs with
  | nil => intro off e he; cases he
  | cons B rest ih =>
    intro off e he
    rw [show iEntriesAux off (B :: rest) =
      (lastRowKey B, ⟨off, (dBlockBytes B).length⟩) ::
        iEntriesAux (off + (dBlockBytes B).length + 4) rest from rfl] at he
    rcases List.mem_cons.mp he with rfl | he2
    · exact ⟨B, by simp, rfl, rfl, by
        show off ≤ off + (fileOf (B :: rest)).length
        omega⟩
    · obtain ⟨C, hC, h1, h2, h3⟩ := ih _ e he2
      refine ⟨C, by simp [hC], h1, h2, ?_⟩
      rw [fileOf_cons]
      simp only [List.length_append, length_putUint32LE]
      omega

theorem firstLeH_iEntriesAux (key : ByteStr) :
    ∀ (bs : List (List (ByteStr × Int × GoBytes))) (off : Nat),
    (firstLeH (iEntriesAux off bs) key = none ∧
      ∀ B ∈ bs, strLe key (lastRowKey B) = false) ∨
    (∃ i, i < bs.length ∧
      firstLeH (iEntriesAux off bs) key =
        some ⟨off + (fileOf (bs.take i)).length, (dBlockBytes (bs.getD i [])).length⟩ ∧
      (∀ j, j < i → strLe key (lastRowKey (bs.getD j [])) = false) ∧
      strLe key (lastRowKey (bs.getD i [])) = true) := by
  intro bs
  induction bs with
  | nil => intro off; left; exact ⟨rfl, by simp⟩
  | cons B rest ih =>
    intro off
    rw [show iEntriesAux off (B :: rest) =
      (lastRowKey B, ⟨off, (dBlockBytes B).length⟩) ::
        iEntriesAux (off + (dBlockBytes B).length + 4) rest from rfl]
    rw [show firstLeH ((lastRowKey B, (⟨off, (dBlockBytes B).length⟩ : BlockHandle)) ::
        iEntriesAux (off + (dBlockBytes B).length + 4) rest) key =
      if strLe key (lastRowKey B) then some ⟨off, (dBlockBytes B).length⟩
      else firstLeH (iEntriesAux (off + (dBlockBytes B).length + 4) rest) key from rfl]
    by_cases hB : strLe key (lastRowKey B) = true
    · right
      refine ⟨0, by simp, ?_, fun j hj => absurd hj (by omega), hB⟩
      rw [if_pos hB]
      simp [fileOf_nil]
    · rw [if_neg hB]
      rcases ih (off + (dBlockBytes B).length + 4) with ⟨hnone, hall⟩ | ⟨i, hi, hres, hbef, hhit⟩
      · left
        refine ⟨hnone, ?_⟩
        intro C hC
        rcases List.mem_cons.mp hC with rfl | hC2
        · simpa using hB
        · exact hall C hC2
      · right
        refine ⟨i + 1, by simp only [List.length_cons]; omega, ?_, ?_, hhit⟩
        · rw [hres]
          have harith : off + (dBlockBytes B).length + 4 + (fileOf (rest.take i)).length =
              off + (fileOf ((B :: rest).take (i + 1))).length := by
            rw [show (B :: rest).take (i + 1) = B :: rest.take i from rfl, fileOf_cons]
            simp only [List.length_append, length_putUint32LE]
            omega
          rw [harith]
          rfl
        · intro j hj
          cases j with
          | zero => simpa using hB
          | succ m => exact hbef m (by omega)

theorem strLe_refl (a : ByteStr) : strLe a a = true := by
  unfold strLe
  rw [strLt_irrefl]
  rfl

theorem strLe_of_key_rel {a b : ByteStr} (h : strLt a b = true ∨ a = b) : strLe a b = true := by
  rcases h with h | rfl
  · unfold strLe
    rw [strLt_not_sym h]
    rfl
  · exact strLe_refl a

theorem lastRowKey_mem : ∀ (B : List (ByteStr × Int × GoBytes)), B ≠ [] →
    ∃ r, r ∈ B ∧ r.1 = lastRowKey B := by
  intro B
  induction B with
  | nil => intro h; exact absurd rfl h
  | cons a rest ih =>
    intro _
    cases rest with
    | nil => exact ⟨a, by simp, rfl⟩
    | cons b rest2 =>
      obtain ⟨r, hr, hk⟩ := ih (by simp)
      exact ⟨r, by simp [List.mem_cons.mp hr], hk⟩

theorem lastRowKey_ge : ∀ (B : List (ByteStr × Int × GoBytes)), B.Pairwise rowBefore →
    ∀ r ∈ B, strLe r.1 (lastRowKey B) = true := by
  intro B
  induction B with
  | nil => intro _ r hr; cases hr
  | cons a rest ih =>
    intro hpw r hr
    rcases List.mem_cons.mp hr with rfl | hr2
    · cases rest with
      | nil => exact strLe_refl r.1
      | cons b rest2 =>
        obtain ⟨q, hq, hqk⟩ := lastRowKey_mem (b :: rest2) (by simp)
        have hab : rowBefore r q := (List.pairwise_cons.mp hpw).1 q hq
        have h2 := strLe_of_key_rel (rowBefore_key hab)
        rw [hqk] at h2
        exact h2
    · cases rest with
      | nil => simp at hr2
      | cons b rest2 =>
        exact ih (List.pairwise_cons.mp hpw).2 r hr2

theorem firstRow_append (A B : List (ByteStr × Int × GoBytes)) (key : ByteStr) :
    firstRow (A ++ B) key =
      (match firstRow A key with
       | some q => some q
       | none => firstRow B key) := by
  induction A with
  | nil => rfl
  | cons a rest ih =>
    simp only [List.cons_append, firstRow]
    by_cases h : a.1 = key
    · rw [if_pos h, if_pos h]
    · rw [if_neg h, if_neg h]
      exact ih

theorem firstRow_mem : ∀ (rs : List (ByteStr × Int × GoBytes)) (key : ByteStr)
    (q : Int × GoBytes), firstRow rs key = some q → (key, q) ∈ rs := by
  intro rs
  induction rs with
  | nil => intro key q h; exact Option.noConfusion h
  | cons a rest ih =>
    intro key q h
    rw [show firstRow (a :: rest) key =
      if a.1 = key then some a.2 else firstRow rest key from rfl] at h
    by_cases hk : a.1 = key
    · rw [if_pos hk] at h
      have hq : a.2 = q := Option.some.inj h
      have h2 : (key, q) = a := by
        rw [← hk, ← hq]
      rw [h2]
      exact List.mem_cons_self a rest
    · rw [if_neg hk] at h
      exact List.mem_cons.mpr (Or.inr (ih key q h))

theorem firstRow_isSome_of_mem : ∀ (rs : List (ByteStr × Int × GoBytes)) (key : ByteStr),
    (∃ r ∈ rs, r.1 = key) → ∃ q, firstRow rs key = some q := by
  intro rs
  induction rs with
  | nil => intro key h; obtain ⟨r, hr, _⟩ := h; cases hr
  | cons a rest ih =>
    intro key h
    rw [show firstRow (a :: rest) key =
      if a.1 = key then some a.2 else firstRow rest key from rfl]
    by_cases hk : a.1 = key
    · exact ⟨a.2, by rw [if_pos hk]⟩
    · rw [if_neg hk]
      obtain ⟨r, hr, hrk⟩ := h
      rcases List.mem_cons.mp hr with rfl | hr2
      · exact absurd hrk hk
      · exact ih key ⟨r, hr2, hrk⟩

theorem pairwise_getD_drop {α : Type} (d : α) {R : α → α → Prop} :
    ∀ (l : List α) (i : Nat), i < l.length → l.Pairwise R →
    ∀ b ∈ l.drop (i + 1), R (l.getD i d) b := by
  intro l
  induction l with
  | nil => intro i hi; simp at hi
  | cons a rest ih =>
    intro i hi hpw b hb
    cases i with
    | zero => exact (List.pairwise_cons.mp hpw).1 b hb
    | succ m =>
      exact ih m (by simp at hi; omega) (List.pairwise_cons.mp hpw).2 b hb

theorem mem_take_getD {α : Type} (d : α) : ∀ (l : List α) (i : Nat) (b : α), b ∈ l.take i →
    ∃ j, j < i ∧ j < l.length ∧ l.getD j d = b := by
  intro l
  induction l with
  | nil => intro i b hb; simp at hb
  | cons a rest ih =>
    intro i b hb
    cases i with
    | zero => simp at hb
    | succ m =>
      rw [List.take_succ_cons] at hb
      rcases List.mem_cons.mp hb with rfl | hb2
      · exact ⟨0, by omega, by simp, rfl⟩
      · obtain ⟨j, h1, h2, h3⟩ := ih m b hb2
        exact ⟨j + 1, by omega, by simp only [List.length_cons]; omega, h3⟩

theorem strLt_of_strLe_false {a b : ByteStr} (h : strLe a b = false) : strLt b a = true := by
  unfold strLe at h
  simpa using h

theorem sstReaderFind_layout (blocks : List (List (ByteStr × Int × GoBytes))) (key : ByteStr)
    (hemp : ∀ B ∈ blocks, B = [] → blocks = [B])
    (hpw : blocks.flatten.Pairwise rowBefore)
    (hb : ∀ r ∈ blocks.flatten, -(2 ^ 63) ≤ r.2.1 ∧ r.2.1 < 2 ^ 63 ∧
      (encodeEKey r.1 r.2.1).length < 2 ^ 64 ∧ goLen r.2.2 + 1 < 2 ^ 64)
    (hdb : ∀ B ∈ blocks, (restBytes [] 0 (dEntries B)).length < 2 ^ 32)
    (hib : (restBytes [] 0 (ibEntries (iEntries blocks))).length < 2 ^ 32)
    (hfo : (fileOf blocks).length < 2 ^ 35)
    (hio : (iBlockBytes blocks).length < 2 ^ 28)
    (hord : blocks.Pairwise (fun a b => strLe (lastRowKey a) (lastRowKey b) = true)) :
    sstReaderFind (sstFileOf blocks) key =
      (match firstRow blocks.flatten key with
       | some q => .ok (q.2, q.1)
       | none => .error .notFound) := by
  have hoff64 : (fileOf blocks).length < 2 ^ 64 := by omega
  have hsz64 : (iBlockBytes blocks).length < 2 ^ 64 := by omega
  have hencl : (BlockHandle.encodeTo
      ⟨(fileOf blocks).length, (iBlockBytes blocks).length⟩).length ≤ 10 := by
    unfold BlockHandle.encodeTo
    simp only [List.length_append]
    have h1 : (putUvarint (fileOf blocks).length).length ≤ 5 :=
      putUvarint_len_le (k := 5) (by omega) (by omega) (by omega)
    have h2 : (putUvarint (iBlockBytes blocks).length).length ≤ 4 :=
      putUvarint_len_le (k := 4) (by omega) (by omega) (by omega)
    omega
  have hfoot : readFooterR (sstFileOf blocks) =
      .ok ⟨(fileOf blocks).length, (iBlockBytes blocks).length⟩ :=
    readFooterR_spec
      (fileOf blocks ++ iBlockBytes blocks ++ putUint32LE (crc32c (iBlockBytes blocks)))
      ⟨(fileOf blocks).length, (iBlockBytes blocks).length⟩ hoff64 hsz64 hencl
  have hre : sstFileOf blocks = fileOf blocks ++
      (iBlockBytes blocks ++ putUint32LE (crc32c (iBlockBytes blocks)) ++ footerBytes
        ⟨(fileOf blocks).length, (iBlockBytes blocks).length⟩) := by
    unfold sstFileOf
    simp [List.append_assoc]
  have hrb1 : readRawBlock (sstFileOf blocks)
      ⟨(fileOf blocks).length, (iBlockBytes blocks).length⟩ = .ok (iBlockBytes blocks) := by
    rw [hre]
    exact readRawBlock_spec (fileOf blocks) (iBlockBytes blocks) (footerBytes _)
  have hordi : (iEntries blocks).Pairwise (fun a b => strLe a.1 b.1 = true) := by
    have h1 : ((iEntries blocks).map Prod.fst).Pairwise (fun a b => strLe a b = true) := by
      rw [show iEntries blocks = iEntriesAux 0 blocks from rfl, iEntriesAux_keys]
      exact List.pairwise_map.mpr hord
    exact List.pairwise_map.mp h1
  have hbi : ∀ e ∈ iEntries blocks, e.1.length < 2 ^ 64 ∧ e.2.offset < 2 ^ 64 ∧
      e.2.size < 2 ^ 64 := by
    intro e he
    obtain ⟨B, hBmem, h1, h2, h3⟩ := iEntriesAux_mem blocks 0 e he
    have hsz : (dBlockBytes B).length ≤ (fileOf blocks).length := by
      have hmem2 : dBlockBytes B ++ putUint32LE (crc32c (dBlockBytes B)) ∈
          blocks.map (fun C => dBlockBytes C ++ putUint32LE (crc32c (dBlockBytes C))) :=
        List.mem_map.mpr ⟨B, hBmem, rfl⟩
      have hlen := (List.sublist_flatten_of_mem hmem2).length_le
      rw [show (blocks.map fun C =>
        dBlockBytes C ++ putUint32LE (crc32c (dBlockBytes C))).flatten = fileOf blocks
        from rfl] at hlen
      simp only [List.length_append] at hlen
      omega
    refine ⟨?_, by omega, by omega⟩
    by_cases hBe : B = []
    · subst hBe
      rw [h1]
      show (0 : Nat) < 2 ^ 64
      norm_num
    · obtain ⟨r, hr, hrk⟩ := lastRowKey_mem B hBe
      have hrow := hb r (List.mem_flatten.mpr ⟨B, hBmem, hr⟩)
      rw [h1, ← hrk]
      have hesc : r.1.length ≤ (ocEscape r.1).length := by
        clear hrow hrk hr
        induction r.1 with
        | nil => simp [ocEscape]
        | cons c rest2 ih2 =>
          unfold ocEscape
          split_ifs <;> simp only [List.length_cons] <;> omega
      have hek := hrow.2.2.1
      unfold encodeEKey ocEncStr at hek
      simp only [List.length_append, List.length_cons, List.length_nil] at hek
      omega
  have hibf : indexBlockFind (iBlockBytes blocks) key =
      (match firstLeH (iEntries blocks) key with
       | some bh => .ok bh
       | none => .error .notFound) :=
    indexBlockFind_spec (iEntries blocks) key hordi hbi hib
  rcases firstLeH_iEntriesAux key blocks 0 with ⟨hflh, hall⟩ | ⟨i, hi, hflh, hbef, hhit⟩
  · have hflh0 : firstLeH (iEntries blocks) key = none := hflh
    have hfr : firstRow blocks.flatten key = none := by
      apply firstRow_none_of
      intro r hr heq
      obtain ⟨B, hBmem, hrB⟩ := List.mem_flatten.mp hr
      have hle := lastRowKey_ge B ((List.pairwise_flatten.mp hpw).1 B hBmem) r hrB
      have hlt := strLt_of_strLe_false (hall B hBmem)
      have h2 := strLe_lt_trans hle hlt
      rw [heq, strLt_irrefl] at h2
      exact Bool.noConfusion h2
    rw [hfr]
    simp only [sstReaderFind]
    rw [hfoot, exbind_ok, hrb1, exbind_ok]
    rw [show indexBlockFind (iBlockBytes blocks) key = Except.error GoErr.notFound from by
      rw [hibf, hflh0]]
    rfl
  · have hflh' : firstLeH (iEntries blocks) key =
        some ⟨(fileOf (blocks.take i)).length, (dBlockBytes (blocks.getD i [])).length⟩ := by
      have h := hflh
      rw [Nat.zero_add] at h
      exact h
    have hdropb : blocks.drop i = blocks.getD i [] :: blocks.drop (i + 1) :=
      drop_cons_of_lt [] blocks i hi
    have hfile2 : fileOf blocks = fileOf (blocks.take i) ++
        (dBlockBytes (blocks.getD i []) ++
          putUint32LE (crc32c (dBlockBytes (blocks.getD i []))) ++
          fileOf (blocks.drop (i + 1))) := by
      conv_lhs => rw [← List.take_append_drop i blocks]
      rw [fileOf_append, hdropb, fileOf_cons]
    have hread2 : readRawBlock (sstFileOf blocks)
        ⟨(fileOf (blocks.take i)).length, (dBlockBytes (blocks.getD i [])).length⟩ =
        .ok (dBlockBytes (blocks.getD i [])) := by
      have h := readRawBlock_spec (fileOf (blocks.take i)) (dBlockBytes (blocks.getD i []))
        (fileOf (blocks.drop (i + 1)) ++ iBlockBytes blocks ++
          putUint32LE (crc32c (iBlockBytes blocks)) ++
          footerBytes ⟨(fileOf blocks).length, (iBlockBytes blocks).length⟩)
      rw [show fileOf (blocks.take i) ++
          (dBlockBytes (blocks.getD i []) ++
            putUint32LE (crc32c (dBlockBytes (blocks.getD i []))) ++
            (fileOf (blocks.drop (i + 1)) ++ iBlockBytes blocks ++
              putUint32LE (crc32c (iBlockBytes blocks)) ++
              footerBytes ⟨(fileOf blocks).length, (iBlockBytes blocks).length⟩)) =
          sstFileOf blocks from by
        unfold sstFileOf
        rw [hfile2]
        simp [List.append_assoc]] at h
      exact h
    have hBi : blocks.getD i [] ∈ blocks := by
      rw [List.getD_eq_get blocks [] hi]
      exact List.get_mem blocks i hi
    have hpwB : (blocks.getD i []).Pairwise rowBefore :=
      (List.pairwise_flatten.mp hpw).1 _ hBi
    have hbB : ∀ a ∈ blocks.getD i [], -(2 ^ 63) ≤ a.2.1 ∧ a.2.1 < 2 ^ 63 ∧
        (encodeEKey a.1 a.2.1).length < 2 ^ 64 ∧ goLen a.2.2 + 1 < 2 ^ 64 :=
      fun a ha => hb a (List.mem_flatten.mpr ⟨_, hBi, ha⟩)
    have hdbf : dataBlockFind (dBlockBytes (blocks.getD i [])) key =
        (match firstRow (blocks.getD i []) key with
         | some q => .ok (q.2, q.1)
         | none => .error .notFound) :=
      dataBlockFind_spec _ key hpwB hbB (hdb _ hBi)
    have hcover : firstRow blocks.flatten key = firstRow (blocks.getD i []) key := by
      conv_lhs => rw [← List.take_append_drop i blocks]
      rw [List.flatten_append, hdropb, List.flatten_cons, firstRow_append]
      have hnone1 : firstRow (blocks.take i).flatten key = none := by
        apply firstRow_none_of
        intro r hr heq
        obtain ⟨B, hBmem, hrB⟩ := List.mem_flatten.mp hr
        obtain ⟨j, hj1, hj2, hj3⟩ := mem_take_getD [] blocks i B hBmem
        have hBmem2 : B ∈ blocks := by
          rw [← hj3, List.getD_eq_get blocks [] hj2]
          exact List.get_mem blocks j hj2
        have hle := lastRowKey_ge B ((List.pairwise_flatten.mp hpw).1 B hBmem2) r hrB
        have hkl := hbef j hj1
        rw [hj3] at hkl
        have hlt := strLt_of_strLe_false hkl
        have h2 := strLe_lt_trans hle hlt
        rw [heq, strLt_irrefl] at h2
        exact Bool.noConfusion h2
      rw [hnone1]
      show firstRow (blocks.getD i [] ++ (blocks.drop (i + 1)).flatten) key =
        firstRow (blocks.getD i []) key
      rw [firstRow_append]
      cases hfr : firstRow (blocks.getD i []) key with
      | some q => rfl
      | none =>
        show firstRow (blocks.drop (i + 1)).flatten key = none
        apply firstRow_none_of
        intro r hr heq
        obtain ⟨B, hBmem, hrB⟩ := List.mem_flatten.mp hr
        by_cases hBe : blocks.getD i [] = []
        · have hsingle := hemp _ hBi hBe
          have hlen1 : blocks.length = 1 := by rw [hsingle]; rfl
          have hi0 : i = 0 := by omega
          rw [hsingle, hi0] at hBmem
          simp at hBmem
        · obtain ⟨q, hq, hqk⟩ := lastRowKey_mem _ hBe
          have hcross := (List.pairwise_flatten.mp hpw).2
          have hrel := pairwise_getD_drop [] blocks i hi hcross B hBmem
          have hqr : rowBefore q r := hrel q hq r hrB
          rcases rowBefore_key hqr with hlt | heq2
          · rw [hqk] at hlt
            have h2 := strLe_lt_trans hhit hlt
            rw [heq, strLt_irrefl] at h2
            exact Bool.noConfusion h2
          · obtain ⟨p, hp⟩ := firstRow_isSome_of_mem (blocks.getD i []) key
              ⟨q, hq, by rw [heq2, heq]⟩
            rw [hfr] at hp
            exact Option.noConfusion hp
    rw [hcover]
    simp only [sstReaderFind]
    rw [hfoot, exbind_ok, hrb1, exbind_ok]
    rw [show indexBlockFind (iBlockBytes blocks) key = Except.ok
        (⟨(fileOf (blocks.take i)).length, (dBlockBytes (blocks.getD i [])).length⟩ :
          BlockHandle) from by
      rw [hibf, hflh']]
    rw [exbind_ok, hread2, exbind_ok, hdbf]

theorem wOf_init : wOf [] [] = newSstWriter := rfl

theorem dbb_empty_small : ¬((dbbOf []).estimatedSize > (blockSize : Int)) := by decide

theorem lastRowKey_append_single :
    ∀ (p : List (ByteStr × Int × GoBytes)) (r : ByteStr × Int × GoBytes),
    lastRowKey (p ++ [r]) = r.1 := by
  intro p
  induction p with
  | nil => intro r; rfl
  | cons a rest ih =>
    intro r
    cases rest with
    | nil => rfl
    | cons b rest2 => exact ih r

theorem dEntries_append (p q : List (ByteStr × Int × GoBytes)) :
    dEntries (p ++ q) = dEntries p ++ dEntries q := by
  simp [dEntries]

theorem dbbOf_append (pending : List (ByteStr × Int × GoBytes)) (r : ByteStr × Int × GoBytes)
    (hsz : (restBytes [] 0 (dEntries (pending ++ [r]))).length < 2 ^ 32) :
    (dbbOf pending).appendRow r.1 r.2.1 r.2.2 = dbbOf (pending ++ [r]) := by
  have hde : dEntries (pending ++ [r]) = dEntries pending ++ [dEntry r] := by
    simp [dEntries]
  have hsz1 : ([] : ByteStr).length + (restBytes [] 0 (dEntries pending)).length < 2 ^ 32 := by
    have hra := restBytes_append (dEntries pending) [dEntry r] [] 0 (by omega)
    rw [hde, hra] at hsz
    simp only [List.length_append, List.length_nil] at hsz ⊢
    omega
  have hsz2 : ([] : ByteStr).length + (restBytes [] 0 (dEntries (pending ++ [r]))).length <
      2 ^ 32 := by
    simp only [List.length_nil]
    omega
  have h1 := fold_chars (dEntries pending) [] [0] [] 0 true (by omega)
    (fun _ => ⟨rfl, rfl⟩) hsz1
  have h2 := fold_chars (dEntries (pending ++ [r])) [] [0] [] 0 true (by omega)
    (fun _ => ⟨rfl, rfl⟩) hsz2
  have h3 : List.foldl bstep ([], (⟨16, [0], [], countA true 0⟩ : PrefixEnc))
      (dEntries (pending ++ [r])) =
      bstep (List.foldl bstep ([], (⟨16, [0], [], countA true 0⟩ : PrefixEnc))
        (dEntries pending)) (dEntry (r.1, r.2.1, r.2.2)) := by
    rw [hde, List.foldl_append]
    rfl
  have hL : ((dbbOf pending).buf, (dbbOf pending).enc) =
      List.foldl bstep ([], (⟨16, [0], [], countA true 0⟩ : PrefixEnc)) (dEntries pending) := by
    rw [h1]
    rfl
  have hR : ((dbbOf (pending ++ [r])).buf, (dbbOf (pending ++ [r])).enc) =
      List.foldl bstep ([], (⟨16, [0], [], countA true 0⟩ : PrefixEnc))
        (dEntries (pending ++ [r])) := by
    rw [h2]
    rfl
  have hpair : bstep ((dbbOf pending).buf, (dbbOf pending).enc) (dEntry (r.1, r.2.1, r.2.2)) =
      ((dbbOf (pending ++ [r])).buf, (dbbOf (pending ++ [r])).enc) := by
    rw [hL, hR, h3]
  rw [appendRow_eq_bstep, hpair]

theorem iEntriesAux_append : ∀ (bs : List (List (ByteStr × Int × GoBytes)))
    (B : List (ByteStr × Int × GoBytes)) (off : Nat),
    iEntriesAux off (bs ++ [B]) = iEntriesAux off bs ++
      [(lastRowKey B, ⟨off + (fileOf bs).length, (dBlockBytes B).length⟩)] := by
  intro bs
  induction bs with
  | nil =>
    intro B off
    simp [iEntriesAux, fileOf_nil]
  | cons C rest ih =>
    intro B off
    rw [show iEntriesAux off ((C :: rest) ++ [B]) =
      (lastRowKey C, ⟨off, (dBlockBytes C).length⟩) ::
        iEntriesAux (off + (dBlockBytes C).length + 4) (rest ++ [B]) from rfl]
    rw [ih]
    rw [show iEntriesAux off (C :: rest) =
      (lastRowKey C, ⟨off, (dBlockBytes C).length⟩) ::
        iEntriesAux (off + (dBlockBytes C).length + 4) rest from rfl]
    rw [List.cons_append]
    have harith : off + (dBlockBytes C).length + 4 + (fileOf rest).length =
        off + (fileOf (C :: rest)).length := by
      rw [fileOf_cons]
      simp only [List.length_append, length_putUint32LE]
      omega
    rw [harith]

theorem iEntriesAux_len : ∀ (bs : List (List (ByteStr × Int × GoBytes))) (off : Nat),
    (iEntriesAux off bs).length = bs.length := by
  intro bs
  induction bs with
  | nil => intro off; rfl
  | cons B rest ih =>
    intro off
    simp only [iEntriesAux, List.length_cons, ih]

theorem ibbOf_append (blocks : List (List (ByteStr × Int × GoBytes)))
    (B : List (ByteStr × Int × GoBytes))
    (hsz : (restBytes [] 0 (ibEntries (iEntries (blocks ++ [B])))).length < 2 ^ 32) :
    (ibbOf blocks).appendEntry (lastRowKey B)
      ⟨(fileOf blocks).length, (dBlockBytes B).length⟩ = ibbOf (blocks ++ [B]) := by
  have hie0 := iEntriesAux_append blocks B 0
  rw [Nat.zero_add] at hie0
  have hie : ibEntries (iEntries (blocks ++ [B])) = ibEntries (iEntries blocks) ++
      [(lastRowKey B, bhVal ⟨(fileOf blocks).length, (dBlockBytes B).length⟩)] := by
    rw [show iEntries (blocks ++ [B]) = iEntriesAux 0 (blocks ++ [B]) from rfl, hie0]
    simp only [ibEntries, List.map_append]
    rfl
  have hsz1 : ([] : ByteStr).length +
      (restBytes [] 0 (ibEntries (iEntries blocks))).length < 2 ^ 32 := by
    have hra := restBytes_append (ibEntries (iEntries blocks))
      [(lastRowKey B, bhVal ⟨(fileOf blocks).length, (dBlockBytes B).length⟩)] [] 0 (by omega)
    rw [hie, hra] at hsz
    simp only [List.length_append, List.length_nil] at hsz ⊢
    omega
  have hsz2 : ([] : ByteStr).length +
      (restBytes [] 0 (ibEntries (iEntries (blocks ++ [B])))).length < 2 ^ 32 := by
    simp only [List.length_nil]
    omega
  have h1 := fold_chars (ibEntries (iEntries blocks)) [] [0] [] 0 true (by omega)
    (fun _ => ⟨rfl, rfl⟩) hsz1
  have h2 := fold_chars (ibEntries (iEntries (blocks ++ [B]))) [] [0] [] 0 true (by omega)
    (fun _ => ⟨rfl, rfl⟩) hsz2
  have h3 : List.foldl bstep ([], (⟨16, [0], [], countA true 0⟩ : PrefixEnc))
      (ibEntries (iEntries (blocks ++ [B]))) =
      bstep (List.foldl bstep ([], (⟨16, [0], [], countA true 0⟩ : PrefixEnc))
        (ibEntries (iEntries blocks)))
        (lastRowKey B, bhVal ⟨(fileOf blocks).length, (dBlockBytes B).length⟩) := by
    rw [hie, List.foldl_append]
    rfl
  have hL : ((ibbOf blocks).buf, (ibbOf blocks).enc) =
      List.foldl bstep ([], (⟨16, [0], [], countA true 0⟩ : PrefixEnc))
        (ibEntries (iEntries blocks)) := by
    rw [h1]
    rfl
  have hR : ((ibbOf (blocks ++ [B])).buf, (ibbOf (blocks ++ [B])).enc) =
      List.foldl bstep ([], (⟨16, [0], [], countA true 0⟩ : PrefixEnc))
        (ibEntries (iEntries (blocks ++ [B]))) := by
    rw [h2]
    rfl
  have hpair : bstep ((ibbOf blocks).buf, (ibbOf blocks).enc)
      (lastRowKey B, bhVal ⟨(fileOf blocks).length, (dBlockBytes B).length⟩) =
      ((ibbOf (blocks ++ [B])).buf, (ibbOf (blocks ++ [B])).enc) := by
    rw [hL, hR, h3]
  rw [appendEntry_eq_bstep, hpair]

theorem fileOf_snoc (bs : List (List (ByteStr × Int × GoBytes)))
    (B : List (ByteStr × Int × GoBytes)) :
    fileOf (bs ++ [B]) =
      fileOf bs ++ dBlockBytes B ++ putUint32LE (crc32c (dBlockBytes B)) := by
  rw [fileOf_append, fileOf_cons, fileOf_nil]
  simp [List.append_assoc]

theorem appendRow_wOf_noflush (blocks : List (List (ByteStr × Int × GoBytes)))
    (pending : List (ByteStr × Int × GoBytes)) (r : ByteStr × Int × GoBytes)
    (hflush : ¬((dbbOf pending).estimatedSize > (blockSize : Int)))
    (hsz : (restBytes [] 0 (dEntries (pending ++ [r]))).length < 2 ^ 32) :
    (wOf blocks pending).appendRow r.1 r.2.1 r.2.2 = wOf blocks (pending ++ [r]) := by
  unfold SstWriter.appendRow
  dsimp only [wOf]
  rw [if_neg hflush]
  rw [dbbOf_append pending r hsz]
  dsimp only
  rw [lastRowKey_append_single]

theorem appendRow_wOf_flush (blocks : List (List (ByteStr × Int × GoBytes)))
    (pending : List (ByteStr × Int × GoBytes)) (r : ByteStr × Int × GoBytes)
    (hflush : (dbbOf pending).estimatedSize > (blockSize : Int))
    (hszr : (restBytes [] 0 (dEntries ([] ++ [r]))).length < 2 ^ 32)
    (hszib : (restBytes [] 0 (ibEntries (iEntries (blocks ++ [pending])))).length < 2 ^ 32) :
    (wOf blocks pending).appendRow r.1 r.2.1 r.2.2 = wOf (blocks ++ [pending]) [r] := by
  unfold SstWriter.appendRow
  dsimp only [wOf]
  rw [if_pos hflush]
  unfold flushBlock writeChecksummedBlock
  dsimp only
  rw [show (dbbOf pending).finish = dBlockBytes pending from rfl]
  rw [ibbOf_append blocks pending hszib]
  rw [show (dbbOf pending).reset = dbbOf [] from rfl]
  rw [show (dbbOf []).appendRow r.1 r.2.1 r.2.2 = dbbOf ([] ++ [r]) from
    dbbOf_append [] r hszr]
  rw [show ([] : List (ByteStr × Int × GoBytes)) ++ [r] = [r] from rfl]
  rw [show lastRowKey [r] = r.1 from rfl]
  rw [fileOf_snoc]
  rw [show (fileOf blocks ++ dBlockBytes pending ++
    putUint32LE (crc32c (dBlockBytes pending))).length =
    (fileOf blocks).length + (dBlockBytes pending).length + 4 from by
    simp [length_putUint32LE]
    omega]

theorem dEntry_bounds {r : ByteStr × Int × GoBytes} (hk : r.1.length ≤ 4096)
    (hv : goLen r.2.2 ≤ 524288) :
    (dEntry r).1.length ≤ 8204 ∧ (dEntry r).2.length ≤ 524292 := by
  constructor
  · have h := encodeEKey_len_le r.1 r.2.1
    show (encodeEKey r.1 r.2.1).length ≤ 8204
    omega
  · have h := dataValBytes_len_le hv
    show (dataValBytes r.2.2).length ≤ 524292
    omega

theorem dEntries_bounds {p : List (ByteStr × Int × GoBytes)}
    (h : ∀ r ∈ p, r.1.length ≤ 4096 ∧ goLen r.2.2 ≤ 524288) :
    ∀ e ∈ dEntries p, e.1.length ≤ 8204 ∧ e.2.length ≤ 524292 := by
  intro e he
  obtain ⟨r, hr, rfl⟩ := List.mem_map.mp he
  exact dEntry_bounds (h r hr).1 (h r hr).2

theorem restBytes_dEntries_le {p : List (ByteStr × Int × GoBytes)}
    (h : ∀ r ∈ p, r.1.length ≤ 4096 ∧ goLen r.2.2 ≤ 524288) :
    (restBytes [] 0 (dEntries p)).length ≤ 532500 * p.length := by
  have h2 := restBytes_len_le 8204 524292 (by norm_num) (dEntries p) [] 0 (dEntries_bounds h)
  rw [show (dEntries p).length = p.length from by simp [dEntries]] at h2
  omega

theorem restBytes_single_le {prev : ByteStr} {j : Nat} {r : ByteStr × Int × GoBytes}
    (hk : r.1.length ≤ 4096) (hv : goLen r.2.2 ≤ 524288) :
    (restBytes prev j [dEntry r]).length ≤ 532500 := by
  have h := restBytes_len_le 8204 524292 (by norm_num) [dEntry r] prev j (by
    intro e he
    rw [List.mem_singleton] at he
    subst he
    exact dEntry_bounds hk hv)
  simpa using h

theorem dBlockBytes_len_le700000 {B : List (ByteStr × Int × GoBytes)}
    (hrB : (restBytes [] 0 (dEntries B)).length ≤ 549000) :
    (dBlockBytes B).length ≤ 700000 := by
  show (blockBytes (dEntries B)).length ≤ 700000
  unfold blockBytes
  simp only [List.length_append, flatten_putUint32_length, length_putUint32LE]
  have h1 := restarts_count_le (dEntries B)
  have h2 := restBytes_length_ge (dEntries B) [] 0
  omega

theorem ib_restBytes_le (bs : List (List (ByteStr × Int × GoBytes)))
    (hkeys : ∀ B ∈ bs, ∀ r ∈ B, r.1.length ≤ 4096)
    (hblk : ∀ B ∈ bs, (dBlockBytes B).length < 2 ^ 64)
    (hfo : (fileOf bs).length < 2 ^ 64) :
    (restBytes [] 0 (ibEntries (iEntries bs))).length ≤ 4121 * bs.length := by
  have hbounds : ∀ e ∈ ibEntries (iEntries bs), e.1.length ≤ 4096 ∧ e.2.length ≤ 21 := by
    intro e he
    obtain ⟨x, hx, rfl⟩ := List.mem_map.mp he
    obtain ⟨B, hB, h1, h2, h3⟩ := iEntriesAux_mem bs 0 x hx
    constructor
    · show x.1.length ≤ 4096
      rw [h1]
      by_cases hBe : B = []
      · subst hBe
        simp [lastRowKey]
      · obtain ⟨r, hr, hrk⟩ := lastRowKey_mem B hBe
        rw [← hrk]
        exact hkeys B hB r hr
    · show (bhVal x.2).length ≤ 21
      exact bhVal_len_le (by omega) (by rw [h2]; exact hblk B hB)
  have h := restBytes_len_le 4096 21 (by norm_num) (ibEntries (iEntries bs)) [] 0 hbounds
  rw [show (ibEntries (iEntries bs)).length = bs.length from by
    simp only [ibEntries, List.length_map]
    exact iEntriesAux_len bs 0] at h
  omega

theorem length_le_flatten {α : Type} : ∀ (bs : List (List α)), (∀ B ∈ bs, B ≠ []) →
    bs.length ≤ bs.flatten.length := by
  intro bs
  induction bs with
  | nil => intro _; simp
  | cons B rest ih =>
    intro h
    rw [List.flatten_cons]
    simp only [List.length_cons, List.length_append]
    have hB := h B (by simp)
    have hBlen : 1 ≤ B.length := by
      cases B with
      | nil => exact absurd rfl hB
      | cons a b => simp
    have h2 := ih (fun C hC => h C (by simp [hC]))
    omega

theorem noflush_buf_le {pending : List (ByteStr × Int × GoBytes)}
    (hflush : ¬((dbbOf pending).estimatedSize > (blockSize : Int))) :
    (restBytes [] 0 (dEntries pending)).length ≤ 16376 := by
  unfold DataBlockB.estimatedSize at hflush
  dsimp only [dbbOf] at hflush
  unfold blockSize at hflush
  simp only [List.length_cons] at hflush
  omega

set_option maxHeartbeats 1000000 in
theorem sstFold_inv : ∀ (rows : List (ByteStr × Int × GoBytes))
    (blocks : List (List (ByteStr × Int × GoBytes)))
    (pending : List (ByteStr × Int × GoBytes)),
    (∀ r ∈ blocks.flatten ++ pending ++ rows, r.1.length ≤ 4096 ∧ goLen r.2.2 ≤ 524288) →
    (blocks.flatten ++ pending ++ rows).length ≤ 50000 →
    (restBytes [] 0 (dEntries pending)).length ≤ 549000 →
    (pending = [] → blocks = []) →
    (∀ B ∈ blocks, B ≠ [] ∧ (restBytes [] 0 (dEntries B)).length ≤ 549000) →
    (fileOf blocks).length ≤ 532501 * blocks.flatten.length + 20 * blocks.length →
    ∃ blocks2 pending2,
      List.foldl (fun w r => w.appendRow r.1 r.2.1 r.2.2) (wOf blocks pending) rows =
        wOf blocks2 pending2 ∧
      blocks2.flatten ++ pending2 = blocks.flatten ++ pending ++ rows ∧
      (pending2 = [] → blocks2 = []) ∧
      (∀ B ∈ blocks2, B ≠ [] ∧ (restBytes [] 0 (dEntries B)).length ≤ 549000) ∧
      (restBytes [] 0 (dEntries pending2)).length ≤ 549000 ∧
      (fileOf blocks2).length ≤ 532501 * blocks2.flatten.length + 20 * blocks2.length := by
  intro rows
  induction rows with
  | nil =>
    intro blocks pending h1 h2 h3 h4 h5 h6
    exact ⟨blocks, pending, rfl, by simp, h4, h5, h3, h6⟩
  | cons r rest ih =>
    intro blocks pending h1 h2 h3 h4 h5 h6
    rw [List.foldl_cons]
    have hrowr : r.1.length ≤ 4096 ∧ goLen r.2.2 ≤ 524288 := h1 r (by simp)
    have hrowsp : ∀ x ∈ pending, x.1.length ≤ 4096 ∧ goLen x.2.2 ≤ 524288 :=
      fun x hx => h1 x (by simp [hx])
    by_cases hflush : (dbbOf pending).estimatedSize > (blockSize : Int)
    · have hpne : pending ≠ [] := by
        intro hc
        subst hc
        exact dbb_empty_small hflush
      have hsingle : (restBytes [] 0 (dEntries [r])).length ≤ 532500 := by
        rw [show dEntries [r] = [dEntry r] from rfl]
        exact restBytes_single_le hrowr.1 hrowr.2
      have hszr : (restBytes [] 0 (dEntries ([] ++ [r]))).length < 2 ^ 32 := by
        rw [List.nil_append]
        omega
      have hflatsnoc : (blocks ++ [pending]).flatten = blocks.flatten ++ pending := by
        simp
      have h5' : ∀ B ∈ blocks ++ [pending],
          B ≠ [] ∧ (restBytes [] 0 (dEntries B)).length ≤ 549000 := by
        intro B hB
        rcases List.mem_append.mp hB with hB1 | hB2
        · exact h5 B hB1
        · rw [List.mem_singleton] at hB2
          subst hB2
          exact ⟨hpne, h3⟩
      have hcnt : blocks.length ≤ blocks.flatten.length :=
        length_le_flatten blocks (fun B hB => (h5 B hB).1)
      have hlen50 : blocks.flatten.length + pending.length + (r :: rest).length ≤ 50000 := by
        simp only [List.length_append] at h2
        omega
      have hlde : (dEntries pending).length = pending.length := by simp [dEntries]
      have hdbbp : (dBlockBytes pending).length ≤
          (restBytes [] 0 (dEntries pending)).length + 4 * (pending.length / 16) + 12 := by
        show (blockBytes (dEntries pending)).length ≤ _
        unfold blockBytes
        simp only [List.length_append, flatten_putUint32_length, length_putUint32LE]
        have hc1 := restarts_count_le (dEntries pending)
        rw [hlde] at hc1
        omega
      have hrbp := restBytes_dEntries_le hrowsp
      have hfile2 : (fileOf (blocks ++ [pending])).length =
          (fileOf blocks).length + (dBlockBytes pending).length + 4 := by
        rw [fileOf_snoc]
        simp [length_putUint32LE]
        omega
      have h6' : (fileOf (blocks ++ [pending])).length ≤
          532501 * (blocks ++ [pending]).flatten.length + 20 * (blocks ++ [pending]).length := by
        rw [hfile2, hflatsnoc]
        simp only [List.length_append, List.length_cons, List.length_nil]
        have hp1 : 1 ≤ pending.length := by
          cases pending with
          | nil => exact absurd rfl hpne
          | cons a b => simp
        omega
      have hszib : (restBytes [] 0 (ibEntries (iEntries (blocks ++ [pending])))).length <
          2 ^ 32 := by
        have hkeys2 : ∀ B ∈ blocks ++ [pending], ∀ x ∈ B, x.1.length ≤ 4096 := by
          intro B hB x hx
          rcases List.mem_append.mp hB with hB1 | hB2
          · exact (h1 x (by simp [List.mem_flatten.mpr ⟨B, hB1, hx⟩])).1
          · rw [List.mem_singleton] at hB2
            subst hB2
            exact (hrowsp x hx).1
        have hblk2 : ∀ B ∈ blocks ++ [pending], (dBlockBytes B).length < 2 ^ 64 := by
          intro B hB
          have := dBlockBytes_len_le700000 (h5' B hB).2
          omega
        have hfo2 : (fileOf (blocks ++ [pending])).length < 2 ^ 64 := by
          rw [hfile2]
          have hd7 := dBlockBytes_len_le700000 h3
          simp only [List.length_append] at h2
          omega
        have hle := ib_restBytes_le (blocks ++ [pending]) hkeys2 hblk2 hfo2
        simp only [List.length_append, List.length_cons, List.length_nil] at hle
        omega
      rw [appendRow_wOf_flush blocks pending r hflush hszr hszib]
      have h1' : ∀ x ∈ (blocks ++ [pending]).flatten ++ [r] ++ rest,
          x.1.length ≤ 4096 ∧ goLen x.2.2 ≤ 524288 := by
        intro x hx
        apply h1
        rw [hflatsnoc] at hx
        simp only [List.mem_append, List.mem_cons, List.mem_singleton] at hx ⊢
        tauto
      have h2' : ((blocks ++ [pending]).flatten ++ [r] ++ rest).length ≤ 50000 := by
        rw [hflatsnoc]
        simp only [List.length_append, List.length_cons, List.length_singleton,
          List.length_nil] at h2 ⊢
        omega
      obtain ⟨b2, p2, hfold, hpart, hp2, hb2, hrb2, hfo3⟩ := ih (blocks ++ [pending]) [r]
        h1' h2' (by omega) (fun hc => List.noConfusion hc) h5' h6'
      refine ⟨b2, p2, hfold, ?_, hp2, hb2, hrb2, hfo3⟩
      rw [hpart, hflatsnoc]
      simp [List.append_assoc]
    · have hbuf := noflush_buf_le hflush
      have hnew : (restBytes [] 0 (dEntries (pending ++ [r]))).length ≤ 549000 := by
        rw [dEntries_append, restBytes_append (dEntries pending) (dEntries [r]) [] 0
          (by omega)]
        simp only [List.length_append]
        have hs : (restBytes (lastKeyD [] (dEntries pending))
            ((0 + (dEntries pending).length) % 16) [dEntry r]).length ≤ 532500 :=
          restBytes_single_le hrowr.1 hrowr.2
        rw [show dEntries [r] = [dEntry r] from rfl]
        omega
      rw [appendRow_wOf_noflush blocks pending r hflush (by omega)]
      have h1' : ∀ x ∈ blocks.flatten ++ (pending ++ [r]) ++ rest,
          x.1.length ≤ 4096 ∧ goLen x.2.2 ≤ 524288 := by
        intro x hx
        apply h1
        simp only [List.mem_append, List.mem_cons, List.mem_singleton] at hx ⊢
        tauto
      have h2' : (blocks.flatten ++ (pending ++ [r]) ++ rest).length ≤ 50000 := by
        simp only [List.length_append, List.length_cons, List.length_singleton,
          List.length_nil] at h2 ⊢
        omega
      obtain ⟨b2, p2, hfold, hpart, hp2, hb2, hrb2, hfo3⟩ := ih blocks (pending ++ [r])
        h1' h2' hnew (fun hc => absurd hc (by simp)) h5 h6
      refine ⟨b2, p2, hfold, ?_, hp2, hb2, hrb2, hfo3⟩
      rw [hpart]
      simp [List.append_assoc]

theorem close_wOf (b : List (List (ByteStr × Int × GoBytes)))
    (p : List (ByteStr × Int × GoBytes))
    (hszib : (restBytes [] 0 (ibEntries (iEntries (b ++ [p])))).length < 2 ^ 32)
    (hencl : (BlockHandle.encodeTo
      ⟨(fileOf (b ++ [p])).length, (iBlockBytes (b ++ [p])).length⟩).length ≤ 10) :
    (wOf b p).close = .ok (sstFileOf (b ++ [p]), false) := by
  unfold SstWriter.close flushBlock writeIndexBlock writeFooter writeChecksummedBlock
  dsimp only [wOf]
  rw [show (dbbOf p).finish = dBlockBytes p from rfl]
  rw [ibbOf_append b p hszib]
  rw [show (ibbOf (b ++ [p])).finish = iBlockBytes (b ++ [p]) from rfl]
  rw [show fileOf b ++ dBlockBytes p ++ putUint32LE (crc32c (dBlockBytes p)) =
    fileOf (b ++ [p]) from (fileOf_snoc b p).symm]
  rw [show (fileOf b).length + (dBlockBytes p).length + 4 = (fileOf (b ++ [p])).length from by
    rw [fileOf_snoc]
    simp [length_putUint32LE]
    omega]
  rw [if_neg (by
    rw [show BlockHandle.encodeTo
        ⟨(fileOf (b ++ [p])).length, (iBlockBytes (b ++ [p])).length⟩ ++
        List.replicate (maxVarintLen64 - (BlockHandle.encodeTo
          ⟨(fileOf (b ++ [p])).length, (iBlockBytes (b ++ [p])).length⟩).length) (byteOf 0) ++
        putUint32LE (crc32c (BlockHandle.encodeTo
          ⟨(fileOf (b ++ [p])).length, (iBlockBytes (b ++ [p])).length⟩ ++
          List.replicate (maxVarintLen64 - (BlockHandle.encodeTo
            ⟨(fileOf (b ++ [p])).length,
              (iBlockBytes (b ++ [p])).length⟩).length) (byteOf 0))) ++
        putUint64LE sstMagic =
      footerBytes ⟨(fileOf (b ++ [p])).length, (iBlockBytes (b ++ [p])).length⟩ from rfl]
    rw [footerBytes_len hencl]
    exact not_not_intro rfl)]
  dsimp only
  rw [show BlockHandle.encodeTo
      ⟨(fileOf (b ++ [p])).length, (iBlockBytes (b ++ [p])).length⟩ ++
      List.replicate (maxVarintLen64 - (BlockHandle.encodeTo
        ⟨(fileOf (b ++ [p])).length, (iBlockBytes (b ++ [p])).length⟩).length) (byteOf 0) ++
      putUint32LE (crc32c (BlockHandle.encodeTo
        ⟨(fileOf (b ++ [p])).length, (iBlockBytes (b ++ [p])).length⟩ ++
        List.replicate (maxVarintLen64 - (BlockHandle.encodeTo
          ⟨(fileOf (b ++ [p])).length,
            (iBlockBytes (b ++ [p])).length⟩).length) (byteOf 0))) ++
      putUint64LE sstMagic =
    footerBytes ⟨(fileOf (b ++ [p])).length, (iBlockBytes (b ++ [p])).length⟩ from rfl]
  rfl

theorem pairwise_strle_of_cross : ∀ (bs : List (List (ByteStr × Int × GoBytes))),
    (∀ B ∈ bs, B ≠ []) →
    bs.Pairwise (fun a b => ∀ x ∈ a, ∀ y ∈ b, rowBefore x y) →
    bs.Pairwise (fun a b => strLe (lastRowKey a) (lastRowKey b) = true) := by
  intro bs
  induction bs with
  | nil => intro _ _; exact List.Pairwise.nil
  | cons B rest ih =>
    intro hne hpw
    obtain ⟨hhead, htail⟩ := List.pairwise_cons.mp hpw
    refine List.pairwise_cons.mpr ⟨?_, ih (fun C hC => hne C (by simp [hC])) htail⟩
    intro C hC
    obtain ⟨qB, hqB, hkB⟩ := lastRowKey_mem B (hne B (by simp))
    obtain ⟨qC, hqC, hkC⟩ := lastRowKey_mem C (hne C (by simp [hC]))
    have hrel := hhead C hC qB hqB qC hqC
    have h2 := strLe_of_key_rel (rowBefore_key hrel)
    rw [hkB, hkC] at h2
    exact h2

theorem sstBuild_layout (rows : List (ByteStr × Int × GoBytes))
    (hrows : ∀ r ∈ rows, r.1.length ≤ 4096 ∧ goLen r.2.2 ≤ 524288)
    (hcnt : rows.length ≤ 50000) :
    ∃ blocks, sstBuild rows = .ok (sstFileOf blocks, false) ∧
      blocks.flatten = rows ∧
      (∀ B ∈ blocks, B = [] → blocks = [B]) ∧
      (∀ B ∈ blocks, (restBytes [] 0 (dEntries B)).length < 2 ^ 32) ∧
      (restBytes [] 0 (ibEntries (iEntries blocks))).length < 2 ^ 32 ∧
      (fileOf blocks).length < 2 ^ 35 ∧
      (iBlockBytes blocks).length < 2 ^ 28 := by
  obtain ⟨b2, p2, hfold, hpart, hp2, hb2, hrb2, hfo3⟩ := sstFold_inv rows [] []
    (by simpa using hrows) (by simpa using hcnt)
    (by rw [show dEntries ([] : List (ByteStr × Int × GoBytes)) = [] from rfl]; simp [restBytes])
    (fun _ => rfl) (by simp) (by rw [fileOf_nil]; simp)
  have hflat : (b2 ++ [p2]).flatten = rows := by
    rw [List.flatten_append]
    simp only [List.flatten_cons, List.flatten_nil, List.append_nil]
    rw [hpart]
    simp
  have hflatlen : b2.flatten.length + p2.length ≤ 50000 := by
    have := congrArg List.length hflat
    simp only [List.flatten_append, List.flatten_cons, List.flatten_nil, List.append_nil,
      List.length_append] at this
    omega
  have hb2len : b2.length ≤ b2.flatten.length :=
    length_le_flatten b2 (fun B hB => (hb2 B hB).1)
  have hemp : ∀ B ∈ b2 ++ [p2], B = [] → b2 ++ [p2] = [B] := by
    intro B hB hBe
    rcases List.mem_append.mp hB with hB1 | hB1
    · exact absurd hBe (hb2 B hB1).1
    · rw [List.mem_singleton] at hB1
      subst hB1
      rw [hp2 hBe, hBe]
      rfl
  have hdbsz : ∀ B ∈ b2 ++ [p2], (restBytes [] 0 (dEntries B)).length < 2 ^ 32 := by
    intro B hB
    rcases List.mem_append.mp hB with hB1 | hB1
    · have := (hb2 B hB1).2
      omega
    · rw [List.mem_singleton] at hB1
      subst hB1
      omega
  have hdbsz2 : ∀ B ∈ b2 ++ [p2], (restBytes [] 0 (dEntries B)).length ≤ 549000 := by
    intro B hB
    rcases List.mem_append.mp hB with hB1 | hB1
    · exact (hb2 B hB1).2
    · rw [List.mem_singleton] at hB1
      subst hB1
      exact hrb2
  have hfile35 : (fileOf (b2 ++ [p2])).length < 2 ^ 35 := by
    rw [fileOf_snoc]
    simp only [List.length_append, length_putUint32LE]
    have hd7 := dBlockBytes_len_le700000 hrb2
    omega
  have hkeys : ∀ B ∈ b2 ++ [p2], ∀ x ∈ B, x.1.length ≤ 4096 := by
    intro B hB x hx
    have hxr : x ∈ rows := by
      rw [← hflat]
      exact List.mem_flatten.mpr ⟨B, hB, hx⟩
    exact (hrows x hxr).1
  have hblk64 : ∀ B ∈ b2 ++ [p2], (dBlockBytes B).length < 2 ^ 64 := by
    intro B hB
    have := dBlockBytes_len_le700000 (hdbsz2 B hB)
    omega
  have hibsz : (restBytes [] 0 (ibEntries (iEntries (b2 ++ [p2])))).length ≤
      4121 * (b2.length + 1) := by
    have h := ib_restBytes_le (b2 ++ [p2]) hkeys hblk64 (by omega)
    simp only [List.length_append, List.length_cons, List.length_nil] at h
    omega
  have hibsz32 : (restBytes [] 0 (ibEntries (iEntries (b2 ++ [p2])))).length < 2 ^ 32 := by
    omega
  have hio28 : (iBlockBytes (b2 ++ [p2])).length < 2 ^ 28 := by
    show (blockBytes (ibEntries (iEntries (b2 ++ [p2])))).length < 2 ^ 28
    unfold blockBytes
    simp only [List.length_append, flatten_putUint32_length, length_putUint32LE]
    have hc1 := restarts_count_le (ibEntries (iEntries (b2 ++ [p2])))
    have hc2 : (ibEntries (iEntries (b2 ++ [p2]))).length = b2.length + 1 := by
      simp only [ibEntries, List.length_map, iEntriesAux_len]
      rw [show iEntries (b2 ++ [p2]) = iEntriesAux 0 (b2 ++ [p2]) from rfl, iEntriesAux_len]
      simp
    rw [hc2] at hc1
    omega
  have hencl : (BlockHandle.encodeTo
      ⟨(fileOf (b2 ++ [p2])).length, (iBlockBytes (b2 ++ [p2])).length⟩).length ≤ 10 := by
    unfold BlockHandle.encodeTo
    simp only [List.length_append]
    have h1 : (putUvarint (fileOf (b2 ++ [p2])).length).length ≤ 5 :=
      putUvarint_len_le (k := 5) (by omega) (by omega) (by omega)
    have h2 : (putUvarint (iBlockBytes (b2 ++ [p2])).length).length ≤ 4 :=
      putUvarint_len_le (k := 4) (by omega) (by omega) (by omega)
    omega
  refine ⟨b2 ++ [p2], ?_, hflat, hemp, hdbsz, hibsz32, hfile35, hio28⟩
  unfold sstBuild
  rw [← wOf_init, hfold]
  exact close_wOf b2 p2 hibsz32 hencl

theorem sstBuildFind (rows : List (ByteStr × Int × GoBytes)) (key : ByteStr)
    (hpw : rows.Pairwise rowBefore)
    (hb : ∀ r ∈ rows, r.1.length ≤ 4096 ∧ goLen r.2.2 ≤ 524288 ∧
      -(2 ^ 63) ≤ r.2.1 ∧ r.2.1 < 2 ^ 63)
    (hcnt : rows.length ≤ 50000) :
    ∃ file, sstBuild rows = .ok (file, false) ∧
      sstReaderFind file key =
        (match firstRow rows key with
         | some q => .ok (q.2, q.1)
         | none => .error .notFound) := by
  obtain ⟨blocks, hbuild, hflat, hemp, hdbsz, hibsz, hfo, hio⟩ :=
    sstBuild_layout rows (fun r hr => ⟨(hb r hr).1, (hb r hr).2.1⟩) hcnt
  refine ⟨sstFileOf blocks, hbuild, ?_⟩
  have hpwf : blocks.flatten.Pairwise rowBefore := by
    rw [hflat]
    exact hpw
  have hord : blocks.Pairwise (fun a b => strLe (lastRowKey a) (lastRowKey b) = true) := by
    by_cases hone : blocks.length ≤ 1
    · cases blocks with
      | nil => exact List.Pairwise.nil
      | cons B rest =>
        cases rest with
        | nil => simp
        | cons C rest2 => simp at hone
    · have hne : ∀ B ∈ blocks, B ≠ [] := by
        intro B hB hBe
        have h2 := hemp B hB hBe
        rw [h2] at hone
        simp at hone
      exact pairwise_strle_of_cross blocks hne (List.pairwise_flatten.mp hpwf).2
  have hrowb : ∀ r ∈ blocks.flatten, -(2 ^ 63) ≤ r.2.1 ∧ r.2.1 < 2 ^ 63 ∧
      (encodeEKey r.1 r.2.1).length < 2 ^ 64 ∧ goLen r.2.2 + 1 < 2 ^ 64 := by
    intro r hr
    rw [hflat] at hr
    obtain ⟨h1, h2, h3, h4⟩ := hb r hr
    refine ⟨h3, h4, ?_, by omega⟩
    have h5 := encodeEKey_len_le r.1 r.2.1
    omega
  rw [← hflat]
  exact sstReaderFind_layout blocks key hemp hpwf hrowb hdbsz hibsz hfo hio hord

/-- Claim C3.  Appending any stream of rows sorted by (key ascending, user
timestamp descending) — keys at most 4096 bytes, values at most 524288 bytes,
timestamps in the int64 range, at most 50000 rows — and closing yields a file
the reader opens successfully: `Find` on an inserted key returns the value and
timestamp of the newest inserted row with that key, and any key not in the
stream reports `ErrNotFound`. -/
theorem sst_build_find_roundtrip (rows : List (ByteStr × Int × GoBytes)) (key : ByteStr)
    (hpw : rows.Pairwise rowBefore)
    (hb : ∀ r ∈ rows, r.1.length ≤ 4096 ∧ goLen r.2.2 ≤ 524288 ∧
      -(2 ^ 63) ≤ r.2.1 ∧ r.2.1 < 2 ^ 63)
    (hcnt : rows.length ≤ 50000) :
    ∃ file, sstBuild rows = .ok (file, false) ∧
      ((∃ r ∈ rows, r.1 = key) →
        ∃ ts v, (key, ts, v) ∈ rows ∧ sstReaderFind file key = .ok (v, ts)) ∧
      ((∀ r ∈ rows, r.1 ≠ key) → sstReaderFind file key = .error .notFound) := by
  obtain ⟨file, hbuild, hfind⟩ := sstBuildFind rows key hpw hb hcnt
  refine ⟨file, hbuild, ?_, ?_⟩
  · intro hex
    obtain ⟨q, hq⟩ := firstRow_isSome_of_mem rows key hex
    refine ⟨q.1, q.2, firstRow_mem rows key q hq, ?_⟩
    rw [hfind, hq]
  · intro hnone
    rw [hfind, firstRow_none_of rows key hnone]

theorem sst_build_find_roundtrip_witness :
    (([([byteOf 97], (5 : Int), some [byteOf 98])] : List (ByteStr × Int × GoBytes)).Pairwise
      rowBefore ↔ True) ∧
    (∃ file, sstBuild [([byteOf 97], (5 : Int), some [byteOf 98])] = .ok (file, false) ∧
      ((∃ r ∈ [([byteOf 97], (5 : Int), some [byteOf 98])], r.1 = [byteOf 97]) →
        ∃ ts v, ([byteOf 97], ts, v) ∈ [([byteOf 97], (5 : Int), some [byteOf 98])] ∧
          sstReaderFind file [byteOf 97] = .ok (v, ts)) ∧
      ((∀ r ∈ [([byteOf 97], (5 : Int), some [byteOf 98])], r.1 ≠ [byteOf 97]) →
        sstReaderFind file [byteOf 97] = .error .notFound)) :=
  ⟨by simp, sst_build_find_roundtrip [([byteOf 97], (5 : Int), some [byteOf 98])]
    [byteOf 97] (by simp) (by decide) (by decide)⟩

/-- Claim C10.  A Put whose value is the zero-length non-nil slice is
distinguishable from a Delete all the way through the stack: built into an
SST, the reader's `Find` returns the empty non-nil value for the Put and the
nil value for the tombstone; `database.Find` (memtables empty, one SST)
surfaces exactly those, so `Server.Get` answers the empty value for the
former and `NotFound` only for the latter. -/
theorem emptyPut_vs_delete_spec (key : ByteStr) (ts : Int)
    (hk1 : 1 ≤ key.length) (hk2 : key.length ≤ 4096)
    (hts1 : -(2 ^ 63) < ts) (hts2 : ts < 2 ^ 63) :
    ∃ filePut fileDel,
      sstBuild [(key, ts, some [])] = .ok (filePut, false) ∧
      sstBuild [(key, ts, none)] = .ok (fileDel, false) ∧
      sstReaderFind filePut key = .ok (some [], ts) ∧
      sstReaderFind fileDel key = .ok (none, ts) ∧
      dbFind (fun _ => (none, false)) none [sstResOf filePut] key = .ok (some []) ∧
      dbFind (fun _ => (none, false)) none [sstResOf fileDel] key = .ok none ∧
      serverGet (dbFind (fun _ => (none, false)) none [sstResOf filePut]) key = .ok [] ∧
      serverGet (dbFind (fun _ => (none, false)) none [sstResOf fileDel]) key =
        .error .notFound := by
  obtain ⟨f1, hb1, hf1⟩ := sstBuildFind [(key, ts, some [])] key (by simp)
    (by
      intro r hr
      rw [List.mem_singleton] at hr
      subst hr
      exact ⟨hk2, by simp [goLen], by show -(2 ^ 63) ≤ ts; omega, hts2⟩)
    (by simp)
  obtain ⟨f2, hb2, hf2⟩ := sstBuildFind [(key, ts, none)] key (by simp)
    (by
      intro r hr
      rw [List.mem_singleton] at hr
      subst hr
      exact ⟨hk2, by simp [goLen], by show -(2 ^ 63) ≤ ts; omega, hts2⟩)
    (by simp)
  have hr1 : sstReaderFind f1 key = .ok (some [], ts) := by
    rw [hf1]
    rw [show firstRow [(key, ts, some [])] key = some (ts, some []) from by simp [firstRow]]
  have hr2 : sstReaderFind f2 key = .ok (none, ts) := by
    rw [hf2]
    rw [show firstRow [(key, ts, none)] key = some (ts, none) from by simp [firstRow]]
  have hs1 : sstResOf f1 key = .hit (some []) ts := by
    unfold sstResOf
    rw [hr1]
  have hs2 : sstResOf f2 key = .hit none ts := by
    unfold sstResOf
    rw [hr2]
  have htsmin : int64Min < ts := by
    unfold int64Min
    omega
  have hloop1 : findSstLoop [sstResOf f1] key none int64Min = .ok (some []) := by
    unfold findSstLoop
    rw [hs1]
    show (if int64Min < ts then findSstLoop [] key (some []) ts
      else findSstLoop [] key none int64Min) = Except.ok (some [])
    rw [if_pos htsmin]
    rfl
  have hloop2 : findSstLoop [sstResOf f2] key none int64Min = .ok none := by
    unfold findSstLoop
    rw [hs2]
    show (if int64Min < ts then findSstLoop [] key none ts
      else findSstLoop [] key none int64Min) = Except.ok none
    rw [if_pos htsmin]
    rfl
  have hd1 : dbFind (fun _ => (none, false)) none [sstResOf f1] key = .ok (some []) := by
    unfold dbFind
    dsimp only
    exact hloop1
  have hd2 : dbFind (fun _ => (none, false)) none [sstResOf f2] key = .ok none := by
    unfold dbFind
    dsimp only
    exact hloop2
  have hvk : validateKey key = none := by
    unfold validateKey
    rw [if_neg (by
      intro hc
      rw [hc] at hk1
      simp at hk1)]
    rw [if_neg (by
      have hm : key.length % 2 ^ 32 = key.length := Nat.mod_eq_of_lt (by omega)
      rw [hm]
      unfold MaxKeySize
      omega)]
  have hg1 : serverGet (dbFind (fun _ => (none, false)) none [sstResOf f1]) key = .ok [] := by
    unfold serverGet
    rw [hvk, hd1]
  have hg2 : serverGet (dbFind (fun _ => (none, false)) none [sstResOf f2]) key =
      .error .notFound := by
    unfold serverGet
    rw [hvk, hd2]
  exact ⟨f1, f2, hb1, hb2, hr1, hr2, hd1, hd2, hg1, hg2⟩

theorem emptyPut_vs_delete_spec_witness :
    (1 ≤ ([byteOf 97] : ByteStr).length) ∧
    (∃ filePut fileDel,
      sstBuild [([byteOf 97], (5 : Int), some [])] = .ok (filePut, false) ∧
      sstBuild [([byteOf 97], (5 : Int), none)] = .ok (fileDel, false) ∧
      sstReaderFind filePut [byteOf 97] = .ok (some [], 5) ∧
      sstReaderFind fileDel [byteOf 97] = .ok (none, 5) ∧
      dbFind (fun _ => (none, false)) none [sstResOf filePut] [byteOf 97] = .ok (some []) ∧
      dbFind (fun _ => (none, false)) none [sstResOf fileDel] [byteOf 97] = .ok none ∧
      serverGet (dbFind (fun _ => (none, false)) none [sstResOf filePut]) [byteOf 97] =
        .ok [] ∧
      serverGet (dbFind (fun _ => (none, false)) none [sstResOf fileDel]) [byteOf 97] =
        .error .notFound) :=
  ⟨by decide, emptyPut_vs_delete_spec [byteOf 97] 5 (by decide) (by decide)
    (by norm_num) (by norm_num)⟩

end DDB
